import Mathlib

/-!
# rgraph: `io.c`

A shallow embedding of the functions of `src/io.c` (role classifier, partition
loader, adjacency builder, bipartite projector) and theorems about them.

Conventions of the embedding.

* `double` values are exact rationals (`ℚ`): a theorem on computed weights and
  strengths names the exact quotient or sum the code computes, not its
  rounding.  Where the outcome of the code depends on what a double can hold
  this is written out: the arguments of `GetRole` are doubles with NaN and
  the infinities and its thresholds are the double constants, and the
  predicate `IsDouble` says that a rational is a double.
* Integer counters (`int`, `unsigned int`) are written as unbounded numbers
  where they stay in their machine range.  In `project_bipart` the places
  where they do not are written out: the unsigned `j-1` at `j = 0`, the
  `unsigned int` computation of the capacity `Emax` (its product
  `degree*(degree-1)` is the first to wrap as the input grows), and the
  result is `none` when a write leaves the buffer `projected` or `j` does not
  fit an `int`.
* A C array is a total function from indices to values (memory that can be
  read and written at any index), or a list where the code hands the buffer to
  `qsort`.  A read past the end of a list buffer yields what the memory there
  holds, which is a parameter of the function.
* A `Node *` is the index of the node in `part->nodes`, `NULL` is `none`.
* Allocation is assumed to succeed.
-/

set_option autoImplicit false

namespace Rgraph

/-! ## Data model -/

/-- Modelled from the spec: `partition.h` is not among the sources.  A node has
an identity, the index of its module, a strength, and the links threading the
nodes of one module into a list. -/
structure Node where
  id : Nat
  module : Int
  strength : ℚ
  prev : Option Nat
  next : Option Nat

/-- Modelled from the spec: `partition.h` is not among the sources.  A module
has a node count, the sum of its members' strengths and the head and tail of
its member list. -/
structure Module where
  size : Nat
  strength : ℚ
  first : Option Nat
  last : Option Nat

/-- Modelled from the spec: `partition.h` is not among the sources.  A partition
owns `N` nodes and `M` modules and counts the empty modules. -/
structure Partition where
  N : Nat
  M : Nat
  nempty : Int
  nodes : Nat → Node
  modules : Nat → Module

/-- Modelled from the spec: `partition.h` is not among the sources.  The
compressed adjacency: `idx` has `N+1` offsets, `neighbors` and `strength` are
parallel arrays of `2E` half-edges. -/
structure AdjaArray where
  N : Nat
  E : Nat
  idx : Nat → Int
  neighbors : Int → Nat
  strength : Int → ℚ

/-! ## `GetRole` -/

/-- A value of type `double`: NaN, an infinity, or a finite value, given as the
exact rational it stands for. -/
inductive Dbl where
  | nan : Dbl
  | ninf : Dbl
  | fin : ℚ → Dbl
  | pinf : Dbl

/-- The C comparison `x < c` of a `double` with a finite constant `c`: false
for NaN. -/
def Dbl.ltConst : Dbl → ℚ → Bool
  | Dbl.nan, _ => false
  | Dbl.ninf, _ => true
  | Dbl.fin a, c => decide (a < c)
  | Dbl.pinf, _ => false

/-- The C comparison `c <= x` of a finite constant `c` with a `double`: false
for NaN. -/
def Dbl.geConst : Dbl → ℚ → Bool
  | Dbl.nan, _ => false
  | Dbl.ninf, _ => false
  | Dbl.fin a, c => decide (c ≤ a)
  | Dbl.pinf, _ => true

/-- The `double` constant the literal `2.5` stands for (exact). -/
def c2_5 : ℚ := 5 / 2

/-- The `double` constant the literal `0.050` stands for: the double nearest to
`0.05`, which is `3602879701896397 / 2^56`. -/
def c0_050 : ℚ := 3602879701896397 / 72057594037927936

/-- The `double` constant the literal `0.620` stands for: `5584463537939415 / 2^53`. -/
def c0_620 : ℚ := 5584463537939415 / 9007199254740992

/-- The `double` constant the literal `0.800` stands for: `3602879701896397 / 2^52`. -/
def c0_800 : ℚ := 3602879701896397 / 4503599627370496

/-- The `double` constant the literal `0.300` stands for: `5404319552844595 / 2^54`. -/
def c0_300 : ℚ := 5404319552844595 / 18014398509481984

/-- The `double` constant the literal `0.750` stands for (exact). -/
def c0_750 : ℚ := 3 / 4

/-- The role number of a `(P, z)` pair (`io.c`, lines 17-38).  Every comparison
is the C comparison of doubles, so a NaN takes each `else` branch. -/
def GetRole (P z : Dbl) : Int :=
  if z.ltConst c2_5 then
    if P.ltConst c0_050 then 0
    else if P.ltConst c0_620 then 1
    else if P.ltConst c0_800 then 2
    else 3
  else
    if P.ltConst c0_300 then 4
    else if P.ltConst c0_750 then 5
    else 6

/-! ## `EdgeListToAdjaArray` -/

/-- One entry of the edge list: `nd_in[i]`, `nd_out[i]`, `weight[i]`. -/
structure WEdge where
  nd_in : Nat
  nd_out : Nat
  weight : ℚ

/-- The entries the loops `for (i=0;i<E;i++)` read from the three parallel
arrays, in order. -/
def edgeList (nd_in nd_out : List Nat) (weight : List ℚ) (E : Nat) : List WEdge :=
  (List.range E).map (fun i => ⟨nd_in.getD i 0, nd_out.getD i 0, weight.getD i 0⟩)

/-- The assignment `part->nodes[i]->strength += w`. -/
def addStrength (nodes : Nat → Node) (i : Nat) (w : ℚ) : Nat → Node :=
  Function.update nodes i { nodes i with strength := (nodes i).strength + w }

/-- The assignment `part->nodes[i]->strength /= w`. -/
def divStrength (nodes : Nat → Node) (i : Nat) (w : ℚ) : Nat → Node :=
  Function.update nodes i { nodes i with strength := (nodes i).strength / w }

/-- State of the first loop of `EdgeListToAdjaArray` (lines 156-164). -/
structure DegState where
  weightsum : ℚ
  nodes : Nat → Node
  degree : Nat → Int

/-- Body of the first loop (lines 157-163). -/
def degreeStep (s : DegState) (e : WEdge) : DegState :=
  let nodes1 := addStrength s.nodes e.nd_in e.weight
  let nodes2 := addStrength nodes1 e.nd_out e.weight
  let degree1 := Function.update s.degree e.nd_in (s.degree e.nd_in + 1)
  let degree2 := Function.update degree1 e.nd_out (degree1 e.nd_out + 1)
  { weightsum := s.weightsum + e.weight, nodes := nodes2, degree := degree2 }

/-- State of the second loop (lines 173-178). -/
structure IdxState where
  pos : Int
  idx : Nat → Int
  nodes : Nat → Node

/-- Body of the second loop (lines 175-177). -/
def idxStep (degree : Nat → Int) (weightsum : ℚ) (s : IdxState) (i : Nat) : IdxState :=
  { pos := s.pos + degree i,
    idx := Function.update s.idx i s.pos,
    nodes := divStrength s.nodes i weightsum }

/-- State of the third loop (lines 188-203). -/
structure FillState where
  degree : Nat → Int
  neighbors : Int → Nat
  strength : Int → ℚ

/-- The position `idx[nd+1]-degree[nd]` a half-edge of node `nd` is written to
(lines 190-191). -/
def fillPos (idx : Nat → Int) (degree : Nat → Int) (nd : Nat) : Int :=
  idx (nd + 1) - degree nd

/-- Body of the third loop (lines 190-201). -/
def fillStep (idx : Nat → Int) (weightsum : ℚ) (s : FillState) (e : WEdge) : FillState :=
  let idx_in := fillPos idx s.degree e.nd_in
  let idx_out := fillPos idx s.degree e.nd_out
  let neighbors1 := Function.update s.neighbors idx_in e.nd_out
  let strength1 := Function.update s.strength idx_in (e.weight / weightsum)
  let neighbors2 := Function.update neighbors1 idx_out e.nd_in
  let strength2 := Function.update strength1 idx_out (e.weight / weightsum)
  let degree1 := Function.update s.degree e.nd_in (s.degree e.nd_in - 1)
  let degree2 := Function.update degree1 e.nd_out (degree1 e.nd_out - 1)
  { degree := degree2, neighbors := neighbors2, strength := strength2 }

/-- The state after the first loop: `degree` starts as `calloc`ed zeros. -/
def degreePass (es : List WEdge) (part : Partition) : DegState :=
  es.foldl degreeStep { weightsum := 0, nodes := part.nodes, degree := fun _ => 0 }

/-- The normalization constant after lines 168-169. -/
def normConst (es : List WEdge) (part : Partition) (normalize : Int) : ℚ :=
  if normalize = 0 then 1 else (degreePass es part).weightsum

/-- The state after the second loop. -/
def idxPass (es : List WEdge) (adj : AdjaArray) (part : Partition) (normalize : Int) : IdxState :=
  (List.range adj.N).foldl (idxStep (degreePass es part).degree (normConst es part normalize))
    { pos := 0, idx := adj.idx, nodes := (degreePass es part).nodes }

/-- The state the third loop starts from. -/
def fillInit (es : List WEdge) (adj : AdjaArray) (part : Partition) : FillState :=
  { degree := (degreePass es part).degree, neighbors := adj.neighbors, strength := adj.strength }

/-- The function `EdgeListToAdjaArray` (`io.c`, lines 142-205), on the success
path: the return code (0), the adjacency array and the partition it leaves. -/
def EdgeListToAdjaArray (nd_in nd_out : List Nat) (weight : List ℚ)
    (adj : AdjaArray) (part : Partition) (normalize : Int) : Int × AdjaArray × Partition :=
  let es := edgeList nd_in nd_out weight adj.E
  let p2 := idxPass es adj part normalize
  let p3 := es.foldl (fillStep p2.idx (normConst es part normalize)) (fillInit es adj part)
  (0, { adj with idx := p2.idx, neighbors := p3.neighbors, strength := p3.strength },
      { part with nodes := p2.nodes })

/-- Modelled from the spec: `partition.h` is not among the sources.  The
transient `Edge` record `(node1, node2, strength)` sorted during projection. -/
structure Edge where
  node1 : Nat
  node2 : Nat
  strength : ℚ

/-- The comparison `compare_edges` (`io.c`, lines 217-233): by `node2`, then by
`node1`. -/
def compare_edges (p1 p2 : Edge) : Int :=
  if p1.node2 < p2.node2 then -1
  else if p1.node2 > p2.node2 then 1
  else if p1.node1 < p2.node1 then -1
  else if p1.node1 > p2.node1 then 1
  else 0

/-- The contract of the C library's `qsort` called with `compare_edges`: the
result is a rearrangement of the buffer in which no earlier element compares
greater than a later one.  The order of elements that compare equal is left
open. -/
def QsortSpec (qsort : List Edge → List Edge) : Prop :=
  ∀ l, (qsort l).Perm l ∧ (qsort l).Pairwise (fun a b => compare_edges a b ≤ 0)

/-- A sorting function meeting `QsortSpec`: insertion sort by `compare_edges`. -/
def insertionQsort (l : List Edge) : List Edge :=
  l.insertionSort (fun a b => compare_edges a b ≤ 0)

/-- The read `buf[i]`: the buffer entry, or what memory holds past its end. -/
def rd (buf : List Edge) (mem : Nat → Edge) (i : Nat) : Edge :=
  buf.getD i (mem i)

/-- The records `ed[i]` built by the loop at lines 247-251. -/
def loadEdges (nd_in nd_out : List Nat) (weights : List ℚ) (E : Nat) : List Edge :=
  (List.range E).map (fun i => ⟨nd_in.getD i 0, nd_out.getD i 0, weights.getD i 0⟩)

/-- The test `ed[i].node2 != ed[i+1].node2 || i == count-1` closing a group
(lines 259 and 271). -/
def groupEnds (ed : List Edge) (mem : Nat → Edge) (count i : Nat) : Prop :=
  (rd ed mem i).node2 ≠ (rd ed mem (i + 1)).node2 ∨ i + 1 = count

instance (ed : List Edge) (mem : Nat → Edge) (count i : Nat) :
    Decidable (groupEnds ed mem count i) := by
  unfold groupEnds; infer_instance

/-- Body of the counting loop (lines 258-262) on the state `(degree, Emax)`.
The product `(degree)*(degree-1)` and the sum `Emax += ...` are computed in
`unsigned int`, that is modulo `2^32`. -/
def emaxStep (ed : List Edge) (mem : Nat → Edge) (count : Nat) (s : Nat × Nat) (i : Nat) :
    Nat × Nat :=
  let degree := s.1 + 1
  if groupEnds ed mem count i then
    (0, (s.2 + (degree * (degree - 1)) % 4294967296 / 2) % 4294967296)
  else (degree, s.2)

/-- The capacity `Emax` after the counting loop (lines 256-263). -/
def countEmax (ed : List Edge) (mem : Nat → Edge) (count : Nat) : Nat :=
  ((List.range count).foldl (emaxStep ed mem count) (0, 0)).2

/-- The record written to `projected[j]` for the positions `x`, `y` (lines
274-281); the two branches of the orientation test store the same endpoints. -/
def pairEdge (ex ey : Edge) : Edge :=
  if ex.node1 < ey.node1 then
    { node1 := ex.node1, node2 := ey.node1, strength := ex.strength * ey.strength }
  else
    { node1 := ex.node1, node2 := ey.node1, strength := ex.strength * ey.strength }

/-- The records appended by the two inner loops (lines 272-284): `x` from `x0`
to `i`, and for each `x`, `y` from `x0` to `x-1`. -/
def genPairs (ed : List Edge) (mem : Nat → Edge) (x0 i : Nat) : List Edge :=
  (List.range' x0 (i + 1 - x0)).flatMap (fun x =>
    (List.range' x0 (x - x0)).map (fun y => pairEdge (rd ed mem x) (rd ed mem y)))

/-- State of the generating loop (lines 267-288): `projected` holds the `j`
records written so far. -/
structure GenState where
  degree : Nat
  projected : List Edge
  x0 : Nat

/-- Body of the generating loop (lines 270-287). -/
def genStep (ed : List Edge) (mem : Nat → Edge) (count : Nat) (s : GenState) (i : Nat) :
    GenState :=
  if groupEnds ed mem count i then
    { degree := 0, projected := s.projected ++ genPairs ed mem s.x0 i, x0 := i + 1 }
  else
    { degree := s.degree + 1, projected := s.projected, x0 := s.x0 }

/-- The records the generating loop (lines 267-288) writes to `projected[0]`,
`projected[1]`, ... in this order, whether or not the buffer holds them: their
number is the final value of `j`. -/
def genWrites (ed : List Edge) (mem : Nat → Edge) (count : Nat) : List Edge :=
  ((List.range count).foldl (genStep ed mem count)
    { degree := 0, projected := [], x0 := 0 }).projected

/-- The buffer `projected[0..j)` after the generating loop, the buffer having
room for the `Emax` records allocated at line 264: `none` when a write
`projected[j]` falls outside it, that is when more than `Emax` records are
written (the source then writes past the end of the allocation). -/
def generate (ed : List Edge) (mem : Nat → Edge) (count Emax : Nat) : Option (List Edge) :=
  if (genWrites ed mem count).length ≤ Emax then some (genWrites ed mem count) else none

/-- The bound `j-1` of the loop at line 293, computed in `unsigned int`:
`UINT_MAX` when `j = 0`. -/
def uniqBound (j : Nat) : Nat := if j = 0 then 4294967295 else j - 1

/-- Body of the loop counting the unique edges (lines 294-295). -/
def uniqStep (projected : List Edge) (mem : Nat → Edge) (E : Int) (i : Nat) : Int :=
  if compare_edges (rd projected mem i) (rd projected mem (i + 1)) = 0 then E - 1 else E

/-- The value of `E` after lines 292-296. -/
def countUnique (projected : List Edge) (mem : Nat → Edge) : Int :=
  (List.range (uniqBound projected.length)).foldl (uniqStep projected mem) projected.length

/-- State of the output loop (lines 303-310). -/
structure OutState where
  k : Nat
  nodes1 : Nat → Nat
  nodes2 : Nat → Nat
  strength : Nat → ℚ

/-- Body of the output loop (lines 305-309). -/
def outStep (projected : List Edge) (mem : Nat → Edge) (s : OutState) (i : Nat) : OutState :=
  { k := if compare_edges (rd projected mem i) (rd projected mem (i + 1)) ≠ 0 then s.k + 1 else s.k,
    nodes1 := Function.update s.nodes1 s.k (rd projected mem i).node1,
    nodes2 := Function.update s.nodes2 s.k (rd projected mem i).node2,
    strength := Function.update s.strength s.k (s.strength s.k + (rd projected mem i).strength) }

/-- The local arrays after the output loop; `strength` starts as `calloc`ed
zeros, `nodes1` and `nodes2` are shown zeroed. -/
def fillOutput (projected : List Edge) (mem : Nat → Edge) : OutState :=
  (List.range projected.length).foldl (outStep projected mem)
    { k := 0, nodes1 := fun _ => 0, nodes2 := fun _ => 0, strength := fun _ => 0 }

/-- What `project_bipart` leaves: the value of `E` at `return E`, the buffers
it computed, its local arrays `nodes1`, `nodes2`, `strength`, and the caller's
arrays `proj1`, `proj2`, `projW`. -/
structure ProjResult where
  ret : Int
  ed : List Edge
  Emax : Nat
  generated : List Edge
  projected : List Edge
  nodes1 : Nat → Nat
  nodes2 : Nat → Nat
  strength : Nat → ℚ
  proj1 : Nat → Nat
  proj2 : Nat → Nat
  projW : Nat → ℚ

/-- The values of the variables of `project_bipart` along a run in which every
write `projected[j]` is taken to land in the buffer: the sorted input, the
capacity `Emax`, the records written, the sorted records, the local arrays and
the value of `E` at `return E`.  `qsort` is the library sort, `mem_ed` and
`mem_proj` are the contents of memory past the end of the buffers `ed` and
`projected`. -/
def project_bipart_trace (qsort : List Edge → List Edge) (mem_ed mem_proj : Nat → Edge)
    (nd_in nd_out : List Nat) (weights : List ℚ) (E : Nat)
    (proj1 proj2 : Nat → Nat) (projW : Nat → ℚ) : ProjResult :=
  let count := E
  let ed := qsort (loadEdges nd_in nd_out weights count)
  let Emax := countEmax ed mem_ed count
  let generated := genWrites ed mem_ed count
  let projected := qsort generated
  let out := fillOutput projected mem_proj
  { ret := countUnique projected mem_proj,
    ed := ed, Emax := Emax, generated := generated, projected := projected,
    nodes1 := out.nodes1, nodes2 := out.nodes2, strength := out.strength,
    proj1 := proj1, proj2 := proj2, projW := projW }

/-- The function `project_bipart` (`io.c`, lines 240-312).  The result is `none`
when the run does not come to its `return` with its memory intact: when the
generating loop writes more records than the `Emax` allocated (a write past the
end of `projected`), or when the number `j` of records reaches `2^31`, which
the `int` variables `E = j` and `i` cannot hold.  A read past the end of a
buffer does not end the run: `ed[i+1]` at `i = count-1`, `projected[i+1]` at
`i = j-1` and, when `j = 0`, the reads of the loop at line 293 yield what
memory holds (`mem_ed`, `mem_proj`); the value of `E` at `return E` is then
written as an unbounded integer, which is not positive when `j = 0`. -/
def project_bipart (qsort : List Edge → List Edge) (mem_ed mem_proj : Nat → Edge)
    (nd_in nd_out : List Nat) (weights : List ℚ) (E : Nat)
    (proj1 proj2 : Nat → Nat) (projW : Nat → ℚ) : Option ProjResult :=
  let count := E
  let ed := qsort (loadEdges nd_in nd_out weights count)
  let Emax := countEmax ed mem_ed count
  match generate ed mem_ed count Emax with
  | none => none
  | some generated =>
    if 2147483648 ≤ generated.length then none
    else
      let projected := qsort generated
      let out := fillOutput projected mem_proj
      some
        { ret := countUnique projected mem_proj,
          ed := ed, Emax := Emax, generated := generated, projected := projected,
          nodes1 := out.nodes1, nodes2 := out.nodes2, strength := out.strength,
          proj1 := proj1, proj2 := proj2, projW := projW }

/-- The final edge list: the first `E'` entries of `nodes1`, `nodes2`,
`strength`, where `E'` is the returned count. -/
def finalList (r : ProjResult) : List Edge :=
  (List.range r.ret.toNat).map (fun k => ⟨r.nodes1 k, r.nodes2 k, r.strength k⟩)

/-! ### Notions used in the statements on `project_bipart` -/

/-- The records the position `x` of the sorted buffer contributes: one for each
earlier position `y` with the same `node2`, in ascending order of `y`. -/
def pairsAt (ed : List Edge) (mem : Nat → Edge) (x : Nat) : List Edge :=
  ((List.range x).filter (fun y => (rd ed mem y).node2 = (rd ed mem x).node2)).map
    (fun y => pairEdge (rd ed mem x) (rd ed mem y))

/-- The records contributed by the positions below `n`. -/
def allPairs (ed : List Edge) (mem : Nat → Edge) (n : Nat) : List Edge :=
  (List.range n).flatMap (pairsAt ed mem)

/-- Number of positions `s < t` at which the record differs from its successor
under `compare_edges`: the index `k` at which the output loop stores record
`t`. -/
def groupIndex (projected : List Edge) (mem : Nat → Edge) (t : Nat) : Nat :=
  ((List.range t).filter
    (fun s => decide (compare_edges (rd projected mem s) (rd projected mem (s + 1)) ≠ 0))).length

/-- Whether the two-mode input joins the `nd_in` id `a` to the `nd_out` id `c`. -/
def adjacent (es : List Edge) (a c : Nat) : Bool :=
  es.any (fun e => decide (e.node1 = a ∧ e.node2 = c))

/-- The weight of the input edge joining `a` to `c` (0 when there is none). -/
def weightOf (es : List Edge) (a c : Nat) : ℚ :=
  ((es.find? (fun e => decide (e.node1 = a ∧ e.node2 = c))).map (fun e => e.strength)).getD 0

/-- The nodes adjacent to both `a` and `b` in the two-mode input: the `nd_out`
ids of the edges from `a`, in input order, kept when `b` is joined to them. -/
def commonNeighbours (es : List Edge) (a b : Nat) : List Nat :=
  ((es.filter (fun e => decide (e.node1 = a))).map (fun e => e.node2)).filter
    (fun c => adjacent es b c)

/-- The `(nd_in, nd_out)` pairs of the input are unique. -/
def UniquePairs (es : List Edge) : Prop :=
  (es.map (fun e => (e.node1, e.node2))).Nodup

/-- The contribution of an ordered pair of input edges to the weight of the
projected edge `(a, b)`: the product of their weights when they join `a` and
`b` to the same node. -/
def pairTerm (a b : Nat) (ex ey : Edge) : ℚ :=
  if ex.node2 = ey.node2 ∧ ex.node1 = a ∧ ey.node1 = b then ex.strength * ey.strength else 0

/-- Memory holding zeroed records. -/
def zeroMem : Nat → Edge := fun _ => ⟨0, 0, 0⟩

/-! ## `AssignNodesToModulesFromFile` -/

/-- The node index `hsearch` finds for a label: the table holds `labels[i]` for
`i < N`, entered in ascending order, so a label is found at its first index;
`none` when the label is not in the table (`ep` is `NULL`). -/
def lookupLabel (labels : List String) (N : Nat) (label : String) : Option Nat :=
  (List.range N).find? (fun i => decide (labels[i]? = some label))

/-- State of the assignment loop (lines 91-118). -/
structure LoadState where
  part : Partition
  j : Nat
  nnode : Int

/-- Body of the assignment loop for one label read from the stream (lines
94-116).  A token is the label and whether the separator read after it starts
with a newline.  The result is `none` when the code dereferences `NULL`: the
label is not in the table, or the module has a size but no `last`. -/
def assignStep (labels : List String) (s : LoadState) (tok : String × Bool) : Option LoadState :=
  match lookupLabel labels s.part.N tok.1 with
  | none => none
  | some i =>
    if (s.part.modules s.j).size = 0 then
      some
        { part :=
            { s.part with
              nempty := s.part.nempty - 1,
              nodes := Function.update s.part.nodes i { s.part.nodes i with module := s.j },
              modules := Function.update s.part.modules s.j
                { size := 1, strength := (s.part.nodes i).strength,
                  first := some i, last := some i } },
          j := if tok.2 then s.j + 1 else s.j,
          nnode := s.nnode - 1 }
    else
      match (s.part.modules s.j).last with
      | none => none
      | some l =>
        let nodes1 := Function.update s.part.nodes i { s.part.nodes i with module := s.j }
        let nodes2 := Function.update nodes1 l { nodes1 l with next := some i }
        let nodes3 := Function.update nodes2 i { nodes2 i with prev := some l }
        some
          { part :=
              { s.part with
                nodes := nodes3,
                modules := Function.update s.part.modules s.j
                  { size := (s.part.modules s.j).size + 1,
                    strength := (s.part.modules s.j).strength + (s.part.nodes i).strength,
                    first := (s.part.modules s.j).first,
                    last := some i } },
            j := if tok.2 then s.j + 1 else s.j,
            nnode := s.nnode - 1 }

/-- The characters of the scan set `[\t\n]` of the format
`"%[^\t\n]%[\t\n]"` (line 92). -/
def isSep (c : Char) : Bool := c == '\t' || c == '\n'

/-- The loop `while (!feof(inF))` (lines 91-118) on the unread characters `cs`
of the stream, entered with the end-of-file indicator clear.  One iteration is
one call of `fscanf` with the format `"%[^\t\n]%[\t\n]"` followed by the body
`assignStep`:

* nothing left to read: `fscanf` returns `EOF`, which `if (nfields)` takes for
  a label read, and `hsearch` is asked for the unset `label`; the result is
  `none` (the `NULL` it returns is dereferenced);
* the next character is a tab or a newline: `fscanf` returns 0 and reads
  nothing, so the loop never ends; the result is `none`;
* otherwise the label is the run of characters up to the next tab or newline,
  and `sep` receives the whole run of tabs and newlines after it; the result is
  `none` when the label with its terminator does not fit `label`
  (`MAX_LABEL_LENGTH` characters, a constant of a header that is not among the
  sources: the parameter `maxLabel`) or the run with its terminator does not fit
  `char sep[2]`.  When the label ends the stream no separator is read; the test
  `sep[0]=='\n'` then only decides the value of `j`, which is not used again,
  and is shown as false.

The loop goes on while characters are left.  `fuel` bounds the number of
iterations. -/
def assignLoopFrom (labels : List String) (maxLabel : Nat) :
    Nat → List Char → LoadState → Option LoadState
  | 0, _, _ => none
  | fuel + 1, cs, s =>
    match cs with
    | [] => none
    | c :: _ =>
      if isSep c then none
      else
        let label := cs.takeWhile (fun x => !isSep x)
        let rest1 := cs.dropWhile (fun x => !isSep x)
        let sepRun := rest1.takeWhile isSep
        let rest2 := rest1.dropWhile isSep
        if maxLabel ≤ label.length then none
        else if 2 ≤ sepRun.length then none
        else
          match assignStep labels s (String.mk label, sepRun.head? == some '\n') with
          | none => none
          | some s1 =>
            if rest2.isEmpty then some s1 else assignLoopFrom labels maxLabel fuel rest2 s1

/-- The assignment loop (lines 91-118) on the stream `inF`: every iteration
reads at least one character, so `inF.length` iterations are enough. -/
def assignLoop (labels : List String) (maxLabel : Nat) (inF : List Char) (part : Partition) :
    Option LoadState :=
  assignLoopFrom labels maxLabel inF.length inF { part := part, j := 0, nnode := part.N }

/-- The function `AssignNodesToModulesFromFile` (`io.c`, lines 74-123): the
returned count and the partition it leaves, `none` when the call does not
return.  `CompressPartition` is not among the sources and is a parameter. -/
def AssignNodesToModulesFromFile (CompressPartition : Partition → Partition)
    (maxLabel : Nat) (inF : List Char) (part : Partition) (labels : List String) :
    Option (Int × Partition) :=
  match assignLoop labels maxLabel inF part with
  | none => none
  | some s => some (s.nnode, CompressPartition s.part)

/-! ### Notions used in the statements on `AssignNodesToModulesFromFile` -/

/-- The body of the loop run once for each of the tokens `toks`, a token being
a label and whether the separator after it is a newline. -/
def assignTokens (labels : List String) (toks : List (String × Bool)) (part : Partition) :
    Option LoadState :=
  toks.foldlM (assignStep labels) { part := part, j := 0, nnode := part.N }

/-- The text of a label stream: every label followed by one separator
character, a newline when the label ends a line and a tab otherwise. -/
def render (toks : List (String × Bool)) : List Char :=
  toks.flatMap (fun t => t.1.data ++ [if t.2 then '\n' else '\t'])

/-- The labels are such as can stand in a stream: not empty, free of tabs and
newlines, and short enough for the buffer `label`. -/
def LabelsFit (maxLabel : Nat) (toks : List (String × Bool)) : Prop :=
  ∀ t ∈ toks, t.1.data ≠ [] ∧ (∀ c ∈ t.1.data, isSep c = false) ∧ t.1.data.length < maxLabel

/-- The number of the text line (0-based) that holds the character at offset
`pos` of the stream: the number of newline characters before it. -/
def textLine (inF : List Char) (pos : Nat) : Nat :=
  (inF.take pos).count '\n'

/-- The offset in the stream `render toks` at which the label of token `k`
starts. -/
def tokenStart (toks : List (String × Bool)) (k : Nat) : Nat :=
  (render (toks.take k)).length

/-- The nodes named on text line `j` (0-based) of the stream `render toks`, in
stream order: the nodes of the labels that start on that line. -/
def textLineNodes (labels : List String) (N : Nat) (toks : List (String × Bool)) (j : Nat) :
    List Nat :=
  (List.range toks.length).filterMap (fun k =>
    if textLine (render toks) (tokenStart toks k) = j then
      (toks[k]?).bind (fun t => lookupLabel labels N t.1)
    else none)

/-- The number of tokens before token `k` whose separator is a newline: the
value the counter `j` of the loop has when token `k` is read. -/
def lineIndex (inF : List (String × Bool)) (k : Nat) : Nat :=
  ((inF.take k).filter (fun t => t.2)).length

/-- Invariant of the assignment loop after `n` labels: the module sizes sum to
`n`, `nempty` counts the modules of size 0, and a module with a size has a
`last` node. -/
def LoadInv (M : Nat) (s : LoadState) (n : Nat) : Prop :=
  s.part.M = M ∧
  ∑ m in Finset.range M, (s.part.modules m).size = n ∧
  s.part.nempty = ((∑ m in Finset.range M, if (s.part.modules m).size = 0 then 1 else 0 : Nat) : Int) ∧
  ∀ m, m < M → (s.part.modules m).size ≠ 0 → (s.part.modules m).last ≠ none

/-- The known labels `labels[0..N)` that do not occur in the stream. -/
def missingLabels (labels : List String) (N : Nat) (inF : List (String × Bool)) : List String :=
  (labels.take N).filter (fun l => decide (l ∉ inF.map Prod.fst))

/-- The nodes visited by the traversal `for (node = first; node != NULL;
node = node->next)` of a module list (as in `ClusteringOutput`, lines 67-69),
started at `start`; `fuel` bounds the number of nodes visited. -/
def walk (nodes : Nat → Node) : Nat → Option Nat → List Nat
  | 0, _ => []
  | _ + 1, none => []
  | fuel + 1, some i => i :: walk nodes fuel (nodes i).next

/-- The nodes of the tokens read while the counter `j` of the loop has the
value `j`, in stream order. -/
def lineNodes (labels : List String) (N : Nat) (inF : List (String × Bool)) (j : Nat) :
    List Nat :=
  (List.range inF.length).filterMap (fun k =>
    if lineIndex inF k = j then (inF[k]?).bind (fun t => lookupLabel labels N t.1) else none)

/-- Invariant of the assignment loop on the module lists, `L m` being the nodes
assigned to module `m` so far, in the order of assignment: node strengths are
those on entry `part0`; each module records the length of its list, the sum of
its members' strengths, its head and its tail; the members carry the module
index and are chained by `next`; the tail and the nodes not yet assigned have
no `next`. -/
def ListsInv (M : Nat) (part0 p : Partition) (L : Nat → List Nat) : Prop :=
  (∀ i, (p.nodes i).strength = (part0.nodes i).strength) ∧
  (∀ m, m < M →
    (p.modules m).size = (L m).length ∧
    (p.modules m).strength = ((L m).map (fun i => (part0.nodes i).strength)).sum ∧
    (p.modules m).first = (L m).head? ∧
    (L m ≠ [] → (p.modules m).last = (L m).getLast?) ∧
    (∀ i ∈ L m, (p.nodes i).module = (m : Int)) ∧
    (L m).Chain' (fun a b => (p.nodes a).next = some b) ∧
    (∀ i, (L m).getLast? = some i → (p.nodes i).next = none)) ∧
  (∀ i, i < part0.N → (∀ m, m < M → i ∉ L m) → (p.nodes i).next = none)

/-! ### Notions used in the statements on `EdgeListToAdjaArray` -/

/-- The input edges with an endpoint at `u`, in input order. -/
def incident (es : List WEdge) (u : Nat) : List WEdge :=
  es.filter (fun e => e.nd_in = u ∨ e.nd_out = u)

/-- Number of endpoints of `e` that are `u` (2 for a self-loop at `u`). -/
def ends (e : WEdge) (u : Nat) : Nat :=
  (if e.nd_in = u then 1 else 0) + (if e.nd_out = u then 1 else 0)

/-- Number of edge endpoints at `u`. -/
def endCount (es : List WEdge) (u : Nat) : Nat := (es.map (fun e => ends e u)).sum

/-- The prefix-sum property of the offset table after `EdgeListToAdjaArray`:
`idx[0] = 0` and `idx[i+1] - idx[i]` is the number of input edges incident to
`i`, for every node `i < N`. -/
def IdxIsDegreeSum (nd_in nd_out : List Nat) (weight : List ℚ)
    (adj : AdjaArray) (part : Partition) (normalize : Int) : Prop :=
  (EdgeListToAdjaArray nd_in nd_out weight adj part normalize).2.1.idx 0 = 0 ∧
  ∀ i < adj.N,
    (EdgeListToAdjaArray nd_in nd_out weight adj part normalize).2.1.idx (i + 1) -
      (EdgeListToAdjaArray nd_in nd_out weight adj part normalize).2.1.idx i =
    ((incident (edgeList nd_in nd_out weight adj.E) i).length : Int)

/-- A partition of `n` nodes of strength 0 and `m` empty modules, as freshly
allocated. -/
def freshPartition (n m : Nat) : Partition :=
  { N := n, M := m, nempty := m,
    nodes := fun i => { id := i, module := 0, strength := 0, prev := none, next := none },
    modules := fun _ => { size := 0, strength := 0, first := none, last := none } }

/-- An adjacency array of capacity `(n, e)` with zeroed arrays and `idx[n]`
holding `2e`. -/
def freshAdjaArray (n e : Nat) : AdjaArray :=
  { N := n, E := e, idx := fun i => if i = n then 2 * (e : Int) else 0,
    neighbors := fun _ => 0, strength := fun _ => 0 }

/-- An adjacency array of capacity `(n, e)` with all arrays zeroed. -/
def zeroAdjaArray (n e : Nat) : AdjaArray :=
  { N := n, E := e, idx := fun _ => 0, neighbors := fun _ => 0, strength := fun _ => 0 }

/-! ## Lemmas on `EdgeListToAdjaArray` -/

theorem divStrength_strength (nodes : Nat → Node) (i : Nat) (w : ℚ) (u : Nat) :
    (divStrength nodes i w u).strength =
      if i = u then (nodes u).strength / w else (nodes u).strength := by
  unfold divStrength
  by_cases h : i = u
  · subst h; simp
  · rw [Function.update_noteq (Ne.symm h)]; simp [h]

theorem degreeStep_degree (s : DegState) (e : WEdge) (u : Nat) :
    (degreeStep s e).degree u = s.degree u + (ends e u : Int) := by
  simp only [degreeStep, ends, Function.update_apply]
  by_cases h1 : u = e.nd_in <;> by_cases h2 : u = e.nd_out <;>
    simp [h1, h2, eq_comm] <;> (try subst h1) <;> (try subst h2) <;> simp_all [eq_comm] <;> omega

theorem foldl_degreeStep_degree (es : List WEdge) (s : DegState) (u : Nat) :
    (es.foldl degreeStep s).degree u = s.degree u + (endCount es u : Int) := by
  induction es generalizing s with
  | nil => simp [endCount]
  | cons e es ih =>
    rw [List.foldl_cons, ih, degreeStep_degree]
    simp [endCount]; ring

theorem degreePass_degree (es : List WEdge) (part : Partition) (u : Nat) :
    (degreePass es part).degree u = (endCount es u : Int) := by
  simp [degreePass, foldl_degreeStep_degree]

/-- The second loop after `n` iterations. -/
theorem foldl_idxStep (d : Nat → Int) (D : ℚ) (s : IdxState) (n : Nat) :
    let r := (List.range n).foldl (idxStep d D) s
    r.pos = s.pos + ∑ v in Finset.range n, d v ∧
    (∀ u, r.idx u = if u < n then s.pos + ∑ v in Finset.range u, d v else s.idx u) ∧
    (∀ u, (r.nodes u).strength =
      if u < n then (s.nodes u).strength / D else (s.nodes u).strength) := by
  induction n with
  | zero => simp
  | succ n ih =>
    obtain ⟨h1, h2, h3⟩ := ih
    simp only [List.range_succ, List.foldl_append, List.foldl_cons, List.foldl_nil]
    refine ⟨?_, ?_, ?_⟩
    · simp only [idxStep, h1, Finset.sum_range_succ]; ring
    · intro u
      simp only [idxStep, Function.update_apply]
      by_cases hu : u = n
      · subst hu; simp [h1]
      · simp only [hu, if_false, h2]
        by_cases hlt : u < n
        · simp [hlt, Nat.lt_succ_of_lt hlt]
        · have : ¬ u < n + 1 := by omega
          simp [hlt, this]
    · intro u
      simp only [idxStep, divStrength_strength]
      by_cases hu : n = u
      · subst hu; simp [h3]
      · simp only [hu, if_false, h3]
        by_cases hlt : u < n
        · simp [hlt, Nat.lt_succ_of_lt hlt]
        · have : ¬ u < n + 1 := by omega
          simp [hlt, this]

theorem ends_of_ne (e : WEdge) (h : e.nd_in ≠ e.nd_out) (u : Nat) :
    ends e u = if e.nd_in = u ∨ e.nd_out = u then 1 else 0 := by
  unfold ends
  by_cases h1 : e.nd_in = u <;> by_cases h2 : e.nd_out = u <;> simp [h1, h2]
  exact h (h1.trans h2.symm)

theorem endCount_eq_length (es : List WEdge) (h : ∀ e ∈ es, e.nd_in ≠ e.nd_out) (u : Nat) :
    endCount es u = (incident es u).length := by
  induction es with
  | nil => simp [endCount, incident]
  | cons e es ih =>
    have he := h e (List.mem_cons_self _ _)
    have ih' := ih (fun x hx => h x (List.mem_cons_of_mem _ hx))
    simp only [endCount, List.map_cons, List.sum_cons] at ih' ⊢
    rw [ih', ends_of_ne e he]
    by_cases hc : e.nd_in = u ∨ e.nd_out = u <;> simp [incident, List.filter_cons, hc] <;> omega

theorem sum_ends (e : WEdge) (N : Nat) (h : e.nd_in < N ∧ e.nd_out < N) :
    ∑ v in Finset.range N, ends e v = 2 := by
  simp only [ends, Finset.sum_add_distrib, Finset.sum_ite_eq, Finset.mem_range, h.1, h.2, if_true]

theorem sum_endCount (es : List WEdge) (N : Nat) (h : ∀ e ∈ es, e.nd_in < N ∧ e.nd_out < N) :
    ∑ v in Finset.range N, endCount es v = 2 * es.length := by
  induction es with
  | nil => simp [endCount]
  | cons e es ih =>
    have ih' := ih (fun x hx => h x (List.mem_cons_of_mem _ hx))
    simp only [endCount, List.map_cons, List.sum_cons, Finset.sum_add_distrib, List.length_cons] at ih' ⊢
    rw [ih', sum_ends e N (h e (List.mem_cons_self _ _))]
    ring

theorem edgeList_length (nd_in nd_out : List Nat) (weight : List ℚ) (E : Nat) :
    (edgeList nd_in nd_out weight E).length = E := by
  simp [edgeList]

/-- The offsets written by the second loop. -/
theorem idxPass_idx (es : List WEdge) (adj : AdjaArray) (part : Partition) (normalize : Int)
    (u : Nat) :
    (idxPass es adj part normalize).idx u =
      if u < adj.N then ((∑ v in Finset.range u, endCount es v : Nat) : Int) else adj.idx u := by
  have h := (foldl_idxStep (degreePass es part).degree (normConst es part normalize)
    { pos := 0, idx := adj.idx, nodes := (degreePass es part).nodes } adj.N).2.1 u
  simp only [idxPass]
  rw [h]
  simp [degreePass_degree]

/-- C2, as amended: on an edge list with ids in `[0,N)` and no self-loops, built
into an adjacency array whose `idx[N]` holds `2E` on entry, `idx[0] = 0` and
`idx[i+1] - idx[i]` is the number of input edges incident to `i`, for every
node `i < N`. -/
theorem EdgeListToAdjaArray_idx_offsets (nd_in nd_out : List Nat) (weight : List ℚ)
    (adj : AdjaArray) (part : Partition) (normalize : Int)
    (hid : ∀ e ∈ edgeList nd_in nd_out weight adj.E, e.nd_in < adj.N ∧ e.nd_out < adj.N)
    (hloop : ∀ e ∈ edgeList nd_in nd_out weight adj.E, e.nd_in ≠ e.nd_out)
    (hN : adj.idx adj.N = 2 * (adj.E : Int)) :
    IdxIsDegreeSum nd_in nd_out weight adj part normalize := by
  have hlen := edgeList_length nd_in nd_out weight adj.E
  have hidx : ∀ u, u ≤ adj.N →
      (idxPass (edgeList nd_in nd_out weight adj.E) adj part normalize).idx u =
        ((∑ v in Finset.range u, endCount (edgeList nd_in nd_out weight adj.E) v : Nat) : Int) := by
    intro u hu
    rw [idxPass_idx]
    by_cases h : u < adj.N
    · simp [h]
    · have hun : u = adj.N := by omega
      rw [if_neg h, hun, hN, sum_endCount _ adj.N hid, hlen]
      push_cast; ring
  refine ⟨?_, ?_⟩
  · have := hidx 0 (Nat.zero_le _)
    simpa [EdgeListToAdjaArray] using this
  · intro i hi
    have h1 := hidx (i + 1) hi
    have h2 := hidx i (Nat.le_of_lt hi)
    simp only [EdgeListToAdjaArray]
    rw [h1, h2, Finset.sum_range_succ, endCount_eq_length _ hloop]
    push_cast; ring

theorem triangle_edgeList :
    edgeList [0, 1, 0] [1, 2, 2] [1, 1, 1] 3 = [⟨0, 1, 1⟩, ⟨1, 2, 1⟩, ⟨0, 2, 1⟩] := by
  simp [edgeList, List.range_succ]

/-- Witness for C2 (amended): the triangle over 3 nodes. -/
theorem EdgeListToAdjaArray_idx_offsets_witness :
    IdxIsDegreeSum [0, 1, 0] [1, 2, 2] [1, 1, 1] (freshAdjaArray 3 3) (freshPartition 3 3) 1 :=
  EdgeListToAdjaArray_idx_offsets [0, 1, 0] [1, 2, 2] [1, 1, 1] (freshAdjaArray 3 3)
    (freshPartition 3 3) 1
    (by simp [freshAdjaArray, triangle_edgeList])
    (by simp [freshAdjaArray, triangle_edgeList])
    (by simp [freshAdjaArray])

/-- Counterexample to C2 as stated: with ids in `[0,N)` only, the offset table
is not the prefix sum over the number of incident edges, (1) when `idx[N]` does
not hold `2E` on entry (edge `(0,1)` over 2 nodes, `idx` zeroed: `idx[2]-idx[1]`
is `-1`, node 1 has one incident edge) and (2) on a self-loop (edge `(0,0)` over
1 node: `idx[1]-idx[0]` is 2, node 0 has one incident edge). -/
theorem EdgeListToAdjaArray_idx_offsets_counterexample :
    ((∀ e ∈ edgeList [0] [1] [1] 1, e.nd_in < 2 ∧ e.nd_out < 2) ∧
      ¬ IdxIsDegreeSum [0] [1] [1] (zeroAdjaArray 2 1) (freshPartition 2 2) 0) ∧
    ((∀ e ∈ edgeList [0] [0] [1] 1, e.nd_in < 1 ∧ e.nd_out < 1) ∧
      ¬ IdxIsDegreeSum [0] [0] [1] (freshAdjaArray 1 1) (freshPartition 1 1) 0) := by
  refine ⟨⟨by simp [edgeList], ?_⟩, ⟨by simp [edgeList], ?_⟩⟩
  · intro h
    have h1 := h.2 1 (by simp [zeroAdjaArray])
    simp [EdgeListToAdjaArray, idxPass_idx, zeroAdjaArray, edgeList, endCount, ends, incident,
      Finset.sum_range_succ, List.range_succ] at h1
  · intro h
    have h1 := h.2 0 (by simp [freshAdjaArray])
    simp [EdgeListToAdjaArray, idxPass_idx, freshAdjaArray, edgeList, endCount, ends, incident,
      Finset.sum_range_succ, List.range_succ] at h1

theorem compare_edges_le_iff (a b : Edge) :
    compare_edges a b ≤ 0 ↔ a.node2 < b.node2 ∨ (a.node2 = b.node2 ∧ a.node1 ≤ b.node1) := by
  unfold compare_edges
  split_ifs <;> simp <;> omega

theorem compare_edges_eq_zero_iff (a b : Edge) :
    compare_edges a b = 0 ↔ a.node2 = b.node2 ∧ a.node1 = b.node1 := by
  unfold compare_edges
  split_ifs <;> simp <;> omega

theorem insertionQsort_spec : QsortSpec insertionQsort := by
  intro l
  refine ⟨List.perm_insertionSort _ l, ?_⟩
  have htot : IsTotal Edge (fun a b => compare_edges a b ≤ 0) :=
    ⟨fun a b => by simp only [compare_edges_le_iff]; omega⟩
  have htr : IsTrans Edge (fun a b => compare_edges a b ≤ 0) :=
    ⟨fun a b c => by simp only [compare_edges_le_iff]; omega⟩
  exact List.sorted_insertionSort (fun a b => compare_edges a b ≤ 0) l

theorem pairEdge_eq (ex ey : Edge) :
    pairEdge ex ey =
      { node1 := ex.node1, node2 := ey.node1, strength := ex.strength * ey.strength } := by
  unfold pairEdge; split_ifs <;> rfl

theorem rd_lt (buf : List Edge) (mem : Nat → Edge) (i : Nat) (h : i < buf.length) :
    rd buf mem i = buf[i] := by
  simp [rd, List.getD_eq_getElem?_getD, List.getElem?_eq_getElem h]

theorem map_rd_range (buf : List Edge) (mem : Nat → Edge) :
    (List.range buf.length).map (rd buf mem) = buf := by
  apply List.ext_getElem
  · simp
  · intro n h1 h2
    simp only [List.getElem_map, List.getElem_range]
    exact rd_lt buf mem n h2

theorem rd_append_left (l : List Edge) (e : Edge) (mem : Nat → Edge) (i : Nat)
    (h : i < l.length) : rd (l ++ [e]) mem i = rd l mem i := by
  rw [rd_lt _ _ _ (by simp; omega), rd_lt _ _ _ h, List.getElem_append_left h]

theorem rd_append_last (l : List Edge) (e : Edge) (mem : Nat → Edge) :
    rd (l ++ [e]) mem l.length = e := by
  rw [rd_lt _ _ _ (by simp)]; simp

/-- In a sorted buffer `node2` does not decrease with the index. -/
theorem sorted_node2_mono (ed : List Edge) (mem : Nat → Edge)
    (hs : ed.Pairwise (fun a b => compare_edges a b ≤ 0)) (y x : Nat) (hyx : y ≤ x)
    (hx : x < ed.length) : (rd ed mem y).node2 ≤ (rd ed mem x).node2 := by
  rcases Nat.eq_or_lt_of_le hyx with h | h
  · subst h; exact le_refl _
  · have hy : y < ed.length := lt_trans h hx
    rw [rd_lt _ _ _ hy, rd_lt _ _ _ hx]
    have := (List.pairwise_iff_getElem.mp hs) y x hy hx h
    rw [compare_edges_le_iff] at this
    omega

theorem flatMap_congr_mem {α β : Type} (l : List α) (f g : α → List β)
    (h : ∀ x ∈ l, f x = g x) : l.flatMap f = l.flatMap g := by
  induction l with
  | nil => rfl
  | cons a l ih =>
    simp only [List.flatMap_cons]
    rw [h a (List.mem_cons_self _ _), ih (fun x hx => h x (List.mem_cons_of_mem _ hx))]

theorem range_split (x0 x : Nat) (h : x0 ≤ x) :
    List.range x = List.range x0 ++ List.range' x0 (x - x0) := by
  rw [List.range_eq_range', List.range_eq_range']
  have := List.range'_append 0 x0 (x - x0) 1
  simp only [Nat.zero_add, Nat.one_mul] at this
  rw [this]
  congr 1
  omega

theorem filter_range_eq (p : Nat → Bool) (x0 x : Nat) (h : x0 ≤ x)
    (h1 : ∀ y, y < x0 → p y = false) (h2 : ∀ y, x0 ≤ y → y < x → p y = true) :
    (List.range x).filter p = List.range' x0 (x - x0) := by
  rw [range_split x0 x h, List.filter_append]
  have e1 : (List.range x0).filter p = [] := by
    rw [List.filter_eq_nil_iff]
    intro a ha
    simp [h1 a (List.mem_range.mp ha)]
  have e2 : (List.range' x0 (x - x0)).filter p = List.range' x0 (x - x0) := by
    rw [List.filter_eq_self]
    intro a ha
    rw [List.mem_range'_1] at ha
    exact h2 a ha.1 (by omega)
  rw [e1, e2, List.nil_append]

/-- Invariant of the generating loop on a sorted buffer: after `i` iterations
the records written are those contributed by the positions below `x0`, the
start of the open group. -/
theorem gen_inv (ed : List Edge) (mem : Nat → Edge)
    (hs : ed.Pairwise (fun a b => compare_edges a b ≤ 0)) (i : Nat) (hi : i ≤ ed.length) :
    ((List.range i).foldl (genStep ed mem ed.length)
        { degree := 0, projected := [], x0 := 0 }).x0 ≤ i ∧
    ((List.range i).foldl (genStep ed mem ed.length)
        { degree := 0, projected := [], x0 := 0 }).projected =
      allPairs ed mem ((List.range i).foldl (genStep ed mem ed.length)
        { degree := 0, projected := [], x0 := 0 }).x0 ∧
    (∀ y, ((List.range i).foldl (genStep ed mem ed.length)
        { degree := 0, projected := [], x0 := 0 }).x0 ≤ y → y ≤ i → y < ed.length →
      (rd ed mem y).node2 = (rd ed mem ((List.range i).foldl (genStep ed mem ed.length)
        { degree := 0, projected := [], x0 := 0 }).x0).node2) ∧
    (∀ y x, y < ((List.range i).foldl (genStep ed mem ed.length)
        { degree := 0, projected := [], x0 := 0 }).x0 →
      ((List.range i).foldl (genStep ed mem ed.length)
        { degree := 0, projected := [], x0 := 0 }).x0 ≤ x → x < ed.length →
      (rd ed mem y).node2 ≠ (rd ed mem x).node2) ∧
    (i = ed.length → ((List.range i).foldl (genStep ed mem ed.length)
        { degree := 0, projected := [], x0 := 0 }).x0 = ed.length) := by
  induction i with
  | zero =>
    refine ⟨le_refl _, by simp [allPairs], ?_, ?_, ?_⟩
    · intro y h0 h1 _
      have : y = 0 := by simpa using h1
      subst this; simp
    · intro y x hy; simp at hy
    · intro h; simpa using h
  | succ i ih =>
    have hi' : i < ed.length := hi
    obtain ⟨ha, hb, hc, hd, _⟩ := ih (Nat.le_of_lt hi')
    rw [List.range_succ, List.foldl_append, List.foldl_cons, List.foldl_nil]
    generalize (List.range i).foldl (genStep ed mem ed.length)
      { degree := 0, projected := [], x0 := 0 } = s at ha hb hc hd ⊢
    unfold genStep
    by_cases hg : groupEnds ed mem ed.length i
    · simp only [hg, if_true]
      refine ⟨le_refl _, ?_, ?_, ?_, fun _ => by omega⟩
      · rw [hb, allPairs, allPairs, range_split s.x0 (i + 1) (by omega), List.flatMap_append]
        congr 1
        unfold genPairs
        apply flatMap_congr_mem
        intro x hx
        rw [List.mem_range'_1] at hx
        unfold pairsAt
        rw [filter_range_eq _ s.x0 x hx.1]
        · intro y hy
          have := hd y x hy hx.1 (by omega)
          simpa using this
        · intro y hy1 hy2
          have e1 := hc y hy1 (by omega) (by omega)
          have e2 := hc x hx.1 (by omega) (by omega)
          simp [e1, e2]
      · intro y h1 h2 _
        have : y = i + 1 := by omega
        subst this; rfl
      · intro y x hy hx hxl
        have hlt : i + 1 < ed.length := by omega
        have hne : (rd ed mem i).node2 ≠ (rd ed mem (i + 1)).node2 := by
          rcases hg with h | h
          · exact h
          · omega
        have m1 := sorted_node2_mono ed mem hs y i (by omega) hi'
        have m2 := sorted_node2_mono ed mem hs i (i + 1) (by omega) hlt
        have m3 := sorted_node2_mono ed mem hs (i + 1) x hx hxl
        omega
    · simp only [hg, if_false]
      have hg' : (rd ed mem i).node2 = (rd ed mem (i + 1)).node2 ∧ i + 1 ≠ ed.length := by
        unfold groupEnds at hg
        push_neg at hg
        exact hg
      refine ⟨by omega, hb, ?_, hd, fun h => absurd h hg'.2⟩
      intro y h1 h2 h3
      rcases Nat.eq_or_lt_of_le h2 with h | h
      · subst h
        rw [← hg'.1]
        exact hc i ha (le_refl _) hi'
      · exact hc y h1 (by omega) h3

/-- On a sorted buffer the generating loop writes, for every position `x` in
order, one record per earlier position `y` with the same `node2`. -/
theorem generate_eq (ed : List Edge) (mem : Nat → Edge)
    (hs : ed.Pairwise (fun a b => compare_edges a b ≤ 0)) :
    genWrites ed mem ed.length = allPairs ed mem ed.length := by
  obtain ⟨_, hb, _, _, he⟩ := gen_inv ed mem hs ed.length (le_refl _)
  unfold genWrites
  rw [hb, he rfl]

theorem groupIndex_zero (P : List Edge) (mem : Nat → Edge) : groupIndex P mem 0 = 0 := by
  simp [groupIndex]

theorem groupIndex_succ (P : List Edge) (mem : Nat → Edge) (t : Nat) :
    groupIndex P mem (t + 1) = groupIndex P mem t +
      (if compare_edges (rd P mem t) (rd P mem (t + 1)) ≠ 0 then 1 else 0) := by
  unfold groupIndex
  rw [List.range_succ, List.filter_append, List.length_append]
  by_cases h : compare_edges (rd P mem t) (rd P mem (t + 1)) = 0 <;> simp [h]

theorem groupIndex_mono (P : List Edge) (mem : Nat → Edge) (t t' : Nat) (h : t ≤ t') :
    groupIndex P mem t ≤ groupIndex P mem t' := by
  induction t' with
  | zero =>
    have : t = 0 := by omega
    subst this; exact le_refl _
  | succ n ih =>
    rcases Nat.eq_or_lt_of_le h with h1 | h1
    · subst h1; exact le_refl _
    · have := ih (by omega)
      rw [groupIndex_succ]; omega

/-- Every index up to `groupIndex n` is the group index of a position. -/
theorem groupIndex_surj (P : List Edge) (mem : Nat → Edge) (n m : Nat)
    (h : m ≤ groupIndex P mem n) : ∃ t, t ≤ n ∧ groupIndex P mem t = m := by
  induction n with
  | zero =>
    rw [groupIndex_zero] at h
    exact ⟨0, le_refl _, by rw [groupIndex_zero]; omega⟩
  | succ n ih =>
    by_cases hm : m ≤ groupIndex P mem n
    · obtain ⟨t, ht, he⟩ := ih hm
      exact ⟨t, by omega, he⟩
    · refine ⟨n + 1, le_refl _, ?_⟩
      have := groupIndex_succ P mem n
      split_ifs at this <;> omega

/-- Positions with the same group index hold records with the same endpoints. -/
theorem groupIndex_eq_key (P : List Edge) (mem : Nat → Edge) (t i : Nat) (hti : t ≤ i)
    (h : groupIndex P mem t = groupIndex P mem i) :
    (rd P mem t).node1 = (rd P mem i).node1 ∧ (rd P mem t).node2 = (rd P mem i).node2 := by
  induction i with
  | zero =>
    have : t = 0 := by omega
    subst this; exact ⟨rfl, rfl⟩
  | succ n ih =>
    rcases Nat.eq_or_lt_of_le hti with h1 | h1
    · subst h1; exact ⟨rfl, rfl⟩
    · have hm := groupIndex_mono P mem t n (by omega)
      have hs := groupIndex_succ P mem n
      by_cases hc : compare_edges (rd P mem n) (rd P mem (n + 1)) = 0
      · simp only [hc, ne_eq, not_true_eq_false, if_false, Nat.add_zero] at hs
        have := ih (by omega) (by omega)
        rw [compare_edges_eq_zero_iff] at hc
        exact ⟨this.1.trans hc.2, this.2.trans hc.1⟩
      · simp only [hc, ne_eq, not_false_eq_true, if_true] at hs
        omega

/-- In a sorted buffer, positions holding records with the same endpoints have
the same group index. -/
theorem key_eq_groupIndex (P : List Edge) (mem : Nat → Edge)
    (hs : P.Pairwise (fun a b => compare_edges a b ≤ 0)) (t i : Nat) (hti : t ≤ i)
    (hi : i < P.length)
    (h : (rd P mem t).node1 = (rd P mem i).node1 ∧ (rd P mem t).node2 = (rd P mem i).node2) :
    groupIndex P mem t = groupIndex P mem i := by
  induction i with
  | zero =>
    have : t = 0 := by omega
    subst this; rfl
  | succ n ih =>
    rcases Nat.eq_or_lt_of_le hti with h1 | h1
    · subst h1; rfl
    · have htn : t ≤ n := by omega
      have hn : n < P.length := by omega
      have ht : t < P.length := by omega
      have hp := List.pairwise_iff_getElem.mp hs
      have c1 : compare_edges (rd P mem n) (rd P mem (n + 1)) ≤ 0 := by
        rw [rd_lt _ _ _ hn, rd_lt _ _ _ hi]
        exact hp n (n + 1) hn hi (by omega)
      have c2 : compare_edges (rd P mem t) (rd P mem n) ≤ 0 := by
        rcases Nat.eq_or_lt_of_le htn with h2 | h2
        · subst h2; rw [compare_edges_le_iff]; omega
        · rw [rd_lt _ _ _ ht, rd_lt _ _ _ hn]
          exact hp t n ht hn h2
      rw [compare_edges_le_iff] at c1 c2
      have hkn : (rd P mem t).node1 = (rd P mem n).node1 ∧
          (rd P mem t).node2 = (rd P mem n).node2 := by omega
      have hc : compare_edges (rd P mem n) (rd P mem (n + 1)) = 0 := by
        rw [compare_edges_eq_zero_iff]; omega
      rw [groupIndex_succ, ih htn hn hkn]
      simp [hc]

/-- The loop counting the unique edges, after `n` iterations. -/
theorem foldl_uniqStep (P : List Edge) (mem : Nat → Edge) (E0 : Int) (n : Nat) :
    (List.range n).foldl (uniqStep P mem) E0 = E0 - ((n : Int) - (groupIndex P mem n : Int)) := by
  induction n with
  | zero => simp [groupIndex_zero]
  | succ n ih =>
    rw [List.range_succ, List.foldl_append, List.foldl_cons, List.foldl_nil, ih, groupIndex_succ]
    unfold uniqStep
    by_cases hc : compare_edges (rd P mem n) (rd P mem (n + 1)) = 0 <;> simp [hc] <;> ring

/-- The returned count when at least one record was generated. -/
theorem countUnique_pos (P : List Edge) (mem : Nat → Edge) (hj : 0 < P.length) :
    countUnique P mem = (groupIndex P mem (P.length - 1) : Int) + 1 := by
  unfold countUnique uniqBound
  rw [if_neg (by omega), foldl_uniqStep]
  have : ((P.length - 1 : Nat) : Int) = (P.length : Int) - 1 := by omega
  rw [this]; ring

/-- Invariant of the output loop after `i` iterations. -/
theorem out_inv (P : List Edge) (mem : Nat → Edge) (i : Nat) :
    ((List.range i).foldl (outStep P mem)
        { k := 0, nodes1 := fun _ => 0, nodes2 := fun _ => 0, strength := fun _ => 0 }).k =
      groupIndex P mem i ∧
    (∀ m, ((List.range i).foldl (outStep P mem)
        { k := 0, nodes1 := fun _ => 0, nodes2 := fun _ => 0, strength := fun _ => 0 }).strength m =
      (((List.range i).filter (fun t => decide (groupIndex P mem t = m))).map
        (fun t => (rd P mem t).strength)).sum) ∧
    (∀ t, t < i →
      ((List.range i).foldl (outStep P mem)
        { k := 0, nodes1 := fun _ => 0, nodes2 := fun _ => 0, strength := fun _ => 0 }).nodes1
          (groupIndex P mem t) = (rd P mem t).node1 ∧
      ((List.range i).foldl (outStep P mem)
        { k := 0, nodes1 := fun _ => 0, nodes2 := fun _ => 0, strength := fun _ => 0 }).nodes2
          (groupIndex P mem t) = (rd P mem t).node2) := by
  induction i with
  | zero => simp [groupIndex_zero]
  | succ i ih =>
    obtain ⟨hk, hst, hn⟩ := ih
    rw [List.range_succ, List.foldl_append, List.foldl_cons, List.foldl_nil]
    generalize (List.range i).foldl (outStep P mem)
      { k := 0, nodes1 := fun _ => 0, nodes2 := fun _ => 0, strength := fun _ => 0 } = s
      at hk hst hn ⊢
    refine ⟨?_, ?_, ?_⟩
    · simp only [outStep, hk, groupIndex_succ]
      split_ifs <;> rfl
    · intro m
      simp only [outStep, Function.update_apply, hk, List.filter_append, List.map_append,
        List.sum_append, hst]
      by_cases hm : m = groupIndex P mem i
      · subst hm; simp
      · have : ¬ groupIndex P mem i = m := fun h => hm h.symm
        simp [hm, this]
    · intro t ht
      simp only [outStep, Function.update_apply, hk]
      by_cases hg : groupIndex P mem t = groupIndex P mem i
      · have := groupIndex_eq_key P mem t i (by omega) hg
        simp [hg, this.1, this.2]
      · have hti : t < i := by
          rcases Nat.eq_or_lt_of_le (Nat.le_of_lt_succ ht) with h | h
          · subst h; exact absurd rfl hg
          · exact h
        simp only [hg, if_false]
        exact hn t hti

/-- In a sorted buffer two positions have the same group index exactly when
their records have the same endpoints. -/
theorem groupIndex_eq_iff (P : List Edge) (mem : Nat → Edge)
    (hs : P.Pairwise (fun a b => compare_edges a b ≤ 0)) (t t' : Nat)
    (ht : t < P.length) (ht' : t' < P.length) :
    groupIndex P mem t' = groupIndex P mem t ↔
      ((rd P mem t').node1 = (rd P mem t).node1 ∧ (rd P mem t').node2 = (rd P mem t).node2) := by
  rcases Nat.le_total t t' with h | h
  · constructor
    · intro hg
      have := groupIndex_eq_key P mem t t' h hg.symm
      exact ⟨this.1.symm, this.2.symm⟩
    · intro hk
      exact (key_eq_groupIndex P mem hs t t' h ht' ⟨hk.1.symm, hk.2.symm⟩).symm
  · constructor
    · intro hg
      exact groupIndex_eq_key P mem t' t h hg
    · intro hk
      exact key_eq_groupIndex P mem hs t' t h ht hk

theorem group_sum_eq (P : List Edge) (mem : Nat → Edge)
    (hs : P.Pairwise (fun a b => compare_edges a b ≤ 0)) (t : Nat) (ht : t < P.length) :
    (((List.range P.length).filter (fun t' => decide (groupIndex P mem t' = groupIndex P mem t))).map
        (fun t' => (rd P mem t').strength)).sum =
      ((P.filter (fun e => decide (e.node1 = (rd P mem t).node1 ∧
        e.node2 = (rd P mem t).node2))).map (fun e => e.strength)).sum := by
  have hP : P.filter (fun e => decide (e.node1 = (rd P mem t).node1 ∧
        e.node2 = (rd P mem t).node2)) =
      ((List.range P.length).map (rd P mem)).filter (fun e => decide (e.node1 = (rd P mem t).node1 ∧
        e.node2 = (rd P mem t).node2)) := by
    rw [map_rd_range]
  rw [hP, List.filter_map, List.map_map]
  congr 1
  have hf : (List.range P.length).filter (fun t' => decide (groupIndex P mem t' = groupIndex P mem t)) =
      (List.range P.length).filter ((fun e => decide (e.node1 = (rd P mem t).node1 ∧
        e.node2 = (rd P mem t).node2)) ∘ rd P mem) := by
    apply List.filter_congr
    intro t' ht'
    have := groupIndex_eq_iff P mem hs t t' ht (List.mem_range.mp ht')
    simp only [Function.comp, decide_eq_decide]
    exact this
  rw [hf]
  rfl

/-- The output loop on a sorted buffer of at least one record: the returned
count is the number of groups, every entry below the count holds the endpoints
of the records of one group and the sum of the strengths of all records with
these endpoints, and every record has its entry. -/
theorem final_entries (P : List Edge) (mem : Nat → Edge)
    (hs : P.Pairwise (fun a b => compare_edges a b ≤ 0)) (hj : 0 < P.length) :
    (countUnique P mem).toNat = groupIndex P mem (P.length - 1) + 1 ∧
    (∀ k, k < (countUnique P mem).toNat → ∃ t, t < P.length ∧ groupIndex P mem t = k ∧
      (fillOutput P mem).nodes1 k = (rd P mem t).node1 ∧
      (fillOutput P mem).nodes2 k = (rd P mem t).node2 ∧
      (fillOutput P mem).strength k =
        ((P.filter (fun e => decide (e.node1 = (rd P mem t).node1 ∧
          e.node2 = (rd P mem t).node2))).map (fun e => e.strength)).sum) ∧
    (∀ t, t < P.length → groupIndex P mem t < (countUnique P mem).toNat) := by
  have hc : (countUnique P mem).toNat = groupIndex P mem (P.length - 1) + 1 := by
    rw [countUnique_pos P mem hj]
    omega
  obtain ⟨_, hst, hn⟩ := out_inv P mem P.length
  refine ⟨hc, ?_, ?_⟩
  · intro k hk
    rw [hc] at hk
    obtain ⟨t, ht, hg⟩ := groupIndex_surj P mem (P.length - 1) k (by omega)
    have htl : t < P.length := by omega
    refine ⟨t, htl, hg, ?_, ?_, ?_⟩
    · rw [← hg]; exact (hn t htl).1
    · rw [← hg]; exact (hn t htl).2
    · unfold fillOutput
      rw [hst k, ← hg]
      exact group_sum_eq P mem hs t htl
  · intro t ht
    rw [hc]
    have := groupIndex_mono P mem t (P.length - 1) (by omega)
    omega

theorem mem_allPairs (ed : List Edge) (mem : Nat → Edge) (n : Nat) (p : Edge) :
    p ∈ allPairs ed mem n ↔ ∃ x y, y < x ∧ x < n ∧ (rd ed mem y).node2 = (rd ed mem x).node2 ∧
      p = pairEdge (rd ed mem x) (rd ed mem y) := by
  simp only [allPairs, pairsAt, List.mem_flatMap, List.mem_map, List.mem_filter, List.mem_range,
    decide_eq_true_eq]
  constructor
  · rintro ⟨x, hx, y, ⟨hy, he⟩, rfl⟩
    exact ⟨x, y, hy, hx, he, rfl⟩
  · rintro ⟨x, y, hy, hx, he, rfl⟩
    exact ⟨x, hx, y, ⟨hy, he⟩, rfl⟩

theorem mem_of_rd (buf : List Edge) (mem : Nat → Edge) (i : Nat) (h : i < buf.length) :
    rd buf mem i ∈ buf := by
  rw [rd_lt buf mem i h]; exact List.getElem_mem _

theorem exists_rd_of_mem (buf : List Edge) (mem : Nat → Edge) (e : Edge) (h : e ∈ buf) :
    ∃ i, i < buf.length ∧ rd buf mem i = e := by
  obtain ⟨i, hi, he⟩ := List.getElem_of_mem h
  exact ⟨i, hi, by rw [rd_lt buf mem i hi, he]⟩

theorem loadEdges_length (nd_in nd_out : List Nat) (weights : List ℚ) (E : Nat) :
    (loadEdges nd_in nd_out weights E).length = E := by
  simp [loadEdges]

/-- The buffers of `project_bipart_trace` under the `qsort` contract. -/
theorem project_bipart_buffers (qsort : List Edge → List Edge) (hq : QsortSpec qsort)
    (mem_ed mem_proj : Nat → Edge) (nd_in nd_out : List Nat) (weights : List ℚ) (E : Nat)
    (proj1 proj2 : Nat → Nat) (projW : Nat → ℚ) :
    (project_bipart_trace qsort mem_ed mem_proj nd_in nd_out weights E proj1 proj2 projW).ed.Perm
      (loadEdges nd_in nd_out weights E) ∧
    (project_bipart_trace qsort mem_ed mem_proj nd_in nd_out weights E proj1 proj2 projW).ed.Pairwise
      (fun a b => compare_edges a b ≤ 0) ∧
    (project_bipart_trace qsort mem_ed mem_proj nd_in nd_out weights E proj1 proj2 projW).ed.length = E ∧
    (project_bipart_trace qsort mem_ed mem_proj nd_in nd_out weights E proj1 proj2 projW).generated =
      allPairs (project_bipart_trace qsort mem_ed mem_proj nd_in nd_out weights E proj1 proj2 projW).ed
        mem_ed E ∧
    (project_bipart_trace qsort mem_ed mem_proj nd_in nd_out weights E proj1 proj2 projW).projected.Perm
      (project_bipart_trace qsort mem_ed mem_proj nd_in nd_out weights E proj1 proj2 projW).generated ∧
    (project_bipart_trace qsort mem_ed mem_proj nd_in nd_out weights E proj1 proj2 projW).projected.Pairwise
      (fun a b => compare_edges a b ≤ 0) := by
  have h1 := hq (loadEdges nd_in nd_out weights E)
  have hlen : (qsort (loadEdges nd_in nd_out weights E)).length = E := by
    rw [h1.1.length_eq, loadEdges_length]
  have hg := generate_eq (qsort (loadEdges nd_in nd_out weights E)) mem_ed h1.2
  rw [hlen] at hg
  have h2 := hq (genWrites (qsort (loadEdges nd_in nd_out weights E)) mem_ed E)
  exact ⟨h1.1, h1.2, hlen, hg, h2.1, h2.2⟩

/-- The endpoint pairs of the final list are those of the generated records,
when at least one record is generated. -/
theorem final_pair_iff (qsort : List Edge → List Edge) (hq : QsortSpec qsort)
    (mem_ed mem_proj : Nat → Edge) (nd_in nd_out : List Nat) (weights : List ℚ) (E : Nat)
    (proj1 proj2 : Nat → Nat) (projW : Nat → ℚ)
    (hj : 0 < (project_bipart_trace qsort mem_ed mem_proj nd_in nd_out weights E
      proj1 proj2 projW).generated.length) (a b : Nat) :
    (∃ e ∈ finalList (project_bipart_trace qsort mem_ed mem_proj nd_in nd_out weights E
        proj1 proj2 projW), e.node1 = a ∧ e.node2 = b) ↔
    (∃ p ∈ (project_bipart_trace qsort mem_ed mem_proj nd_in nd_out weights E
        proj1 proj2 projW).generated, p.node1 = a ∧ p.node2 = b) := by
  obtain ⟨_, _, _, _, hperm, hsorted⟩ := project_bipart_buffers qsort hq mem_ed mem_proj
    nd_in nd_out weights E proj1 proj2 projW
  generalize hr : project_bipart_trace qsort mem_ed mem_proj nd_in nd_out weights E
    proj1 proj2 projW = r at hj hperm hsorted ⊢
  have hret : r.ret = countUnique r.projected mem_proj := by rw [← hr]; rfl
  have hn1 : r.nodes1 = (fillOutput r.projected mem_proj).nodes1 := by rw [← hr]; rfl
  have hn2 : r.nodes2 = (fillOutput r.projected mem_proj).nodes2 := by rw [← hr]; rfl
  have hjP : 0 < r.projected.length := by rw [hperm.length_eq]; exact hj
  obtain ⟨_, hent, hidx⟩ := final_entries r.projected mem_proj hsorted hjP
  constructor
  · rintro ⟨e, he, h1, h2⟩
    simp only [finalList, List.mem_map, List.mem_range] at he
    obtain ⟨k, hk, rfl⟩ := he
    rw [hret] at hk
    obtain ⟨t, ht, _, e1, e2, _⟩ := hent k hk
    refine ⟨rd r.projected mem_proj t, hperm.mem_iff.mp (mem_of_rd _ _ t ht), ?_, ?_⟩
    · rw [← e1, ← hn1]; exact h1
    · rw [← e2, ← hn2]; exact h2
  · rintro ⟨p, hp, h1, h2⟩
    obtain ⟨t, ht, hpt⟩ := exists_rd_of_mem r.projected mem_proj p (hperm.mem_iff.mpr hp)
    have hk := hidx t ht
    obtain ⟨t', ht', hg, e1, e2, _⟩ := hent _ hk
    have hkey := (groupIndex_eq_iff r.projected mem_proj hsorted t t' ht ht').mp hg
    refine ⟨⟨r.nodes1 (groupIndex r.projected mem_proj t), r.nodes2 (groupIndex r.projected mem_proj t),
      r.strength (groupIndex r.projected mem_proj t)⟩, ?_, ?_, ?_⟩
    · simp only [finalList, List.mem_map, List.mem_range]
      exact ⟨groupIndex r.projected mem_proj t, by rw [hret]; exact hk, rfl⟩
    · show r.nodes1 _ = a
      rw [hn1, e1, hkey.1, hpt]; exact h1
    · show r.nodes2 _ = b
      rw [hn2, e2, hkey.2, hpt]; exact h2

/-- The endpoint pairs of the generated records, in terms of the input: `(a,b)`
is generated when the sorted buffer holds, at some position, an edge from `a`
and, at an earlier position, an edge from `b` to the same `node2`. -/
theorem generated_pair_iff (qsort : List Edge → List Edge) (hq : QsortSpec qsort)
    (mem_ed mem_proj : Nat → Edge) (nd_in nd_out : List Nat) (weights : List ℚ) (E : Nat)
    (proj1 proj2 : Nat → Nat) (projW : Nat → ℚ) (a b : Nat) :
    (∃ p ∈ (project_bipart_trace qsort mem_ed mem_proj nd_in nd_out weights E
        proj1 proj2 projW).generated, p.node1 = a ∧ p.node2 = b) ↔
    ∃ x y, y < x ∧ x < E ∧
      (rd (project_bipart_trace qsort mem_ed mem_proj nd_in nd_out weights E
        proj1 proj2 projW).ed mem_ed y).node2 =
      (rd (project_bipart_trace qsort mem_ed mem_proj nd_in nd_out weights E
        proj1 proj2 projW).ed mem_ed x).node2 ∧
      (rd (project_bipart_trace qsort mem_ed mem_proj nd_in nd_out weights E
        proj1 proj2 projW).ed mem_ed x).node1 = a ∧
      (rd (project_bipart_trace qsort mem_ed mem_proj nd_in nd_out weights E
        proj1 proj2 projW).ed mem_ed y).node1 = b := by
  obtain ⟨_, _, _, hgen, _, _⟩ := project_bipart_buffers qsort hq mem_ed mem_proj
    nd_in nd_out weights E proj1 proj2 projW
  rw [hgen]
  constructor
  · rintro ⟨p, hp, h1, h2⟩
    rw [mem_allPairs] at hp
    obtain ⟨x, y, hy, hx, he, rfl⟩ := hp
    rw [pairEdge_eq] at h1 h2
    exact ⟨x, y, hy, hx, he, h1, h2⟩
  · rintro ⟨x, y, hy, hx, he, h1, h2⟩
    refine ⟨_, (mem_allPairs _ _ _ _).mpr ⟨x, y, hy, hx, he, rfl⟩, ?_, ?_⟩
    · rw [pairEdge_eq]; exact h1
    · rw [pairEdge_eq]; exact h2

theorem sum_filter_map {α : Type} (l : List α) (p : α → Bool) (g : α → ℚ) :
    ((l.filter p).map g).sum = (l.map (fun y => if p y then g y else 0)).sum := by
  induction l with
  | nil => rfl
  | cons a l ih =>
    by_cases h : p a <;> simp [List.filter_cons, h, ih]

theorem sum_map_zero {α : Type} (l : List α) (g : α → ℚ) (h : ∀ x ∈ l, g x = 0) :
    (l.map g).sum = 0 := by
  induction l with
  | nil => rfl
  | cons a l ih =>
    simp only [List.map_cons, List.sum_cons]
    rw [h a (List.mem_cons_self _ _), ih (fun x hx => h x (List.mem_cons_of_mem _ hx))]
    ring

theorem sum_map_congr {α : Type} (l : List α) (f g : α → ℚ) (h : ∀ x ∈ l, f x = g x) :
    (l.map f).sum = (l.map g).sum := by
  rw [List.map_congr_left h]

/-- With unique pairs, the weights of the input edges joining `b` to `c` sum to
the weight of the one such edge. -/
theorem unique_filter_sum (es : List Edge) (hu : UniquePairs es) (b c : Nat) :
    ((es.filter (fun e => decide (e.node1 = b ∧ e.node2 = c))).map (fun e => e.strength)).sum =
      weightOf es b c := by
  induction es with
  | nil => simp [weightOf]
  | cons e es ih =>
    have hu' : UniquePairs es := by
      unfold UniquePairs at hu ⊢
      exact (List.nodup_cons.mp hu).2
    have hnot : (e.node1, e.node2) ∉ es.map (fun e => (e.node1, e.node2)) := by
      unfold UniquePairs at hu
      exact (List.nodup_cons.mp hu).1
    by_cases h : e.node1 = b ∧ e.node2 = c
    · have hnil : es.filter (fun e => decide (e.node1 = b ∧ e.node2 = c)) = [] := by
        rw [List.filter_eq_nil_iff]
        intro x hx hc
        have hxk : (x.node1, x.node2) = (e.node1, e.node2) := by
          have := of_decide_eq_true hc
          rw [this.1, this.2, h.1, h.2]
        apply hnot
        rw [← hxk]
        exact List.mem_map.mpr ⟨x, hx, rfl⟩
      have hd : decide (e.node1 = b ∧ e.node2 = c) = true := decide_eq_true h
      rw [List.filter_cons, if_pos hd, hnil]
      unfold weightOf
      rw [List.find?_cons, hd]
      simp
    · have hd : decide (e.node1 = b ∧ e.node2 = c) = false := decide_eq_false h
      have ih' := ih hu'
      unfold weightOf at ih' ⊢
      rw [List.filter_cons, if_neg (by simp [hd]), List.find?_cons, hd]
      exact ih'

theorem find_of_mem (es : List Edge) (hu : UniquePairs es) (e : Edge) (he : e ∈ es) :
    es.find? (fun x => decide (x.node1 = e.node1 ∧ x.node2 = e.node2)) = some e := by
  induction es with
  | nil => cases he
  | cons a l ih =>
    have hu' : UniquePairs l := by
      unfold UniquePairs at hu ⊢
      exact (List.nodup_cons.mp hu).2
    by_cases h : a.node1 = e.node1 ∧ a.node2 = e.node2
    · have hae : a = e := by
        apply List.inj_on_of_nodup_map hu (List.mem_cons_self _ _) he
        show (a.node1, a.node2) = (e.node1, e.node2)
        rw [h.1, h.2]
      rw [List.find?_cons, decide_eq_true h, hae]
    · have hm : e ∈ l := by
        rcases List.mem_cons.mp he with h1 | h1
        · subst h1; exact absurd ⟨rfl, rfl⟩ h
        · exact h1
      rw [List.find?_cons, decide_eq_false h]
      exact ih hu' hm

theorem weightOf_of_mem (es : List Edge) (hu : UniquePairs es) (e : Edge) (he : e ∈ es) :
    weightOf es e.node1 e.node2 = e.strength := by
  unfold weightOf
  rw [find_of_mem es hu e he]
  rfl

theorem weightOf_eq_zero (es : List Edge) (b c : Nat) (h : adjacent es b c = false) :
    weightOf es b c = 0 := by
  unfold weightOf
  have : es.find? (fun e => decide (e.node1 = b ∧ e.node2 = c)) = none := by
    rw [List.find?_eq_none]
    intro x hx hc
    unfold adjacent at h
    rw [List.any_eq_false] at h
    exact h x hx hc
  rw [this]; rfl

/-- The double sum of `pairTerm` over the input, regrouped by common
neighbour. -/
theorem dsum_eq_common (es : List Edge) (hu : UniquePairs es) (a b : Nat) :
    (es.map (fun ex => (es.map (fun ey => pairTerm a b ex ey)).sum)).sum =
      ((commonNeighbours es a b).map (fun c => weightOf es a c * weightOf es b c)).sum := by
  have hinner : ∀ ex ∈ es, (es.map (fun ey => pairTerm a b ex ey)).sum =
      if (fun e : Edge => decide (e.node1 = a)) ex then weightOf es a ex.node2 * weightOf es b ex.node2
      else 0 := by
    intro ex hex
    by_cases h : ex.node1 = a
    · simp only [h, decide_True, if_true]
      rw [← unique_filter_sum es hu b ex.node2, sum_filter_map, ← List.sum_map_mul_left]
      apply sum_map_congr
      intro ey _
      have hw := weightOf_of_mem es hu ex hex
      rw [h] at hw
      unfold pairTerm
      by_cases hc : ey.node1 = b ∧ ey.node2 = ex.node2
      · have : ex.node2 = ey.node2 ∧ ex.node1 = a ∧ ey.node1 = b := ⟨hc.2.symm, h, hc.1⟩
        rw [if_pos this, hw, if_pos (decide_eq_true hc)]
      · have : ¬ (ex.node2 = ey.node2 ∧ ex.node1 = a ∧ ey.node1 = b) := by
          intro h'
          exact hc ⟨h'.2.2, h'.1.symm⟩
        rw [if_neg this, if_neg (by rw [decide_eq_false hc]; simp), mul_zero]
    · simp only [h, decide_False, Bool.false_eq_true, if_false]
      apply sum_map_zero
      intro ey _
      unfold pairTerm
      have : ¬ (ex.node2 = ey.node2 ∧ ex.node1 = a ∧ ey.node1 = b) := fun h' => h h'.2.1
      simp [this]
  rw [sum_map_congr _ _ _ hinner, ← sum_filter_map]
  unfold commonNeighbours
  rw [sum_filter_map _ (fun c => adjacent es b c)]
  rw [List.map_map]
  apply sum_map_congr
  intro ex _
  simp only [Function.comp]
  by_cases hadj : adjacent es b ex.node2 = true
  · simp [hadj]
  · have h0 : adjacent es b ex.node2 = false := by simpa using hadj
    simp [h0, weightOf_eq_zero es b ex.node2 h0]

theorem allPairs_succ (ed : List Edge) (mem : Nat → Edge) (m : Nat) :
    allPairs ed mem (m + 1) = allPairs ed mem m ++ pairsAt ed mem m := by
  simp [allPairs, List.range_succ, List.flatMap_append]

theorem pairsAt_sum (ed : List Edge) (mem : Nat → Edge) (a b m : Nat) :
    (((pairsAt ed mem m).filter (fun p => decide (p.node1 = a ∧ p.node2 = b))).map
        (fun p => p.strength)).sum =
      ((List.range m).map (fun y => pairTerm a b (rd ed mem m) (rd ed mem y))).sum := by
  unfold pairsAt
  generalize List.range m = L
  induction L with
  | nil => rfl
  | cons y L ih =>
    simp only [List.map_cons, List.sum_cons, ← ih]
    by_cases hq : (rd ed mem y).node2 = (rd ed mem m).node2
    · rw [List.filter_cons, if_pos (decide_eq_true hq), List.map_cons]
      by_cases hk : (pairEdge (rd ed mem m) (rd ed mem y)).node1 = a ∧
          (pairEdge (rd ed mem m) (rd ed mem y)).node2 = b
      · rw [List.filter_cons, if_pos (decide_eq_true hk), List.map_cons, List.sum_cons]
        congr 1
        rw [pairEdge_eq] at hk ⊢
        unfold pairTerm
        rw [if_pos ⟨hq.symm, hk.1, hk.2⟩]
      · rw [List.filter_cons, if_neg (by rw [decide_eq_false hk]; simp)]
        rw [pairEdge_eq] at hk
        unfold pairTerm
        rw [if_neg (fun h => hk ⟨h.2.1, h.2.2⟩), zero_add]
    · rw [List.filter_cons, if_neg (by rw [decide_eq_false hq]; simp)]
      unfold pairTerm
      rw [if_neg (fun h => hq h.1.symm), zero_add]

theorem pairTerm_self (a b : Nat) (hab : b < a) (e : Edge) : pairTerm a b e e = 0 := by
  unfold pairTerm
  rw [if_neg]
  intro h
  omega

theorem pairTerm_earlier (ed : List Edge) (mem : Nat → Edge)
    (hs : ed.Pairwise (fun a b => compare_edges a b ≤ 0)) (a b : Nat) (hab : b < a)
    (x m : Nat) (hx : x < m) (hm : m < ed.length) :
    pairTerm a b (rd ed mem x) (rd ed mem m) = 0 := by
  unfold pairTerm
  rw [if_neg]
  intro h
  have hc := (List.pairwise_iff_getElem.mp hs) x m (by omega) hm hx
  rw [← rd_lt ed mem x (by omega), ← rd_lt ed mem m hm, compare_edges_le_iff] at hc
  omega

/-- On a sorted buffer and for `b < a`, the strengths of the generated records
with endpoints `(a, b)` sum to the double sum of `pairTerm` over the buffer. -/
theorem pairs_sum_eq (ed : List Edge) (mem : Nat → Edge)
    (hs : ed.Pairwise (fun a b => compare_edges a b ≤ 0)) (a b : Nat) (hab : b < a)
    (m : Nat) (hm : m ≤ ed.length) :
    (((allPairs ed mem m).filter (fun p => decide (p.node1 = a ∧ p.node2 = b))).map
        (fun p => p.strength)).sum =
      ((List.range m).map (fun x =>
        ((List.range m).map (fun y => pairTerm a b (rd ed mem x) (rd ed mem y))).sum)).sum := by
  induction m with
  | zero => simp [allPairs]
  | succ m ih =>
    have hm' : m < ed.length := hm
    rw [allPairs_succ, List.filter_append, List.map_append, List.sum_append, ih (by omega),
      pairsAt_sum]
    simp only [List.range_succ, List.map_append, List.sum_append, List.map_cons, List.map_nil,
      List.sum_cons, List.sum_nil, add_zero]
    rw [pairTerm_self a b hab, add_zero, List.sum_map_add]
    have hz : ((List.range m).map (fun x => pairTerm a b (rd ed mem x) (rd ed mem m))).sum = 0 := by
      apply sum_map_zero
      intro x hx
      exact pairTerm_earlier ed mem hs a b hab x m (List.mem_range.mp hx) hm'
    rw [hz, add_zero]

theorem dsum_range_eq (ed : List Edge) (mem : Nat → Edge) (a b : Nat) :
    ((List.range ed.length).map (fun x =>
        ((List.range ed.length).map (fun y => pairTerm a b (rd ed mem x) (rd ed mem y))).sum)).sum =
      (ed.map (fun ex => (ed.map (fun ey => pairTerm a b ex ey)).sum)).sum := by
  have h1 : ∀ ex : Edge, (List.range ed.length).map (fun y => pairTerm a b ex (rd ed mem y)) =
      ed.map (fun ey => pairTerm a b ex ey) := by
    intro ex
    have : (fun y => pairTerm a b ex (rd ed mem y)) = (fun ey => pairTerm a b ex ey) ∘ rd ed mem := rfl
    rw [this, ← List.map_map, map_rd_range]
  have h2 : (fun x => ((List.range ed.length).map
      (fun y => pairTerm a b (rd ed mem x) (rd ed mem y))).sum) =
      (fun ex => (ed.map (fun ey => pairTerm a b ex ey)).sum) ∘ rd ed mem := by
    funext x
    simp only [Function.comp, h1]
  rw [h2, ← List.map_map, map_rd_range]

theorem dsum_perm (l l' : List Edge) (h : l.Perm l') (a b : Nat) :
    (l.map (fun ex => (l.map (fun ey => pairTerm a b ex ey)).sum)).sum =
      (l'.map (fun ex => (l'.map (fun ey => pairTerm a b ex ey)).sum)).sum := by
  have h1 : (fun ex => (l.map (fun ey => pairTerm a b ex ey)).sum) =
      (fun ex => (l'.map (fun ey => pairTerm a b ex ey)).sum) := by
    funext ex
    exact (h.map _).sum_eq
  rw [h1]
  exact (h.map _).sum_eq

theorem uniquePairs_perm (l l' : List Edge) (h : l.Perm l') (hu : UniquePairs l') :
    UniquePairs l := by
  unfold UniquePairs at hu ⊢
  exact ((h.map _).nodup_iff).mpr hu

/-- With unique pairs, a record generated from the positions `y < x` of the
sorted buffer has `node1 > node2`. -/
theorem generated_lt (ed : List Edge) (mem : Nat → Edge)
    (hs : ed.Pairwise (fun a b => compare_edges a b ≤ 0)) (hu : UniquePairs ed)
    (x y : Nat) (hy : y < x) (hx : x < ed.length)
    (he : (rd ed mem y).node2 = (rd ed mem x).node2) :
    (rd ed mem y).node1 < (rd ed mem x).node1 := by
  have hyl : y < ed.length := by omega
  have hc := (List.pairwise_iff_getElem.mp hs) y x hyl hx hy
  rw [← rd_lt ed mem x hx, ← rd_lt ed mem y hyl, compare_edges_le_iff] at hc
  have hne : (rd ed mem y).node1 ≠ (rd ed mem x).node1 := by
    intro h1
    unfold UniquePairs at hu
    have hp := (List.pairwise_iff_getElem.mp hu) y x (by simpa using hyl) (by simpa using hx) hy
    apply hp
    simp only [List.getElem_map]
    rw [← rd_lt ed mem x hx, ← rd_lt ed mem y hyl, h1, he]
  omega

theorem mem_loadEdges (nd_in nd_out : List Nat) (weights : List ℚ) (E : Nat) (e : Edge) :
    e ∈ loadEdges nd_in nd_out weights E ↔
      ∃ i, i < E ∧ e = ⟨nd_in.getD i 0, nd_out.getD i 0, weights.getD i 0⟩ := by
  simp only [loadEdges, List.mem_map, List.mem_range]
  constructor
  · rintro ⟨i, hi, rfl⟩; exact ⟨i, hi, rfl⟩
  · rintro ⟨i, hi, rfl⟩; exact ⟨i, hi, rfl⟩

theorem adjacent_iff (es : List Edge) (a c : Nat) :
    adjacent es a c = true ↔ ∃ e ∈ es, e.node1 = a ∧ e.node2 = c := by
  unfold adjacent
  rw [List.any_eq_true]
  constructor
  · rintro ⟨e, he, h⟩; exact ⟨e, he, of_decide_eq_true h⟩
  · rintro ⟨e, he, h⟩; exact ⟨e, he, decide_eq_true h⟩

/-- With unique pairs `commonNeighbours` lists every node adjacent to both `a`
and `b` exactly once. -/
theorem commonNeighbours_spec (es : List Edge) (hu : UniquePairs es) (a b : Nat) :
    (commonNeighbours es a b).Nodup ∧
    ∀ c, c ∈ commonNeighbours es a b ↔ (adjacent es a c = true ∧ adjacent es b c = true) := by
  refine ⟨?_, ?_⟩
  · unfold commonNeighbours
    apply List.Nodup.filter
    have hnd : es.Nodup := List.Nodup.of_map _ hu
    apply List.Nodup.map_on _ (hnd.filter _)
    intro x hx y hy hxy
    rw [List.mem_filter] at hx hy
    apply List.inj_on_of_nodup_map hu hx.1 hy.1
    show (x.node1, x.node2) = (y.node1, y.node2)
    rw [of_decide_eq_true hx.2, of_decide_eq_true hy.2, hxy]
  · intro c
    unfold commonNeighbours
    rw [List.mem_filter, List.mem_map]
    constructor
    · rintro ⟨⟨e, he, rfl⟩, h2⟩
      rw [List.mem_filter] at he
      exact ⟨(adjacent_iff es a e.node2).mpr ⟨e, he.1, of_decide_eq_true he.2, rfl⟩, h2⟩
    · rintro ⟨h1, h3⟩
      obtain ⟨e, he, h1, h2⟩ := (adjacent_iff es a c).mp h1
      exact ⟨⟨e, List.mem_filter.mpr ⟨he, decide_eq_true h1⟩, h2⟩, h3⟩

/-- The strength of a final entry, with unique input pairs. -/
theorem final_strength (qsort : List Edge → List Edge) (hq : QsortSpec qsort)
    (mem_ed mem_proj : Nat → Edge) (nd_in nd_out : List Nat) (weights : List ℚ) (E : Nat)
    (proj1 proj2 : Nat → Nat) (projW : Nat → ℚ)
    (hu : UniquePairs (loadEdges nd_in nd_out weights E))
    (hj : 0 < (project_bipart_trace qsort mem_ed mem_proj nd_in nd_out weights E
      proj1 proj2 projW).generated.length) (k : Nat)
    (hk : k < (project_bipart_trace qsort mem_ed mem_proj nd_in nd_out weights E
      proj1 proj2 projW).ret.toNat) :
    (project_bipart_trace qsort mem_ed mem_proj nd_in nd_out weights E proj1 proj2 projW).nodes2 k <
      (project_bipart_trace qsort mem_ed mem_proj nd_in nd_out weights E proj1 proj2 projW).nodes1 k ∧
    (project_bipart_trace qsort mem_ed mem_proj nd_in nd_out weights E proj1 proj2 projW).strength k =
      ((commonNeighbours (loadEdges nd_in nd_out weights E)
          ((project_bipart_trace qsort mem_ed mem_proj nd_in nd_out weights E
            proj1 proj2 projW).nodes1 k)
          ((project_bipart_trace qsort mem_ed mem_proj nd_in nd_out weights E
            proj1 proj2 projW).nodes2 k)).map
        (fun c =>
          weightOf (loadEdges nd_in nd_out weights E)
            ((project_bipart_trace qsort mem_ed mem_proj nd_in nd_out weights E
              proj1 proj2 projW).nodes1 k) c *
          weightOf (loadEdges nd_in nd_out weights E)
            ((project_bipart_trace qsort mem_ed mem_proj nd_in nd_out weights E
              proj1 proj2 projW).nodes2 k) c)).sum := by
  obtain ⟨hpe, hse, hle, hgen, hperm, hsorted⟩ := project_bipart_buffers qsort hq mem_ed mem_proj
    nd_in nd_out weights E proj1 proj2 projW
  generalize hr : project_bipart_trace qsort mem_ed mem_proj nd_in nd_out weights E
    proj1 proj2 projW = r at hj hk hpe hse hle hgen hperm hsorted ⊢
  have hret : r.ret = countUnique r.projected mem_proj := by rw [← hr]; rfl
  have hn1 : r.nodes1 = (fillOutput r.projected mem_proj).nodes1 := by rw [← hr]; rfl
  have hn2 : r.nodes2 = (fillOutput r.projected mem_proj).nodes2 := by rw [← hr]; rfl
  have hst : r.strength = (fillOutput r.projected mem_proj).strength := by rw [← hr]; rfl
  have hjP : 0 < r.projected.length := by rw [hperm.length_eq]; exact hj
  obtain ⟨_, hent, _⟩ := final_entries r.projected mem_proj hsorted hjP
  rw [hret] at hk
  obtain ⟨t, ht, _, e1, e2, e3⟩ := hent k hk
  have hmem : rd r.projected mem_proj t ∈ allPairs r.ed mem_ed E := by
    rw [← hgen]; exact hperm.mem_iff.mp (mem_of_rd _ _ t ht)
  rw [mem_allPairs] at hmem
  obtain ⟨x, y, hy, hx, he, hp⟩ := hmem
  rw [pairEdge_eq] at hp
  have hued : UniquePairs r.ed := uniquePairs_perm _ _ hpe hu
  have hlt := generated_lt r.ed mem_ed hse hued x y hy (by omega) he
  have ha : r.nodes1 k = (rd r.ed mem_ed x).node1 := by rw [hn1, e1, hp]
  have hb : r.nodes2 k = (rd r.ed mem_ed y).node1 := by rw [hn2, e2, hp]
  refine ⟨by rw [ha, hb]; exact hlt, ?_⟩
  rw [hst, e3, ← e1, ← e2, ← hn1, ← hn2]
  have hab : r.nodes2 k < r.nodes1 k := by rw [ha, hb]; exact hlt
  rw [← dsum_eq_common _ hu, ← dsum_perm _ _ hpe, ← dsum_range_eq r.ed mem_ed, hle,
    ← pairs_sum_eq r.ed mem_ed hse _ _ hab E (by omega), ← hgen]
  exact ((hperm.filter _).map _).sum_eq

/-- The final list holds no endpoint pair twice. -/
theorem final_keys_distinct (qsort : List Edge → List Edge) (hq : QsortSpec qsort)
    (mem_ed mem_proj : Nat → Edge) (nd_in nd_out : List Nat) (weights : List ℚ) (E : Nat)
    (proj1 proj2 : Nat → Nat) (projW : Nat → ℚ)
    (hj : 0 < (project_bipart_trace qsort mem_ed mem_proj nd_in nd_out weights E
      proj1 proj2 projW).generated.length) (k k' : Nat)
    (hk : k < (project_bipart_trace qsort mem_ed mem_proj nd_in nd_out weights E
      proj1 proj2 projW).ret.toNat)
    (hk' : k' < (project_bipart_trace qsort mem_ed mem_proj nd_in nd_out weights E
      proj1 proj2 projW).ret.toNat)
    (h1 : (project_bipart_trace qsort mem_ed mem_proj nd_in nd_out weights E
        proj1 proj2 projW).nodes1 k =
      (project_bipart_trace qsort mem_ed mem_proj nd_in nd_out weights E proj1 proj2 projW).nodes1 k')
    (h2 : (project_bipart_trace qsort mem_ed mem_proj nd_in nd_out weights E
        proj1 proj2 projW).nodes2 k =
      (project_bipart_trace qsort mem_ed mem_proj nd_in nd_out weights E proj1 proj2 projW).nodes2 k') :
    k = k' := by
  obtain ⟨_, _, _, _, hperm, hsorted⟩ := project_bipart_buffers qsort hq mem_ed mem_proj
    nd_in nd_out weights E proj1 proj2 projW
  generalize hr : project_bipart_trace qsort mem_ed mem_proj nd_in nd_out weights E
    proj1 proj2 projW = r at hj hk hk' h1 h2 hperm hsorted ⊢
  have hret : r.ret = countUnique r.projected mem_proj := by rw [← hr]; rfl
  have hn1 : r.nodes1 = (fillOutput r.projected mem_proj).nodes1 := by rw [← hr]; rfl
  have hn2 : r.nodes2 = (fillOutput r.projected mem_proj).nodes2 := by rw [← hr]; rfl
  have hjP : 0 < r.projected.length := by rw [hperm.length_eq]; exact hj
  obtain ⟨_, hent, _⟩ := final_entries r.projected mem_proj hsorted hjP
  rw [hret] at hk hk'
  obtain ⟨t, ht, hg, e1, e2, _⟩ := hent k hk
  obtain ⟨t', ht', hg', e1', e2', _⟩ := hent k' hk'
  rw [hn1, e1, e1'] at h1
  rw [hn2, e2, e2'] at h2
  rw [← hg, ← hg']
  exact (groupIndex_eq_iff r.projected mem_proj hsorted t' t ht' ht).mpr ⟨h1, h2⟩

/-- Two different `nd_in` ids are the endpoints of a generated record exactly
when the input joins both to a common `nd_out` id. -/
theorem generated_join_iff (qsort : List Edge → List Edge) (hq : QsortSpec qsort)
    (mem_ed mem_proj : Nat → Edge) (nd_in nd_out : List Nat) (weights : List ℚ) (E : Nat)
    (proj1 proj2 : Nat → Nat) (projW : Nat → ℚ) (a b : Nat) (hab : a ≠ b) :
    (∃ p ∈ (project_bipart_trace qsort mem_ed mem_proj nd_in nd_out weights E
        proj1 proj2 projW).generated,
      (p.node1 = a ∧ p.node2 = b) ∨ (p.node1 = b ∧ p.node2 = a)) ↔
    ∃ c, (∃ e ∈ loadEdges nd_in nd_out weights E, e.node1 = a ∧ e.node2 = c) ∧
      (∃ e ∈ loadEdges nd_in nd_out weights E, e.node1 = b ∧ e.node2 = c) := by
  obtain ⟨hpe, _, hle, hgen, _, _⟩ := project_bipart_buffers qsort hq mem_ed mem_proj
    nd_in nd_out weights E proj1 proj2 projW
  generalize hr : project_bipart_trace qsort mem_ed mem_proj nd_in nd_out weights E
    proj1 proj2 projW = r at hpe hle hgen ⊢
  rw [hgen]
  constructor
  · rintro ⟨p, hp, hk⟩
    rw [mem_allPairs] at hp
    obtain ⟨x, y, hy, hx, he, rfl⟩ := hp
    rw [pairEdge_eq] at hk
    have hxm := hpe.mem_iff.mp (mem_of_rd r.ed mem_ed x (by omega))
    have hym := hpe.mem_iff.mp (mem_of_rd r.ed mem_ed y (by omega))
    rcases hk with ⟨h1, h2⟩ | ⟨h1, h2⟩
    · exact ⟨(rd r.ed mem_ed x).node2, ⟨_, hxm, h1, rfl⟩, ⟨_, hym, h2, he⟩⟩
    · exact ⟨(rd r.ed mem_ed x).node2, ⟨_, hym, h2, he⟩, ⟨_, hxm, h1, rfl⟩⟩
  · rintro ⟨c, ⟨e1, he1, h1a, h1c⟩, ⟨e2, he2, h2b, h2c⟩⟩
    obtain ⟨x1, hx1, hr1⟩ := exists_rd_of_mem r.ed mem_ed e1 (hpe.mem_iff.mpr he1)
    obtain ⟨x2, hx2, hr2⟩ := exists_rd_of_mem r.ed mem_ed e2 (hpe.mem_iff.mpr he2)
    have hne : x1 ≠ x2 := by
      intro h
      subst h
      rw [hr1] at hr2
      subst hr2
      exact hab (h1a.symm.trans h2b)
    rcases Nat.lt_or_gt_of_ne hne with h | h
    · refine ⟨_, (mem_allPairs _ _ _ _).mpr ⟨x2, x1, h, by omega, ?_, rfl⟩, ?_⟩
      · rw [hr1, hr2, h1c, h2c]
      · rw [pairEdge_eq, hr1, hr2]
        exact Or.inr ⟨h2b, h1a⟩
    · refine ⟨_, (mem_allPairs _ _ _ _).mpr ⟨x1, x2, h, by omega, ?_, rfl⟩, ?_⟩
      · rw [hr1, hr2, h1c, h2c]
      · rw [pairEdge_eq, hr1, hr2]
        exact Or.inl ⟨h1a, h2b⟩

/-- Both endpoints of a generated record are `nd_in` ids of the input. -/
theorem generated_endpoints (qsort : List Edge → List Edge) (hq : QsortSpec qsort)
    (mem_ed mem_proj : Nat → Edge) (nd_in nd_out : List Nat) (weights : List ℚ) (E : Nat)
    (proj1 proj2 : Nat → Nat) (projW : Nat → ℚ) (p : Edge)
    (hp : p ∈ (project_bipart_trace qsort mem_ed mem_proj nd_in nd_out weights E
        proj1 proj2 projW).generated) :
    (∃ e ∈ loadEdges nd_in nd_out weights E, e.node1 = p.node1) ∧
    (∃ e ∈ loadEdges nd_in nd_out weights E, e.node1 = p.node2) := by
  obtain ⟨hpe, _, hle, hgen, _, _⟩ := project_bipart_buffers qsort hq mem_ed mem_proj
    nd_in nd_out weights E proj1 proj2 projW
  generalize hr : project_bipart_trace qsort mem_ed mem_proj nd_in nd_out weights E
    proj1 proj2 projW = r at hpe hle hgen hp
  rw [hgen, mem_allPairs] at hp
  obtain ⟨x, y, hy, hx, _, rfl⟩ := hp
  rw [pairEdge_eq]
  exact ⟨⟨_, hpe.mem_iff.mp (mem_of_rd r.ed mem_ed x (by omega)), rfl⟩,
    ⟨_, hpe.mem_iff.mp (mem_of_rd r.ed mem_ed y (by omega)), rfl⟩⟩

/-- When a record is generated the returned count is positive. -/
theorem ret_pos (qsort : List Edge → List Edge) (hq : QsortSpec qsort)
    (mem_ed mem_proj : Nat → Edge) (nd_in nd_out : List Nat) (weights : List ℚ) (E : Nat)
    (proj1 proj2 : Nat → Nat) (projW : Nat → ℚ)
    (hj : 0 < (project_bipart_trace qsort mem_ed mem_proj nd_in nd_out weights E
      proj1 proj2 projW).generated.length) :
    0 < (project_bipart_trace qsort mem_ed mem_proj nd_in nd_out weights E
      proj1 proj2 projW).ret.toNat ∧
    (project_bipart_trace qsort mem_ed mem_proj nd_in nd_out weights E proj1 proj2 projW).ret =
      ((project_bipart_trace qsort mem_ed mem_proj nd_in nd_out weights E
        proj1 proj2 projW).ret.toNat : Int) := by
  obtain ⟨_, _, _, _, hperm, _⟩ := project_bipart_buffers qsort hq mem_ed mem_proj
    nd_in nd_out weights E proj1 proj2 projW
  generalize hr : project_bipart_trace qsort mem_ed mem_proj nd_in nd_out weights E
    proj1 proj2 projW = r at hj hperm ⊢
  have hret : r.ret = countUnique r.projected mem_proj := by rw [← hr]; rfl
  have hjP : 0 < r.projected.length := by rw [hperm.length_eq]; exact hj
  rw [hret, countUnique_pos r.projected mem_proj hjP]
  omega

theorem finalList_mem (r : ProjResult) (k : Nat) (hk : k < r.ret.toNat) :
    (⟨r.nodes1 k, r.nodes2 k, r.strength k⟩ : Edge) ∈ finalList r := by
  simp only [finalList, List.mem_map, List.mem_range]
  exact ⟨k, hk, rfl⟩

theorem square_loadEdges (A B X Y : Nat) :
    loadEdges [A, A, B, B] [X, Y, X, Y] [1, 1, 1, 1] 4 =
      [⟨A, X, 1⟩, ⟨A, Y, 1⟩, ⟨B, X, 1⟩, ⟨B, Y, 1⟩] := by
  simp [loadEdges, List.range_succ]

theorem square_unique (A B X Y : Nat) (hAB : A ≠ B) (hXY : X ≠ Y) :
    UniquePairs (loadEdges [A, A, B, B] [X, Y, X, Y] [1, 1, 1, 1] 4) := by
  rw [square_loadEdges]
  simp [UniquePairs, hAB, hXY, hAB.symm, hXY.symm]

/-- The scenario `{(A,X,1),(A,Y,1),(B,X,1),(B,Y,1)}` generates a record. -/
theorem square_generated_pos (qsort : List Edge → List Edge) (hq : QsortSpec qsort)
    (mem_ed mem_proj : Nat → Edge) (A B X Y : Nat) (proj1 proj2 : Nat → Nat) (projW : Nat → ℚ)
    (hAB : A ≠ B) :
    0 < (project_bipart_trace qsort mem_ed mem_proj [A, A, B, B] [X, Y, X, Y] [1, 1, 1, 1] 4
      proj1 proj2 projW).generated.length := by
  have hex : ∃ p ∈ (project_bipart_trace qsort mem_ed mem_proj [A, A, B, B] [X, Y, X, Y] [1, 1, 1, 1] 4
      proj1 proj2 projW).generated, (p.node1 = A ∧ p.node2 = B) ∨ (p.node1 = B ∧ p.node2 = A) := by
    rw [generated_join_iff qsort hq mem_ed mem_proj _ _ _ _ proj1 proj2 projW A B hAB,
      square_loadEdges]
    exact ⟨X, ⟨⟨A, X, 1⟩, by simp, rfl, rfl⟩, ⟨⟨B, X, 1⟩, by simp, rfl, rfl⟩⟩
  obtain ⟨p, hp, _⟩ := hex
  exact List.length_pos_of_mem hp

/-- The scenario `{(A,X,1),(A,Y,1),(B,X,1),(B,Y,1)}`: the returned count is 1
and entry 0 of the local arrays is the edge joining `A` and `B`, weight 2. -/
theorem square_fields (qsort : List Edge → List Edge) (hq : QsortSpec qsort)
    (mem_ed mem_proj : Nat → Edge) (A B X Y : Nat) (proj1 proj2 : Nat → Nat) (projW : Nat → ℚ)
    (hAB : A ≠ B) (hXY : X ≠ Y) :
    (project_bipart_trace qsort mem_ed mem_proj [A, A, B, B] [X, Y, X, Y] [1, 1, 1, 1] 4
      proj1 proj2 projW).ret.toNat = 1 ∧
    (project_bipart_trace qsort mem_ed mem_proj [A, A, B, B] [X, Y, X, Y] [1, 1, 1, 1] 4
      proj1 proj2 projW).nodes1 0 = max A B ∧
    (project_bipart_trace qsort mem_ed mem_proj [A, A, B, B] [X, Y, X, Y] [1, 1, 1, 1] 4
      proj1 proj2 projW).nodes2 0 = min A B ∧
    (project_bipart_trace qsort mem_ed mem_proj [A, A, B, B] [X, Y, X, Y] [1, 1, 1, 1] 4
      proj1 proj2 projW).strength 0 = 2 := by
  have hes := square_loadEdges A B X Y
  have hu := square_unique A B X Y hAB hXY
  have hj := square_generated_pos qsort hq mem_ed mem_proj A B X Y proj1 proj2 projW hAB
  have hkey : ∀ k, k < (project_bipart_trace qsort mem_ed mem_proj [A, A, B, B] [X, Y, X, Y]
      [1, 1, 1, 1] 4 proj1 proj2 projW).ret.toNat →
      (project_bipart_trace qsort mem_ed mem_proj [A, A, B, B] [X, Y, X, Y] [1, 1, 1, 1] 4
        proj1 proj2 projW).nodes1 k = max A B ∧
      (project_bipart_trace qsort mem_ed mem_proj [A, A, B, B] [X, Y, X, Y] [1, 1, 1, 1] 4
        proj1 proj2 projW).nodes2 k = min A B ∧
      (project_bipart_trace qsort mem_ed mem_proj [A, A, B, B] [X, Y, X, Y] [1, 1, 1, 1] 4
        proj1 proj2 projW).strength k = 2 := by
    intro k hk
    obtain ⟨hlt, hst⟩ := final_strength qsort hq mem_ed mem_proj _ _ _ _ proj1 proj2 projW hu hj k hk
    have hfin : ∃ e ∈ finalList (project_bipart_trace qsort mem_ed mem_proj [A, A, B, B] [X, Y, X, Y]
        [1, 1, 1, 1] 4 proj1 proj2 projW),
        e.node1 = (project_bipart_trace qsort mem_ed mem_proj [A, A, B, B] [X, Y, X, Y] [1, 1, 1, 1] 4
          proj1 proj2 projW).nodes1 k ∧
        e.node2 = (project_bipart_trace qsort mem_ed mem_proj [A, A, B, B] [X, Y, X, Y] [1, 1, 1, 1] 4
          proj1 proj2 projW).nodes2 k := by
      exact ⟨_, finalList_mem _ k hk, rfl, rfl⟩
    obtain ⟨p, hp, hp1, hp2⟩ := (final_pair_iff qsort hq mem_ed mem_proj _ _ _ _ proj1 proj2 projW
      hj _ _).mp hfin
    obtain ⟨⟨e1, he1, h1⟩, ⟨e2, he2, h2⟩⟩ := generated_endpoints qsort hq mem_ed mem_proj
      _ _ _ _ proj1 proj2 projW p hp
    rw [hes] at he1 he2
    rw [hp1] at h1
    rw [hp2] at h2
    have hn1 : (project_bipart_trace qsort mem_ed mem_proj [A, A, B, B] [X, Y, X, Y] [1, 1, 1, 1] 4
        proj1 proj2 projW).nodes1 k = A ∨
        (project_bipart_trace qsort mem_ed mem_proj [A, A, B, B] [X, Y, X, Y] [1, 1, 1, 1] 4
        proj1 proj2 projW).nodes1 k = B := by
      simp only [List.mem_cons, List.mem_singleton, List.not_mem_nil, or_false] at he1
      rcases he1 with rfl | rfl | rfl | rfl <;> simp [← h1]
    have hn2 : (project_bipart_trace qsort mem_ed mem_proj [A, A, B, B] [X, Y, X, Y] [1, 1, 1, 1] 4
        proj1 proj2 projW).nodes2 k = A ∨
        (project_bipart_trace qsort mem_ed mem_proj [A, A, B, B] [X, Y, X, Y] [1, 1, 1, 1] 4
        proj1 proj2 projW).nodes2 k = B := by
      simp only [List.mem_cons, List.mem_singleton, List.not_mem_nil, or_false] at he2
      rcases he2 with rfl | rfl | rfl | rfl <;> simp [← h2]
    rw [hes] at hst
    generalize (project_bipart_trace qsort mem_ed mem_proj [A, A, B, B] [X, Y, X, Y] [1, 1, 1, 1] 4
        proj1 proj2 projW).nodes1 k = n1 at hlt hst hn1 ⊢
    generalize (project_bipart_trace qsort mem_ed mem_proj [A, A, B, B] [X, Y, X, Y] [1, 1, 1, 1] 4
        proj1 proj2 projW).nodes2 k = n2 at hlt hst hn2 ⊢
    generalize (project_bipart_trace qsort mem_ed mem_proj [A, A, B, B] [X, Y, X, Y] [1, 1, 1, 1] 4
        proj1 proj2 projW).strength k = s at hst ⊢
    have hcase : (n1 = B ∧ n2 = A ∧ A < B) ∨ (n1 = A ∧ n2 = B ∧ B < A) := by omega
    rcases hcase with ⟨rfl, rfl, h⟩ | ⟨rfl, rfl, h⟩
    · refine ⟨by rw [max_eq_right (le_of_lt h)], by rw [min_eq_left (le_of_lt h)], ?_⟩
      rw [hst]
      simp [commonNeighbours, adjacent, weightOf, List.filter_cons, List.find?_cons, hAB, hXY,
        hAB.symm, hXY.symm]
      norm_num
    · refine ⟨by rw [max_eq_left (le_of_lt h)], by rw [min_eq_right (le_of_lt h)], ?_⟩
      rw [hst]
      simp [commonNeighbours, adjacent, weightOf, List.filter_cons, List.find?_cons, hAB, hXY,
        hAB.symm, hXY.symm]
      norm_num
  obtain ⟨hpos, _⟩ := ret_pos qsort hq mem_ed mem_proj _ _ _ _ proj1 proj2 projW hj
  have hone : (project_bipart_trace qsort mem_ed mem_proj [A, A, B, B] [X, Y, X, Y] [1, 1, 1, 1] 4
      proj1 proj2 projW).ret.toNat = 1 := by
    by_contra hne
    have h1 : 1 < (project_bipart_trace qsort mem_ed mem_proj [A, A, B, B] [X, Y, X, Y] [1, 1, 1, 1] 4
      proj1 proj2 projW).ret.toNat := by omega
    have k0 := hkey 0 hpos
    have k1 := hkey 1 h1
    have := final_keys_distinct qsort hq mem_ed mem_proj _ _ _ _ proj1 proj2 projW hj 0 1 hpos h1
      (k0.1.trans k1.1.symm) (k0.2.1.trans k1.2.1.symm)
    omega
  exact ⟨hone, hkey 0 hpos⟩

/-- The scenario `{(A,X,1),(A,Y,1),(B,X,1),(B,Y,1)}`: the final list is the one
edge joining `A` and `B`, with weight 2. -/
theorem square_result (qsort : List Edge → List Edge) (hq : QsortSpec qsort)
    (mem_ed mem_proj : Nat → Edge) (A B X Y : Nat) (proj1 proj2 : Nat → Nat) (projW : Nat → ℚ)
    (hAB : A ≠ B) (hXY : X ≠ Y) :
    finalList (project_bipart_trace qsort mem_ed mem_proj [A, A, B, B] [X, Y, X, Y] [1, 1, 1, 1] 4
      proj1 proj2 projW) = [⟨max A B, min A B, 2⟩] := by
  obtain ⟨hone, h1, h2, h3⟩ := square_fields qsort hq mem_ed mem_proj A B X Y proj1 proj2 projW
    hAB hXY
  simp only [finalList, hone, List.range_succ, List.range_zero, List.nil_append, List.map_cons,
    List.map_nil]
  rw [h1, h2, h3]

/-! ## Properties of the run `project_bipart_trace` -/

/-- The final list of a run is over the `nd_in` ids: its endpoints are `nd_in`
ids, and two different ids form an entry exactly when they share an `nd_out`
neighbour; the scenario `(A,A,B,B)`, `(X,Y,X,Y)` gives the one edge joining `A`
and `B`. -/
theorem trace_connects (qsort : List Edge → List Edge) (hq : QsortSpec qsort)
    (mem_ed mem_proj : Nat → Edge) :
    (∀ (nd_in nd_out : List Nat) (weights : List ℚ) (E : Nat) (proj1 proj2 : Nat → Nat)
      (projW : Nat → ℚ),
      0 < (project_bipart_trace qsort mem_ed mem_proj nd_in nd_out weights E
        proj1 proj2 projW).generated.length →
      (∀ e ∈ finalList (project_bipart_trace qsort mem_ed mem_proj nd_in nd_out weights E
          proj1 proj2 projW),
        (∃ i, i < E ∧ nd_in.getD i 0 = e.node1) ∧ (∃ i, i < E ∧ nd_in.getD i 0 = e.node2)) ∧
      (∀ a b, a ≠ b →
        ((∃ e ∈ finalList (project_bipart_trace qsort mem_ed mem_proj nd_in nd_out weights E
            proj1 proj2 projW), (e.node1 = a ∧ e.node2 = b) ∨ (e.node1 = b ∧ e.node2 = a)) ↔
          ∃ c, (∃ i, i < E ∧ nd_in.getD i 0 = a ∧ nd_out.getD i 0 = c) ∧
            (∃ i, i < E ∧ nd_in.getD i 0 = b ∧ nd_out.getD i 0 = c)))) ∧
    (∀ (A B X Y : Nat) (proj1 proj2 : Nat → Nat) (projW : Nat → ℚ), A ≠ B → X ≠ Y →
      finalList (project_bipart_trace qsort mem_ed mem_proj [A, A, B, B] [X, Y, X, Y] [1, 1, 1, 1] 4
        proj1 proj2 projW) = [⟨max A B, min A B, 2⟩]) := by
  refine ⟨?_, fun A B X Y proj1 proj2 projW hAB hXY =>
    square_result qsort hq mem_ed mem_proj A B X Y proj1 proj2 projW hAB hXY⟩
  intro nd_in nd_out weights E proj1 proj2 projW hj
  have hfp := final_pair_iff qsort hq mem_ed mem_proj nd_in nd_out weights E proj1 proj2 projW hj
  refine ⟨?_, ?_⟩
  · intro e he
    obtain ⟨p, hp, h1, h2⟩ := (hfp e.node1 e.node2).mp ⟨e, he, rfl, rfl⟩
    obtain ⟨⟨e1, he1, g1⟩, ⟨e2, he2, g2⟩⟩ := generated_endpoints qsort hq mem_ed mem_proj
      nd_in nd_out weights E proj1 proj2 projW p hp
    rw [mem_loadEdges] at he1 he2
    obtain ⟨i1, hi1, rfl⟩ := he1
    obtain ⟨i2, hi2, rfl⟩ := he2
    exact ⟨⟨i1, hi1, g1.trans h1⟩, ⟨i2, hi2, g2.trans h2⟩⟩
  · intro a b hab
    have hg := generated_join_iff qsort hq mem_ed mem_proj nd_in nd_out weights E
      proj1 proj2 projW a b hab
    constructor
    · rintro ⟨e, he, hk⟩
      have hgen : ∃ p ∈ (project_bipart_trace qsort mem_ed mem_proj nd_in nd_out weights E
          proj1 proj2 projW).generated,
          (p.node1 = a ∧ p.node2 = b) ∨ (p.node1 = b ∧ p.node2 = a) := by
        rcases hk with hk | hk
        · obtain ⟨p, hp, h⟩ := (hfp a b).mp ⟨e, he, hk⟩
          exact ⟨p, hp, Or.inl h⟩
        · obtain ⟨p, hp, h⟩ := (hfp b a).mp ⟨e, he, hk⟩
          exact ⟨p, hp, Or.inr h⟩
      obtain ⟨c, ⟨e1, he1, h1a, h1c⟩, ⟨e2, he2, h2b, h2c⟩⟩ := hg.mp hgen
      rw [mem_loadEdges] at he1 he2
      obtain ⟨i1, hi1, rfl⟩ := he1
      obtain ⟨i2, hi2, rfl⟩ := he2
      exact ⟨c, ⟨i1, hi1, h1a, h1c⟩, ⟨i2, hi2, h2b, h2c⟩⟩
    · rintro ⟨c, ⟨i1, hi1, h1a, h1c⟩, ⟨i2, hi2, h2b, h2c⟩⟩
      have hgen := hg.mpr ⟨c,
        ⟨_, (mem_loadEdges nd_in nd_out weights E _).mpr ⟨i1, hi1, rfl⟩, h1a, h1c⟩,
        ⟨_, (mem_loadEdges nd_in nd_out weights E _).mpr ⟨i2, hi2, rfl⟩, h2b, h2c⟩⟩
      obtain ⟨p, hp, hk⟩ := hgen
      rcases hk with hk | hk
      · obtain ⟨e, he, h⟩ := (hfp a b).mpr ⟨p, hp, hk⟩
        exact ⟨e, he, Or.inl h⟩
      · obtain ⟨e, he, h⟩ := (hfp b a).mpr ⟨p, hp, hk⟩
        exact ⟨e, he, Or.inr h⟩

/-- On `nd_in = (0,0,1,1)`, `nd_out = (2,3,2,3)` a run ends with `E = 1`, the
final list `(1,0,2)` in its local arrays, and the caller's arrays as they were. -/
theorem trace_outputs_untouched (proj1 proj2 : Nat → Nat) (projW : Nat → ℚ) :
    (project_bipart_trace insertionQsort zeroMem zeroMem [0, 0, 1, 1] [2, 3, 2, 3] [1, 1, 1, 1] 4
      proj1 proj2 projW).ret = 1 ∧
    finalList (project_bipart_trace insertionQsort zeroMem zeroMem [0, 0, 1, 1] [2, 3, 2, 3]
      [1, 1, 1, 1] 4 proj1 proj2 projW) = [⟨1, 0, 2⟩] ∧
    (project_bipart_trace insertionQsort zeroMem zeroMem [0, 0, 1, 1] [2, 3, 2, 3] [1, 1, 1, 1] 4
      proj1 proj2 projW).proj1 = proj1 ∧
    (project_bipart_trace insertionQsort zeroMem zeroMem [0, 0, 1, 1] [2, 3, 2, 3] [1, 1, 1, 1] 4
      proj1 proj2 projW).proj2 = proj2 ∧
    (project_bipart_trace insertionQsort zeroMem zeroMem [0, 0, 1, 1] [2, 3, 2, 3] [1, 1, 1, 1] 4
      proj1 proj2 projW).projW = projW := by
  have hj := square_generated_pos insertionQsort insertionQsort_spec zeroMem zeroMem 0 1 2 3
    proj1 proj2 projW (by decide)
  have hf := square_fields insertionQsort insertionQsort_spec zeroMem zeroMem 0 1 2 3
    proj1 proj2 projW (by decide) (by decide)
  have hr := (ret_pos insertionQsort insertionQsort_spec zeroMem zeroMem _ _ _ _
    proj1 proj2 projW hj).2
  refine ⟨?_, ?_, rfl, rfl, rfl⟩
  · rw [hr, hf.1]; rfl
  · exact square_result insertionQsort insertionQsort_spec zeroMem zeroMem 0 1 2 3
      proj1 proj2 projW (by decide) (by decide)

/-- With unique input pairs the strength of a final entry is the sum, over the
common neighbours of its endpoints, of the products of the two weights. -/
theorem trace_weight (qsort : List Edge → List Edge) (hq : QsortSpec qsort)
    (mem_ed mem_proj : Nat → Edge) (nd_in nd_out : List Nat) (weights : List ℚ) (E : Nat)
    (proj1 proj2 : Nat → Nat) (projW : Nat → ℚ)
    (hu : UniquePairs (loadEdges nd_in nd_out weights E))
    (hj : 0 < (project_bipart_trace qsort mem_ed mem_proj nd_in nd_out weights E
      proj1 proj2 projW).generated.length) :
    ∀ k, k < (project_bipart_trace qsort mem_ed mem_proj nd_in nd_out weights E
        proj1 proj2 projW).ret.toNat →
      (commonNeighbours (loadEdges nd_in nd_out weights E)
        ((project_bipart_trace qsort mem_ed mem_proj nd_in nd_out weights E proj1 proj2 projW).nodes1 k)
        ((project_bipart_trace qsort mem_ed mem_proj nd_in nd_out weights E
          proj1 proj2 projW).nodes2 k)).Nodup ∧
      (∀ c, c ∈ commonNeighbours (loadEdges nd_in nd_out weights E)
          ((project_bipart_trace qsort mem_ed mem_proj nd_in nd_out weights E
            proj1 proj2 projW).nodes1 k)
          ((project_bipart_trace qsort mem_ed mem_proj nd_in nd_out weights E
            proj1 proj2 projW).nodes2 k) ↔
        (adjacent (loadEdges nd_in nd_out weights E)
          ((project_bipart_trace qsort mem_ed mem_proj nd_in nd_out weights E
            proj1 proj2 projW).nodes1 k) c = true ∧
         adjacent (loadEdges nd_in nd_out weights E)
          ((project_bipart_trace qsort mem_ed mem_proj nd_in nd_out weights E
            proj1 proj2 projW).nodes2 k) c = true)) ∧
      (project_bipart_trace qsort mem_ed mem_proj nd_in nd_out weights E proj1 proj2 projW).strength k =
        ((commonNeighbours (loadEdges nd_in nd_out weights E)
            ((project_bipart_trace qsort mem_ed mem_proj nd_in nd_out weights E
              proj1 proj2 projW).nodes1 k)
            ((project_bipart_trace qsort mem_ed mem_proj nd_in nd_out weights E
              proj1 proj2 projW).nodes2 k)).map
          (fun c =>
            weightOf (loadEdges nd_in nd_out weights E)
              ((project_bipart_trace qsort mem_ed mem_proj nd_in nd_out weights E
                proj1 proj2 projW).nodes1 k) c *
            weightOf (loadEdges nd_in nd_out weights E)
              ((project_bipart_trace qsort mem_ed mem_proj nd_in nd_out weights E
                proj1 proj2 projW).nodes2 k) c)).sum := by
  intro k hk
  obtain ⟨h1, h2⟩ := commonNeighbours_spec (loadEdges nd_in nd_out weights E) hu
    ((project_bipart_trace qsort mem_ed mem_proj nd_in nd_out weights E proj1 proj2 projW).nodes1 k)
    ((project_bipart_trace qsort mem_ed mem_proj nd_in nd_out weights E proj1 proj2 projW).nodes2 k)
  exact ⟨h1, h2, (final_strength qsort hq mem_ed mem_proj nd_in nd_out weights E
    proj1 proj2 projW hu hj k hk).2⟩

theorem groupIndex_zeroMem (n : Nat) : groupIndex [] zeroMem n = 0 := by
  unfold groupIndex
  rw [List.length_eq_zero, List.filter_eq_nil_iff]
  intro s _
  simp [rd, zeroMem, compare_edges]

/-- When the `nd_out` ids of the input are pairwise different, the generating
loop writes no record. -/
theorem generated_nil_of_distinct (qsort : List Edge → List Edge) (hq : QsortSpec qsort)
    (mem_ed mem_proj : Nat → Edge) (nd_in nd_out : List Nat) (weights : List ℚ) (E : Nat)
    (proj1 proj2 : Nat → Nat) (projW : Nat → ℚ)
    (hd : ∀ i j, i < E → j < E → i ≠ j → nd_out.getD i 0 ≠ nd_out.getD j 0) :
    (project_bipart_trace qsort mem_ed mem_proj nd_in nd_out weights E
      proj1 proj2 projW).generated = [] := by
  obtain ⟨hpe, _, hle, hgen, _, _⟩ := project_bipart_buffers qsort hq mem_ed mem_proj
    nd_in nd_out weights E proj1 proj2 projW
  generalize hr : project_bipart_trace qsort mem_ed mem_proj nd_in nd_out weights E
    proj1 proj2 projW = r at hpe hle hgen ⊢
  have hnd : ((loadEdges nd_in nd_out weights E).map (fun e => e.node2)).Nodup := by
    unfold loadEdges
    rw [List.map_map]
    apply List.Nodup.map_on _ (List.nodup_range E)
    intro i hi j hj hij
    by_contra hne
    exact hd i j (List.mem_range.mp hi) (List.mem_range.mp hj) hne hij
  have hnd' : (r.ed.map (fun e => e.node2)).Nodup := ((hpe.map _).nodup_iff).mpr hnd
  rw [List.eq_nil_iff_forall_not_mem]
  intro p hp
  rw [hgen, mem_allPairs] at hp
  obtain ⟨x, y, hy, hx, he, _⟩ := hp
  have hxl : x < r.ed.length := by omega
  have hyl : y < r.ed.length := by omega
  have hpw := (List.pairwise_iff_getElem.mp hnd') y x (by simpa using hyl) (by simpa using hxl) hy
  apply hpw
  simp only [List.getElem_map]
  rw [← rd_lt r.ed mem_ed x hxl, ← rd_lt r.ed mem_ed y hyl]
  exact he

/-- When the `nd_out` ids are pairwise different no record is generated, and the
value of `E` at the return is what the loop over `UINT_MAX` positions of memory
leaves. -/
theorem trace_no_pairs (qsort : List Edge → List Edge) (hq : QsortSpec qsort)
    (mem_ed mem_proj : Nat → Edge) (nd_in nd_out : List Nat) (weights : List ℚ) (E : Nat)
    (proj1 proj2 : Nat → Nat) (projW : Nat → ℚ)
    (hd : ∀ i j, i < E → j < E → i ≠ j → nd_out.getD i 0 ≠ nd_out.getD j 0) :
    (project_bipart_trace qsort mem_ed mem_proj nd_in nd_out weights E
      proj1 proj2 projW).generated = [] ∧
    (project_bipart_trace qsort mem_ed mem_proj nd_in nd_out weights E proj1 proj2 projW).ret =
      (groupIndex [] mem_proj 4294967295 : Int) - 4294967295 := by
  have hg := generated_nil_of_distinct qsort hq mem_ed mem_proj nd_in nd_out weights E
    proj1 proj2 projW hd
  refine ⟨hg, ?_⟩
  obtain ⟨_, _, _, _, hperm, _⟩ := project_bipart_buffers qsort hq mem_ed mem_proj
    nd_in nd_out weights E proj1 proj2 projW
  generalize hr : project_bipart_trace qsort mem_ed mem_proj nd_in nd_out weights E
    proj1 proj2 projW = r at hg hperm ⊢
  have hret : r.ret = countUnique r.projected mem_proj := by rw [← hr]; rfl
  have hP : r.projected = [] := by
    rw [hg] at hperm
    exact List.Perm.eq_nil hperm
  rw [hret, hP]
  unfold countUnique uniqBound
  rw [if_pos List.length_nil, foldl_uniqStep]
  simp only [List.length_nil]
  push_cast
  ring

/-! ## Lemmas on `AssignNodesToModulesFromFile` -/

theorem lookupLabel_isSome (labels : List String) (N : Nat) (label : String)
    (h : ∃ i, i < N ∧ labels[i]? = some label) :
    ∃ i, lookupLabel labels N label = some i := by
  obtain ⟨i, hi, hl⟩ := h
  have : (lookupLabel labels N label).isSome = true := by
    unfold lookupLabel
    rw [List.find?_isSome]
    exact ⟨i, List.mem_range.mpr hi, decide_eq_true hl⟩
  exact Option.isSome_iff_exists.mp this

theorem sum_update_module (g : Module → Nat) (f : Nat → Module) (M j : Nat) (hj : j < M)
    (v : Module) :
    (∑ m in Finset.range M, g (Function.update f j v m)) + g (f j) =
      (∑ m in Finset.range M, g (f m)) + g v := by
  have hmem : j ∈ Finset.range M := Finset.mem_range.mpr hj
  rw [← Finset.add_sum_erase _ _ hmem, ← Finset.add_sum_erase (Finset.range M) (fun m => g (f m)) hmem]
  have hc : ∑ m in (Finset.range M).erase j, g (Function.update f j v m) =
      ∑ m in (Finset.range M).erase j, g (f m) := by
    apply Finset.sum_congr rfl
    intro m hm
    rw [Function.update_noteq (Finset.ne_of_mem_erase hm)]
  rw [hc, Function.update_same]
  ring

/-- One iteration of the assignment loop keeps the invariant. -/
theorem assignStep_inv (labels : List String) (M : Nat) (s : LoadState) (n : Nat)
    (tok : String × Bool) (hinv : LoadInv M s n) (hj : s.j < M)
    (hl : ∃ i, i < s.part.N ∧ labels[i]? = some tok.1) :
    ∃ s', assignStep labels s tok = some s' ∧ LoadInv M s' (n + 1) ∧
      s'.j = s.j + (if tok.2 then 1 else 0) ∧ s'.part.N = s.part.N ∧ s'.nnode = s.nnode - 1 := by
  obtain ⟨i, hi⟩ := lookupLabel_isSome labels s.part.N tok.1 hl
  obtain ⟨hM, hsum, hne, hlast⟩ := hinv
  unfold assignStep
  rw [hi]
  by_cases hz : (s.part.modules s.j).size = 0
  · simp only [hz, if_true]
    refine ⟨_, rfl, ⟨hM, ?_, ?_, ?_⟩, ?_, rfl, rfl⟩
    · have := sum_update_module (fun m => m.size) s.part.modules M s.j hj
        { size := 1, strength := (s.part.nodes i).strength, first := some i, last := some i }
      simp only [hz] at this
      simp only
      omega
    · have := sum_update_module (fun m => if m.size = 0 then 1 else 0) s.part.modules M s.j hj
        { size := 1, strength := (s.part.nodes i).strength, first := some i, last := some i }
      simp only [hz, if_true] at this
      simp only
      rw [hne]
      simp only [one_ne_zero, if_false, add_zero] at this
      omega
    · intro m hmM
      simp only [Function.update_apply]
      by_cases hm : m = s.j
      · simp [hm]
      · simp only [hm, if_false]
        exact hlast m hmM
    · by_cases ht : tok.2 <;> simp [ht]
  · simp only [hz, if_false]
    obtain ⟨l, hl'⟩ := Option.ne_none_iff_exists'.mp (hlast s.j hj hz)
    rw [hl']
    refine ⟨_, rfl, ⟨hM, ?_, ?_, ?_⟩, ?_, rfl, rfl⟩
    · have := sum_update_module (fun m => m.size) s.part.modules M s.j hj
        { size := (s.part.modules s.j).size + 1,
          strength := (s.part.modules s.j).strength + (s.part.nodes i).strength,
          first := (s.part.modules s.j).first, last := some i }
      simp only at this ⊢
      omega
    · have := sum_update_module (fun m => if m.size = 0 then 1 else 0) s.part.modules M s.j hj
        { size := (s.part.modules s.j).size + 1,
          strength := (s.part.modules s.j).strength + (s.part.nodes i).strength,
          first := (s.part.modules s.j).first, last := some i }
      simp only [hz, if_false, Nat.succ_ne_zero, add_zero] at this
      simp only
      rw [hne, this]
    · intro m hmM
      simp only [Function.update_apply]
      by_cases hm : m = s.j
      · simp [hm]
      · simp only [hm, if_false]
        exact hlast m hmM
    · by_cases ht : tok.2 <;> simp [ht]

theorem lineIndex_cons_succ (tok : String × Bool) (rest : List (String × Bool)) (k : Nat) :
    lineIndex (tok :: rest) (k + 1) = (if tok.2 then 1 else 0) + lineIndex rest k := by
  unfold lineIndex
  rw [List.take_succ_cons, List.filter_cons]
  by_cases h : tok.2 <;> simp [h] <;> omega

/-- The assignment loop runs to its end and keeps the invariant. -/
theorem foldlM_assignStep_inv (labels : List String) (M N : Nat) (inF : List (String × Bool)) :
    ∀ (s : LoadState) (n : Nat), LoadInv M s n → s.part.N = N →
      (∀ k, k < inF.length → s.j + lineIndex inF k < M) →
      (∀ t ∈ inF, ∃ i, i < N ∧ labels[i]? = some t.1) →
      ∃ s', inF.foldlM (assignStep labels) s = some s' ∧ LoadInv M s' (n + inF.length) ∧
        s'.nnode = s.nnode - inF.length := by
  induction inF with
  | nil =>
    intro s n hinv _ _ _
    exact ⟨s, rfl, by simpa using hinv, by simp⟩
  | cons tok rest ih =>
    intro s n hinv hN hlines hlab
    have hj : s.j < M := by
      have := hlines 0 (by simp)
      simpa [lineIndex] using this
    obtain ⟨s1, hs1, hinv1, hj1, hN1, hnn1⟩ := assignStep_inv labels M s n tok hinv hj
      (by rw [hN]; exact hlab tok (List.mem_cons_self _ _))
    obtain ⟨s', hs', hinv', hnn'⟩ := ih s1 (n + 1) hinv1 (hN1.trans hN)
      (by
        intro k hk
        have := hlines (k + 1) (by simpa using hk)
        rw [lineIndex_cons_succ] at this
        rw [hj1]; omega)
      (fun t ht => hlab t (List.mem_cons_of_mem _ ht))
    refine ⟨s', ?_, ?_, ?_⟩
    · rw [List.foldlM_cons, hs1]
      exact hs'
    · have : n + (tok :: rest).length = n + 1 + rest.length := by simp; omega
      rw [this]; exact hinv'
    · rw [hnn', hnn1]
      simp only [List.length_cons]
      push_cast; ring

/-! ## The loop body of `AssignNodesToModulesFromFile` on a fresh partition -/

theorem fresh_loadInv (part : Partition)
    (hsize : ∀ m, m < part.M → (part.modules m).size = 0) (hnempty : part.nempty = (part.M : Int)) :
    LoadInv part.M { part := part, j := 0, nnode := part.N } 0 := by
  refine ⟨rfl, ?_, ?_, ?_⟩
  · apply Finset.sum_eq_zero
    intro m hm
    exact hsize m (Finset.mem_range.mp hm)
  · simp only
    rw [hnempty]
    have : ∑ m in Finset.range part.M, (if (part.modules m).size = 0 then 1 else 0) =
        ∑ _m in Finset.range part.M, 1 := by
      apply Finset.sum_congr rfl
      intro m hm
      rw [if_pos (hsize m (Finset.mem_range.mp hm))]
    rw [this]
    simp
  · intro m hm hne
    exact absurd (hsize m hm) hne

/-- The body of the loop run over tokens that match known labels and lie on
lines below `M`, from a fresh partition: it runs to the end, the module sizes
sum to the number of tokens and `nempty` counts the modules of size 0. -/
theorem tokens_invariant (labels : List String) (inF : List (String × Bool))
    (part : Partition)
    (hsize : ∀ m, m < part.M → (part.modules m).size = 0)
    (hnempty : part.nempty = (part.M : Int))
    (hlab : ∀ t ∈ inF, ∃ i, i < part.N ∧ labels[i]? = some t.1)
    (hlines : ∀ k, k < inF.length → lineIndex inF k < part.M) :
    ∃ s, assignTokens labels inF part = some s ∧
      ∑ m in Finset.range part.M, (s.part.modules m).size = inF.length ∧
      s.part.nempty =
        (((Finset.range part.M).filter (fun m => (s.part.modules m).size = 0)).card : Int) := by
  obtain ⟨s, hs, hinv, _⟩ := foldlM_assignStep_inv labels part.M part.N inF
    { part := part, j := 0, nnode := part.N } 0 (fresh_loadInv part hsize hnempty) rfl
    (by intro k hk; simpa using hlines k hk) hlab
  obtain ⟨_, hsum, hne, _⟩ := hinv
  refine ⟨s, hs, by simpa using hsum, ?_⟩
  rw [hne, Finset.card_filter]

/-! ## Further theorems on `EdgeListToAdjaArray` -/

/-- C17: `EdgeListToAdjaArray` never writes `idx[N]`.  For every input, `idx[i]`
for `i < N` is on return the sum of the degrees (as counted by the first loop)
of the nodes before `i`, so `idx[0] = 0`; `idx[N]` is on return what it was on
entry; and the fill position of the first half-edge of node `N-1` is computed
from that entry value, as `idx[N] - degree[N-1]`. -/
theorem EdgeListToAdjaArray_idx_frame (nd_in nd_out : List Nat) (weight : List ℚ)
    (adj : AdjaArray) (part : Partition) (normalize : Int) :
    (∀ i, i < adj.N →
      (EdgeListToAdjaArray nd_in nd_out weight adj part normalize).2.1.idx i =
        ∑ v in Finset.range i,
          (degreePass (edgeList nd_in nd_out weight adj.E) part).degree v) ∧
    (0 < adj.N → (EdgeListToAdjaArray nd_in nd_out weight adj part normalize).2.1.idx 0 = 0) ∧
    (EdgeListToAdjaArray nd_in nd_out weight adj part normalize).2.1.idx adj.N = adj.idx adj.N ∧
    (0 < adj.N →
      fillPos (EdgeListToAdjaArray nd_in nd_out weight adj part normalize).2.1.idx
          (degreePass (edgeList nd_in nd_out weight adj.E) part).degree (adj.N - 1) =
        adj.idx adj.N - (degreePass (edgeList nd_in nd_out weight adj.E) part).degree (adj.N - 1)) := by
  have h := (foldl_idxStep (degreePass (edgeList nd_in nd_out weight adj.E) part).degree
    (normConst (edgeList nd_in nd_out weight adj.E) part normalize)
    { pos := 0, idx := adj.idx,
      nodes := (degreePass (edgeList nd_in nd_out weight adj.E) part).nodes } adj.N).2.1
  have hidx : ∀ u, (EdgeListToAdjaArray nd_in nd_out weight adj part normalize).2.1.idx u =
      if u < adj.N then
        (0 : Int) + ∑ v in Finset.range u,
          (degreePass (edgeList nd_in nd_out weight adj.E) part).degree v
      else adj.idx u := h
  have hN : (EdgeListToAdjaArray nd_in nd_out weight adj part normalize).2.1.idx adj.N =
      adj.idx adj.N := by
    rw [hidx, if_neg (lt_irrefl _)]
  refine ⟨?_, ?_, hN, ?_⟩
  · intro i hi
    rw [hidx, if_pos hi, zero_add]
  · intro h0
    rw [hidx, if_pos h0]
    simp
  · intro h0
    unfold fillPos
    have : adj.N - 1 + 1 = adj.N := by omega
    rw [this, hN]

/-- Witness for C17: the edge `(0,1)` over 2 nodes with `idx` holding 7
everywhere on entry: `idx[0] = 0`, `idx[1] = 1`, and `idx[2]` is still 7. -/
theorem EdgeListToAdjaArray_idx_frame_witness :
    (EdgeListToAdjaArray [0] [1] [1]
      { N := 2, E := 1, idx := fun _ => 7, neighbors := fun _ => 0, strength := fun _ => 0 }
      (freshPartition 2 2) 0).2.1.idx 0 = 0 ∧
    (EdgeListToAdjaArray [0] [1] [1]
      { N := 2, E := 1, idx := fun _ => 7, neighbors := fun _ => 0, strength := fun _ => 0 }
      (freshPartition 2 2) 0).2.1.idx 2 = 7 := by
  have h := EdgeListToAdjaArray_idx_frame [0] [1] [1]
    { N := 2, E := 1, idx := fun _ => 7, neighbors := fun _ => 0, strength := fun _ => 0 }
    (freshPartition 2 2) 0
  exact ⟨h.2.1 (by decide), h.2.2.1⟩

/-! ## Further lemmas on `project_bipart_trace` -/

/-- In a sorted buffer, of two positions with the same `node2` the earlier has
the smaller or equal `node1`. -/
theorem generated_le (ed : List Edge) (mem : Nat → Edge)
    (hs : ed.Pairwise (fun a b => compare_edges a b ≤ 0))
    (x y : Nat) (hy : y < x) (hx : x < ed.length)
    (he : (rd ed mem y).node2 = (rd ed mem x).node2) :
    (rd ed mem y).node1 ≤ (rd ed mem x).node1 := by
  have hyl : y < ed.length := by omega
  have hc := (List.pairwise_iff_getElem.mp hs) y x hyl hx hy
  rw [← rd_lt ed mem x hx, ← rd_lt ed mem y hyl, compare_edges_le_iff] at hc
  omega

/-- A generated record has `node1 ≥ node2`, and `node1 > node2` when the input
pairs are unique. -/
theorem generated_orientation (qsort : List Edge → List Edge) (hq : QsortSpec qsort)
    (mem_ed mem_proj : Nat → Edge) (nd_in nd_out : List Nat) (weights : List ℚ) (E : Nat)
    (proj1 proj2 : Nat → Nat) (projW : Nat → ℚ) (p : Edge)
    (hp : p ∈ (project_bipart_trace qsort mem_ed mem_proj nd_in nd_out weights E
      proj1 proj2 projW).generated) :
    p.node2 ≤ p.node1 ∧ (UniquePairs (loadEdges nd_in nd_out weights E) → p.node2 < p.node1) := by
  obtain ⟨hpe, hse, hle, hgen, _, _⟩ := project_bipart_buffers qsort hq mem_ed mem_proj
    nd_in nd_out weights E proj1 proj2 projW
  generalize hr : project_bipart_trace qsort mem_ed mem_proj nd_in nd_out weights E
    proj1 proj2 projW = r at hpe hse hle hgen hp
  rw [hgen, mem_allPairs] at hp
  obtain ⟨x, y, hy, hx, he, rfl⟩ := hp
  rw [pairEdge_eq]
  refine ⟨generated_le r.ed mem_ed hse x y hy (by omega) he, ?_⟩
  intro hu
  exact generated_lt r.ed mem_ed hse (uniquePairs_perm _ _ hpe hu) x y hy (by omega) he

/-- Consecutive entries of the final list come from positions of the sorted
buffer in ascending order. -/
theorem final_consecutive (P : List Edge) (mem : Nat → Edge)
    (hs : P.Pairwise (fun a b => compare_edges a b ≤ 0)) (hj : 0 < P.length)
    (k : Nat) (hk : k + 1 < (countUnique P mem).toNat) :
    (fillOutput P mem).nodes2 k < (fillOutput P mem).nodes2 (k + 1) ∨
    ((fillOutput P mem).nodes2 k = (fillOutput P mem).nodes2 (k + 1) ∧
      (fillOutput P mem).nodes1 k < (fillOutput P mem).nodes1 (k + 1)) := by
  obtain ⟨_, hent, _⟩ := final_entries P mem hs hj
  obtain ⟨t, ht, hg, e1, e2, _⟩ := hent k (by omega)
  obtain ⟨t', ht', hg', e1', e2', _⟩ := hent (k + 1) hk
  have htt : t < t' := by
    by_contra hc
    have := groupIndex_mono P mem t' t (by omega)
    omega
  have hc := (List.pairwise_iff_getElem.mp hs) t t' ht ht' htt
  rw [← rd_lt P mem t ht, ← rd_lt P mem t' ht', compare_edges_le_iff] at hc
  have hne : ¬ ((rd P mem t').node1 = (rd P mem t).node1 ∧
      (rd P mem t').node2 = (rd P mem t).node2) := by
    intro h
    have := (groupIndex_eq_iff P mem hs t t' ht ht').mpr h
    omega
  rw [e1, e2, e1', e2']
  omega

/-! ## Further properties of the run `project_bipart_trace` -/

/-- The final list of a run ascends in the order of `(node2, node1)`. -/
theorem trace_final_order (qsort : List Edge → List Edge) (hq : QsortSpec qsort)
    (mem_ed mem_proj : Nat → Edge) (nd_in nd_out : List Nat) (weights : List ℚ) (E : Nat)
    (proj1 proj2 : Nat → Nat) (projW : Nat → ℚ)
    (hj : 0 < (project_bipart_trace qsort mem_ed mem_proj nd_in nd_out weights E
      proj1 proj2 projW).generated.length) :
    ∀ k, k + 1 < (project_bipart_trace qsort mem_ed mem_proj nd_in nd_out weights E
        proj1 proj2 projW).ret.toNat →
      (project_bipart_trace qsort mem_ed mem_proj nd_in nd_out weights E proj1 proj2 projW).nodes2 k <
        (project_bipart_trace qsort mem_ed mem_proj nd_in nd_out weights E
          proj1 proj2 projW).nodes2 (k + 1) ∨
      ((project_bipart_trace qsort mem_ed mem_proj nd_in nd_out weights E proj1 proj2 projW).nodes2 k =
        (project_bipart_trace qsort mem_ed mem_proj nd_in nd_out weights E
          proj1 proj2 projW).nodes2 (k + 1) ∧
       (project_bipart_trace qsort mem_ed mem_proj nd_in nd_out weights E proj1 proj2 projW).nodes1 k <
        (project_bipart_trace qsort mem_ed mem_proj nd_in nd_out weights E
          proj1 proj2 projW).nodes1 (k + 1)) := by
  obtain ⟨_, _, _, _, hperm, hsorted⟩ := project_bipart_buffers qsort hq mem_ed mem_proj
    nd_in nd_out weights E proj1 proj2 projW
  intro k hk
  have hjP : 0 < (project_bipart_trace qsort mem_ed mem_proj nd_in nd_out weights E
      proj1 proj2 projW).projected.length := by rw [hperm.length_eq]; exact hj
  exact final_consecutive _ mem_proj hsorted hjP k hk

/-- In a sorted buffer the records with the same endpoints are adjacent: a
position between two positions holding the same endpoints holds them too. -/
theorem sorted_keys_adjacent (P : List Edge) (mem : Nat → Edge)
    (hs : P.Pairwise (fun a b => compare_edges a b ≤ 0)) (t s t' : Nat)
    (hts : t ≤ s) (hst : s ≤ t') (ht' : t' < P.length)
    (h1 : (rd P mem t).node1 = (rd P mem t').node1)
    (h2 : (rd P mem t).node2 = (rd P mem t').node2) :
    (rd P mem s).node1 = (rd P mem t).node1 ∧ (rd P mem s).node2 = (rd P mem t).node2 := by
  have hg := key_eq_groupIndex P mem hs t t' (by omega) ht' ⟨h1, h2⟩
  have m1 := groupIndex_mono P mem t s hts
  have m2 := groupIndex_mono P mem s t' hst
  have := groupIndex_eq_key P mem t s hts (by omega)
  exact ⟨this.1.symm, this.2.symm⟩

/-- The strength of a final entry is the sum of the strengths of the generated
records with its endpoints. -/
theorem final_strength_generated (qsort : List Edge → List Edge) (hq : QsortSpec qsort)
    (mem_ed mem_proj : Nat → Edge) (nd_in nd_out : List Nat) (weights : List ℚ) (E : Nat)
    (proj1 proj2 : Nat → Nat) (projW : Nat → ℚ)
    (hj : 0 < (project_bipart_trace qsort mem_ed mem_proj nd_in nd_out weights E
      proj1 proj2 projW).generated.length) (k : Nat)
    (hk : k < (project_bipart_trace qsort mem_ed mem_proj nd_in nd_out weights E
      proj1 proj2 projW).ret.toNat) :
    (project_bipart_trace qsort mem_ed mem_proj nd_in nd_out weights E proj1 proj2 projW).strength k =
      (((project_bipart_trace qsort mem_ed mem_proj nd_in nd_out weights E
          proj1 proj2 projW).generated.filter
        (fun p => decide (p.node1 = (project_bipart_trace qsort mem_ed mem_proj nd_in nd_out weights E
            proj1 proj2 projW).nodes1 k ∧
          p.node2 = (project_bipart_trace qsort mem_ed mem_proj nd_in nd_out weights E
            proj1 proj2 projW).nodes2 k))).map (fun p => p.strength)).sum := by
  obtain ⟨_, _, _, _, hperm, hsorted⟩ := project_bipart_buffers qsort hq mem_ed mem_proj
    nd_in nd_out weights E proj1 proj2 projW
  generalize hr : project_bipart_trace qsort mem_ed mem_proj nd_in nd_out weights E
    proj1 proj2 projW = r at hj hk hperm hsorted ⊢
  have hret : r.ret = countUnique r.projected mem_proj := by rw [← hr]; rfl
  have hn1 : r.nodes1 = (fillOutput r.projected mem_proj).nodes1 := by rw [← hr]; rfl
  have hn2 : r.nodes2 = (fillOutput r.projected mem_proj).nodes2 := by rw [← hr]; rfl
  have hst : r.strength = (fillOutput r.projected mem_proj).strength := by rw [← hr]; rfl
  have hjP : 0 < r.projected.length := by rw [hperm.length_eq]; exact hj
  obtain ⟨_, hent, _⟩ := final_entries r.projected mem_proj hsorted hjP
  rw [hret] at hk
  obtain ⟨t, ht, _, e1, e2, e3⟩ := hent k hk
  rw [hst, e3, hn1, hn2, e1, e2]
  exact ((hperm.filter _).map _).sum_eq

/-- The returned count is the number of different endpoint pairs among the
generated records. -/
theorem ret_eq_distinct (qsort : List Edge → List Edge) (hq : QsortSpec qsort)
    (mem_ed mem_proj : Nat → Edge) (nd_in nd_out : List Nat) (weights : List ℚ) (E : Nat)
    (proj1 proj2 : Nat → Nat) (projW : Nat → ℚ)
    (hj : 0 < (project_bipart_trace qsort mem_ed mem_proj nd_in nd_out weights E
      proj1 proj2 projW).generated.length) :
    (project_bipart_trace qsort mem_ed mem_proj nd_in nd_out weights E proj1 proj2 projW).ret =
      ((((project_bipart_trace qsort mem_ed mem_proj nd_in nd_out weights E
        proj1 proj2 projW).generated.map (fun p => (p.node1, p.node2))).dedup.length : Nat) : Int) := by
  have hpos := ret_pos qsort hq mem_ed mem_proj nd_in nd_out weights E proj1 proj2 projW hj
  have hfp := final_pair_iff qsort hq mem_ed mem_proj nd_in nd_out weights E proj1 proj2 projW hj
  have hdist := final_keys_distinct qsort hq mem_ed mem_proj nd_in nd_out weights E
    proj1 proj2 projW hj
  generalize hr : project_bipart_trace qsort mem_ed mem_proj nd_in nd_out weights E
    proj1 proj2 projW = r at hpos hfp hdist ⊢
  have hnd : ((List.range r.ret.toNat).map (fun k => (r.nodes1 k, r.nodes2 k))).Nodup := by
    apply List.Nodup.map_on _ (List.nodup_range _)
    intro k hk k' hk' hkk
    have h1 : r.nodes1 k = r.nodes1 k' := congrArg Prod.fst hkk
    have h2 : r.nodes2 k = r.nodes2 k' := congrArg Prod.snd hkk
    exact hdist k k' (List.mem_range.mp hk) (List.mem_range.mp hk') h1 h2
  have hperm : ((List.range r.ret.toNat).map (fun k => (r.nodes1 k, r.nodes2 k))).Perm
      ((r.generated.map (fun p => (p.node1, p.node2))).dedup) := by
    rw [List.perm_ext_iff_of_nodup hnd (List.nodup_dedup _)]
    rintro ⟨a, b⟩
    rw [List.mem_dedup, List.mem_map, List.mem_map]
    constructor
    · rintro ⟨k, hk, hkk⟩
      obtain ⟨p, hp, h1, h2⟩ := (hfp a b).mp
        ⟨⟨r.nodes1 k, r.nodes2 k, r.strength k⟩, finalList_mem r k (List.mem_range.mp hk),
          congrArg Prod.fst hkk, congrArg Prod.snd hkk⟩
      exact ⟨p, hp, by rw [h1, h2]⟩
    · rintro ⟨p, hp, hpk⟩
      obtain ⟨e, he, h1, h2⟩ := (hfp a b).mpr
        ⟨p, hp, congrArg Prod.fst hpk, congrArg Prod.snd hpk⟩
      simp only [finalList, List.mem_map, List.mem_range] at he
      obtain ⟨k, hk, rfl⟩ := he
      exact ⟨k, List.mem_range.mpr hk, by rw [← h1, ← h2]⟩
  have hlen := hperm.length_eq
  simp only [List.length_map, List.length_range] at hlen
  rw [hpos.2, hlen]

/-- Deduplication in a run: equal endpoint pairs are adjacent after the second
sort, the final list holds no pair twice, strengths are summed per pair, and
the count is the number of different pairs. -/
theorem trace_dedup (qsort : List Edge → List Edge) (hq : QsortSpec qsort)
    (mem_ed mem_proj : Nat → Edge) (nd_in nd_out : List Nat) (weights : List ℚ) (E : Nat)
    (proj1 proj2 : Nat → Nat) (projW : Nat → ℚ)
    (hj : 0 < (project_bipart_trace qsort mem_ed mem_proj nd_in nd_out weights E
      proj1 proj2 projW).generated.length) :
    ((project_bipart_trace qsort mem_ed mem_proj nd_in nd_out weights E proj1 proj2 projW).projected.Perm
      (project_bipart_trace qsort mem_ed mem_proj nd_in nd_out weights E proj1 proj2 projW).generated ∧
     ∀ t s t', t ≤ s → s ≤ t' →
      t' < (project_bipart_trace qsort mem_ed mem_proj nd_in nd_out weights E
        proj1 proj2 projW).projected.length →
      (rd (project_bipart_trace qsort mem_ed mem_proj nd_in nd_out weights E
        proj1 proj2 projW).projected mem_proj t).node1 =
      (rd (project_bipart_trace qsort mem_ed mem_proj nd_in nd_out weights E
        proj1 proj2 projW).projected mem_proj t').node1 →
      (rd (project_bipart_trace qsort mem_ed mem_proj nd_in nd_out weights E
        proj1 proj2 projW).projected mem_proj t).node2 =
      (rd (project_bipart_trace qsort mem_ed mem_proj nd_in nd_out weights E
        proj1 proj2 projW).projected mem_proj t').node2 →
      (rd (project_bipart_trace qsort mem_ed mem_proj nd_in nd_out weights E
        proj1 proj2 projW).projected mem_proj s).node1 =
      (rd (project_bipart_trace qsort mem_ed mem_proj nd_in nd_out weights E
        proj1 proj2 projW).projected mem_proj t).node1 ∧
      (rd (project_bipart_trace qsort mem_ed mem_proj nd_in nd_out weights E
        proj1 proj2 projW).projected mem_proj s).node2 =
      (rd (project_bipart_trace qsort mem_ed mem_proj nd_in nd_out weights E
        proj1 proj2 projW).projected mem_proj t).node2) ∧
    (∀ k k', k < (project_bipart_trace qsort mem_ed mem_proj nd_in nd_out weights E
        proj1 proj2 projW).ret.toNat →
      k' < (project_bipart_trace qsort mem_ed mem_proj nd_in nd_out weights E
        proj1 proj2 projW).ret.toNat →
      (project_bipart_trace qsort mem_ed mem_proj nd_in nd_out weights E proj1 proj2 projW).nodes1 k =
        (project_bipart_trace qsort mem_ed mem_proj nd_in nd_out weights E proj1 proj2 projW).nodes1 k' →
      (project_bipart_trace qsort mem_ed mem_proj nd_in nd_out weights E proj1 proj2 projW).nodes2 k =
        (project_bipart_trace qsort mem_ed mem_proj nd_in nd_out weights E proj1 proj2 projW).nodes2 k' →
      k = k') ∧
    (∀ k, k < (project_bipart_trace qsort mem_ed mem_proj nd_in nd_out weights E
        proj1 proj2 projW).ret.toNat →
      (project_bipart_trace qsort mem_ed mem_proj nd_in nd_out weights E proj1 proj2 projW).strength k =
        (((project_bipart_trace qsort mem_ed mem_proj nd_in nd_out weights E
            proj1 proj2 projW).generated.filter
          (fun p => decide (p.node1 = (project_bipart_trace qsort mem_ed mem_proj nd_in nd_out
              weights E proj1 proj2 projW).nodes1 k ∧
            p.node2 = (project_bipart_trace qsort mem_ed mem_proj nd_in nd_out weights E
              proj1 proj2 projW).nodes2 k))).map (fun p => p.strength)).sum) ∧
    (project_bipart_trace qsort mem_ed mem_proj nd_in nd_out weights E proj1 proj2 projW).ret =
      ((finalList (project_bipart_trace qsort mem_ed mem_proj nd_in nd_out weights E
        proj1 proj2 projW)).length : Int) ∧
    (project_bipart_trace qsort mem_ed mem_proj nd_in nd_out weights E proj1 proj2 projW).ret =
      ((((project_bipart_trace qsort mem_ed mem_proj nd_in nd_out weights E
        proj1 proj2 projW).generated.map (fun p => (p.node1, p.node2))).dedup.length : Nat) : Int) := by
  obtain ⟨_, _, _, _, hperm, hsorted⟩ := project_bipart_buffers qsort hq mem_ed mem_proj
    nd_in nd_out weights E proj1 proj2 projW
  refine ⟨⟨hperm, ?_⟩, ?_, ?_, ?_, ?_⟩
  · intro t s t' hts hst ht' h1 h2
    exact sorted_keys_adjacent _ mem_proj hsorted t s t' hts hst ht' h1 h2
  · intro k k' hk hk' h1 h2
    exact final_keys_distinct qsort hq mem_ed mem_proj nd_in nd_out weights E
      proj1 proj2 projW hj k k' hk hk' h1 h2
  · intro k hk
    exact final_strength_generated qsort hq mem_ed mem_proj nd_in nd_out weights E
      proj1 proj2 projW hj k hk
  · have := (ret_pos qsort hq mem_ed mem_proj nd_in nd_out weights E proj1 proj2 projW hj).2
    simp only [finalList, List.length_map, List.length_range]
    exact this
  · exact ret_eq_distinct qsort hq mem_ed mem_proj nd_in nd_out weights E proj1 proj2 projW hj

/-- A run of `d = i + 1 - x0` positions yields `d * (d - 1) / 2` records. -/
theorem genPairs_length (ed : List Edge) (mem : Nat → Edge) (x0 i : Nat) :
    (genPairs ed mem x0 i).length = (i + 1 - x0) * (i + 1 - x0 - 1) / 2 := by
  unfold genPairs
  generalize i + 1 - x0 = d
  induction d with
  | zero => simp
  | succ d ih =>
    rw [List.range'_1_concat, List.flatMap_append, List.length_append, ih, Nat.triangle_succ]
    simp

/-- The counting loop and the generating loop run in step while no more than
65536 records have been read: the capacity counted so far is the number of
records generated so far. -/
theorem emax_gen_inv (ed : List Edge) (mem : Nat → Edge) (count n : Nat) (hn : n ≤ 65536) :
    ((List.range n).foldl (emaxStep ed mem count) (0, 0)).1 +
      ((List.range n).foldl (genStep ed mem count)
        { degree := 0, projected := [], x0 := 0 }).x0 = n ∧
    ((List.range n).foldl (emaxStep ed mem count) (0, 0)).2 =
      ((List.range n).foldl (genStep ed mem count)
        { degree := 0, projected := [], x0 := 0 }).projected.length ∧
    2 * ((List.range n).foldl (genStep ed mem count)
        { degree := 0, projected := [], x0 := 0 }).projected.length +
      ((List.range n).foldl (genStep ed mem count)
        { degree := 0, projected := [], x0 := 0 }).x0 ≤
      ((List.range n).foldl (genStep ed mem count)
        { degree := 0, projected := [], x0 := 0 }).x0 *
      ((List.range n).foldl (genStep ed mem count)
        { degree := 0, projected := [], x0 := 0 }).x0 := by
  induction n with
  | zero => simp
  | succ n ih =>
    obtain ⟨h1, h2, h3⟩ := ih (by omega)
    rw [List.range_succ, List.foldl_append, List.foldl_append]
    simp only [List.foldl_cons, List.foldl_nil]
    generalize (List.range n).foldl (emaxStep ed mem count) (0, 0) = es at h1 h2 ⊢
    generalize (List.range n).foldl (genStep ed mem count)
      { degree := 0, projected := [], x0 := 0 } = gs at h1 h2 h3 ⊢
    by_cases hg : groupEnds ed mem count n
    · simp only [emaxStep, genStep, if_pos hg, List.length_append, genPairs_length]
      have hd : n + 1 - gs.x0 = es.1 + 1 := by omega
      rw [hd, Nat.add_sub_cancel]
      have hle : es.1 + 1 ≤ 65536 := by omega
      have hprod : (es.1 + 1) * es.1 < 4294967296 := by
        have : (es.1 + 1) * es.1 ≤ 65536 * 65535 := Nat.mul_le_mul hle (by omega)
        omega
      have hT : 2 * ((es.1 + 1) * es.1 / 2) ≤ (es.1 + 1) * es.1 := Nat.mul_div_le _ _
      have hbound : 2 * (gs.projected.length + (es.1 + 1) * es.1 / 2) + (n + 1) ≤
          (n + 1) * (n + 1) := by
        have hn1 : n + 1 = gs.x0 + (es.1 + 1) := by omega
        rw [hn1]
        nlinarith [Nat.zero_le (gs.x0 * (es.1 + 1))]
      have hsq : (n + 1) * (n + 1) ≤ 65536 * 65536 := Nat.mul_le_mul hn hn
      refine ⟨by omega, ?_, hbound⟩
      rw [Nat.mod_eq_of_lt hprod, h2, Nat.mod_eq_of_lt (by omega)]
    · simp only [emaxStep, genStep, if_neg hg]
      exact ⟨by omega, h2, h3⟩

/-- For at most 65536 records the capacity `Emax` is the number of generated
records. -/
theorem countEmax_eq (ed : List Edge) (mem : Nat → Edge) (count : Nat) (h : count ≤ 65536) :
    countEmax ed mem count = (genWrites ed mem count).length :=
  (emax_gen_inv ed mem count count h).2.1

/-- Number of positions below `n` whose record has `node2 = c`. -/
theorem count_succ (ed : List Edge) (mem : Nat → Edge) (n c : Nat) :
    ((List.range (n + 1)).filter (fun y => decide ((rd ed mem y).node2 = c))).length =
      ((List.range n).filter (fun y => decide ((rd ed mem y).node2 = c))).length +
        (if (rd ed mem n).node2 = c then 1 else 0) := by
  rw [List.range_succ, List.filter_append, List.length_append]
  by_cases h : (rd ed mem n).node2 = c
  · simp [h]
  · simp [h]

/-- The number of pairs of positions below `n` with the same `node2` is the
sum over the `node2` values of `d * (d - 1) / 2`, `d` being the number of
positions with that value. -/
theorem allPairs_length (ed : List Edge) (mem : Nat → Edge) (S : Finset Nat) (N : Nat)
    (hS : ∀ y, y < N → (rd ed mem y).node2 ∈ S) (n : Nat) (hn : n ≤ N) :
    (allPairs ed mem n).length =
      ∑ c in S, ((List.range n).filter (fun y => decide ((rd ed mem y).node2 = c))).length *
        (((List.range n).filter (fun y => decide ((rd ed mem y).node2 = c))).length - 1) / 2 := by
  induction n with
  | zero => simp [allPairs]
  | succ n ih =>
    rw [allPairs_succ, List.length_append, ih (by omega)]
    have hp : (pairsAt ed mem n).length =
        ((List.range n).filter
          (fun y => decide ((rd ed mem y).node2 = (rd ed mem n).node2))).length := by
      simp [pairsAt]
    rw [hp]
    have hterm : ∀ c ∈ S,
        ((List.range (n + 1)).filter (fun y => decide ((rd ed mem y).node2 = c))).length *
          (((List.range (n + 1)).filter
            (fun y => decide ((rd ed mem y).node2 = c))).length - 1) / 2 =
        ((List.range n).filter (fun y => decide ((rd ed mem y).node2 = c))).length *
          (((List.range n).filter (fun y => decide ((rd ed mem y).node2 = c))).length - 1) / 2 +
        (if (rd ed mem n).node2 = c then
          ((List.range n).filter (fun y => decide ((rd ed mem y).node2 = c))).length else 0) := by
      intro c _
      rw [count_succ]
      by_cases h : (rd ed mem n).node2 = c
      · rw [if_pos h, if_pos h, Nat.triangle_succ]
      · rw [if_neg h, if_neg h]; rfl
    rw [Finset.sum_congr rfl hterm, Finset.sum_add_distrib, Finset.sum_ite_eq,
      if_pos (hS n (by omega))]

/-- The positions whose record has `node2 = c` are as many as the records of
the buffer with `node2 = c`. -/
theorem count_eq_filter (ed : List Edge) (mem : Nat → Edge) (c : Nat) :
    ((List.range ed.length).filter (fun y => decide ((rd ed mem y).node2 = c))).length =
      (ed.filter (fun e => decide (e.node2 = c))).length := by
  conv_rhs => rw [← map_rd_range ed mem, List.filter_map, List.length_map]
  rfl

/-- When all the records read share one `node2`, the only group ends at the
last position. -/
theorem single_run (ed : List Edge) (mem : Nat → Edge) (count : Nat)
    (hrun : ∀ i, i + 1 < count → (rd ed mem i).node2 = (rd ed mem (i + 1)).node2)
    (n : Nat) (hn : n < count) :
    (List.range n).foldl (emaxStep ed mem count) (0, 0) = (n, 0) ∧
    ((List.range n).foldl (genStep ed mem count)
      { degree := 0, projected := [], x0 := 0 }).projected = [] ∧
    ((List.range n).foldl (genStep ed mem count)
      { degree := 0, projected := [], x0 := 0 }).x0 = 0 := by
  induction n with
  | zero => simp
  | succ n ih =>
    obtain ⟨h1, h2, h3⟩ := ih (by omega)
    have hg : ¬ groupEnds ed mem count n := by
      unfold groupEnds
      rintro (h | h)
      · exact h (hrun n (by omega))
      · omega
    rw [List.range_succ, List.foldl_append, List.foldl_append]
    simp only [List.foldl_cons, List.foldl_nil, emaxStep, genStep, if_neg hg, h1]
    exact ⟨trivial, h2, h3⟩

/-- The capacity and the number of generated records for one run of `count`
records. -/
theorem single_run_counts (ed : List Edge) (mem : Nat → Edge) (count : Nat) (hc : 0 < count)
    (hrun : ∀ i, i + 1 < count → (rd ed mem i).node2 = (rd ed mem (i + 1)).node2) :
    countEmax ed mem count = (count * (count - 1)) % 4294967296 / 2 % 4294967296 ∧
    (genWrites ed mem count).length = count * (count - 1) / 2 := by
  obtain ⟨n, rfl⟩ : ∃ n, count = n + 1 := ⟨count - 1, by omega⟩
  obtain ⟨h1, h2, h3⟩ := single_run ed mem (n + 1) hrun n (by omega)
  have hg : groupEnds ed mem (n + 1) n := Or.inr rfl
  unfold countEmax genWrites
  rw [List.range_succ, List.foldl_append, List.foldl_append]
  simp only [List.foldl_cons, List.foldl_nil, emaxStep, genStep, if_pos hg, h1, h2, h3,
    List.nil_append, genPairs_length, Nat.zero_add, Nat.add_sub_cancel, Nat.sub_zero]
  exact ⟨trivial, trivial⟩

/-- Every record loaded from an `nd_out` array of zeros has `node2 = 0`. -/
theorem loadEdges_replicate (nd_in : List Nat) (weights : List ℚ) (n E : Nat) (e : Edge)
    (he : e ∈ loadEdges nd_in (List.replicate n 0) weights E) : e.node2 = 0 := by
  simp only [loadEdges, List.mem_map, List.mem_range] at he
  obtain ⟨i, _, rfl⟩ := he
  show (List.replicate n 0).getD i 0 = 0
  rw [List.getD_eq_getElem?_getD, List.getElem?_replicate]
  split <;> rfl

/-- The capacity `project_bipart_trace` computes is that of the counting loop on the
sorted buffer. -/
theorem project_bipart_Emax (qsort : List Edge → List Edge)
    (mem_ed mem_proj : Nat → Edge) (nd_in nd_out : List Nat) (weights : List ℚ) (E : Nat)
    (proj1 proj2 : Nat → Nat) (projW : Nat → ℚ) :
    (project_bipart_trace qsort mem_ed mem_proj nd_in nd_out weights E proj1 proj2 projW).Emax =
      countEmax (project_bipart_trace qsort mem_ed mem_proj nd_in nd_out weights E
        proj1 proj2 projW).ed mem_ed E := rfl

/-- The records `project_bipart_trace` generates are those of the generating loop on
the sorted buffer. -/
theorem project_bipart_generated (qsort : List Edge → List Edge)
    (mem_ed mem_proj : Nat → Edge) (nd_in nd_out : List Nat) (weights : List ℚ) (E : Nat)
    (proj1 proj2 : Nat → Nat) (projW : Nat → ℚ) :
    (project_bipart_trace qsort mem_ed mem_proj nd_in nd_out weights E proj1 proj2 projW).generated =
      genWrites (project_bipart_trace qsort mem_ed mem_proj nd_in nd_out weights E
        proj1 proj2 projW).ed mem_ed E := rfl

/-- The records written and the capacity counted: one record per pair of
positions of a run of equal `node2`, `Emax` equal to their number up to 65536
edges, and `Emax = 32768` against 2147516416 records for 65537 edges sharing
one `node2`. -/
theorem trace_capacity (qsort : List Edge → List Edge) (hq : QsortSpec qsort)
    (mem_ed mem_proj : Nat → Edge) (nd_in nd_out : List Nat) (weights : List ℚ) (E : Nat)
    (proj1 proj2 : Nat → Nat) (projW : Nat → ℚ) :
    (project_bipart_trace qsort mem_ed mem_proj nd_in nd_out weights E proj1 proj2 projW).generated =
      allPairs (project_bipart_trace qsort mem_ed mem_proj nd_in nd_out weights E
        proj1 proj2 projW).ed mem_ed E ∧
    (∀ ex ey : Edge, (pairEdge ex ey).strength = ex.strength * ey.strength) ∧
    (project_bipart_trace qsort mem_ed mem_proj nd_in nd_out weights E
        proj1 proj2 projW).generated.length =
      ∑ c in ((project_bipart_trace qsort mem_ed mem_proj nd_in nd_out weights E
          proj1 proj2 projW).ed.map (fun e => e.node2)).toFinset,
        ((project_bipart_trace qsort mem_ed mem_proj nd_in nd_out weights E
          proj1 proj2 projW).ed.filter (fun e => decide (e.node2 = c))).length *
        (((project_bipart_trace qsort mem_ed mem_proj nd_in nd_out weights E
          proj1 proj2 projW).ed.filter (fun e => decide (e.node2 = c))).length - 1) / 2 ∧
    (E ≤ 65536 →
      (project_bipart_trace qsort mem_ed mem_proj nd_in nd_out weights E proj1 proj2 projW).Emax =
        (project_bipart_trace qsort mem_ed mem_proj nd_in nd_out weights E
          proj1 proj2 projW).generated.length) ∧
    (∀ (nd_in1 : List Nat) (weights1 : List ℚ),
      (project_bipart_trace qsort mem_ed mem_proj nd_in1 (List.replicate 65537 0) weights1 65537
        proj1 proj2 projW).Emax = 32768 ∧
      (project_bipart_trace qsort mem_ed mem_proj nd_in1 (List.replicate 65537 0) weights1 65537
        proj1 proj2 projW).generated.length = 2147516416) := by
  obtain ⟨_, _, hlen, hgen, _, _⟩ := project_bipart_buffers qsort hq mem_ed mem_proj
    nd_in nd_out weights E proj1 proj2 projW
  refine ⟨hgen, ?_, ?_, ?_, ?_⟩
  · intro ex ey
    unfold pairEdge
    split <;> rfl
  · rw [hgen]
    generalize (project_bipart_trace qsort mem_ed mem_proj nd_in nd_out weights E
      proj1 proj2 projW).ed = ed at hlen ⊢
    subst hlen
    rw [allPairs_length ed mem_ed (ed.map (fun e => e.node2)).toFinset ed.length
      (fun y hy => List.mem_toFinset.mpr (List.mem_map.mpr ⟨_, mem_of_rd ed mem_ed y hy, rfl⟩))
      ed.length (le_refl _)]
    apply Finset.sum_congr rfl
    intro c _
    rw [count_eq_filter]
  · intro hE
    exact countEmax_eq _ mem_ed E hE
  · intro nd_in1 weights1
    obtain ⟨hperm1, _, hlen1, _, _, _⟩ := project_bipart_buffers qsort hq mem_ed mem_proj
      nd_in1 (List.replicate 65537 0) weights1 65537 proj1 proj2 projW
    have hrun : ∀ i, i + 1 < 65537 →
        (rd (project_bipart_trace qsort mem_ed mem_proj nd_in1 (List.replicate 65537 0) weights1 65537
          proj1 proj2 projW).ed mem_ed i).node2 =
        (rd (project_bipart_trace qsort mem_ed mem_proj nd_in1 (List.replicate 65537 0) weights1 65537
          proj1 proj2 projW).ed mem_ed (i + 1)).node2 := by
      intro i hi
      rw [loadEdges_replicate nd_in1 weights1 65537 65537 _
          (hperm1.mem_iff.mp (mem_of_rd _ mem_ed i (by rw [hlen1]; omega))),
        loadEdges_replicate nd_in1 weights1 65537 65537 _
          (hperm1.mem_iff.mp (mem_of_rd _ mem_ed (i + 1) (by rw [hlen1]; omega)))]
    have h := single_run_counts _ mem_ed 65537 (by norm_num) hrun
    have hE := project_bipart_Emax qsort mem_ed mem_proj nd_in1 (List.replicate 65537 0)
      weights1 65537 proj1 proj2 projW
    have hG := project_bipart_generated qsort mem_ed mem_proj nd_in1 (List.replicate 65537 0)
      weights1 65537 proj1 proj2 projW
    rw [hE, hG, h.1, h.2]
    constructor <;> norm_num

/-! ## The normalization switch of `EdgeListToAdjaArray` -/

/-- One iteration of the assignment loop on a known label: it succeeds when
the current module, if it has a size, has a `last` node; it takes 1 from
`nnode` and keeps that property of the modules. -/
theorem assignStep_some (labels : List String) (M : Nat) (s : LoadState) (tok : String × Bool)
    (hlast : ∀ m, m < M → (s.part.modules m).size ≠ 0 → (s.part.modules m).last ≠ none)
    (hj : s.j < M) (hl : ∃ i, i < s.part.N ∧ labels[i]? = some tok.1) :
    ∃ s1, assignStep labels s tok = some s1 ∧
      (∀ m, m < M → (s1.part.modules m).size ≠ 0 → (s1.part.modules m).last ≠ none) ∧
      s1.j = (if tok.2 then s.j + 1 else s.j) ∧ s1.part.N = s.part.N ∧
      s1.nnode = s.nnode - 1 := by
  obtain ⟨i, hi⟩ := lookupLabel_isSome labels s.part.N tok.1 hl
  unfold assignStep
  rw [hi]
  by_cases hz : (s.part.modules s.j).size = 0
  · simp only [if_pos hz]
    refine ⟨_, rfl, ?_, rfl, rfl, rfl⟩
    intro m hm hne
    simp only [Function.update_apply] at hne ⊢
    by_cases hmj : m = s.j
    · simp [hmj]
    · simp only [hmj, if_false] at hne ⊢
      exact hlast m hm hne
  · simp only [if_neg hz]
    obtain ⟨l, hl'⟩ := Option.ne_none_iff_exists'.mp (hlast s.j hj hz)
    rw [hl']
    refine ⟨_, rfl, ?_, rfl, rfl, rfl⟩
    intro m hm hne
    simp only [Function.update_apply] at hne ⊢
    by_cases hmj : m = s.j
    · simp [hmj]
    · simp only [hmj, if_false] at hne ⊢
      exact hlast m hm hne

/-- The assignment loop on a stream of known labels with no more lines than
modules runs to its end and takes 1 from `nnode` for every label read. -/
theorem foldlM_assignStep_count (labels : List String) (M N : Nat)
    (inF : List (String × Bool)) :
    ∀ s : LoadState,
      (∀ m, m < M → (s.part.modules m).size ≠ 0 → (s.part.modules m).last ≠ none) →
      s.part.N = N →
      (∀ k, k < inF.length → s.j + lineIndex inF k < M) →
      (∀ t ∈ inF, ∃ i, i < N ∧ labels[i]? = some t.1) →
      ∃ s1, inF.foldlM (assignStep labels) s = some s1 ∧
        s1.nnode = s.nnode - inF.length := by
  induction inF with
  | nil =>
    intro s _ _ _ _
    exact ⟨s, rfl, by simp⟩
  | cons tok rest ih =>
    intro s hlast hN hlines hlab
    have hj : s.j < M := by
      have := hlines 0 (by simp)
      simpa [lineIndex] using this
    obtain ⟨s1, hs1, hlast1, hj1, hN1, hnn1⟩ := assignStep_some labels M s tok hlast hj
      (by rw [hN]; exact hlab tok (List.mem_cons_self _ _))
    obtain ⟨s2, hs2, hnn2⟩ := ih s1 hlast1 (hN1.trans hN)
      (by
        intro k hk
        have := hlines (k + 1) (by simpa using hk)
        rw [lineIndex_cons_succ] at this
        rw [hj1]
        split <;> split at this <;> omega)
      (fun t ht => hlab t (List.mem_cons_of_mem _ ht))
    refine ⟨s2, ?_, ?_⟩
    · rw [List.foldlM_cons, hs1]
      exact hs2
    · rw [hnn2, hnn1]
      simp only [List.length_cons]
      push_cast; ring

/-- A known label is among `labels[0..N)`. -/
theorem mem_take_of_known (labels : List String) (N : Nat) (l : String)
    (h : ∃ i, i < N ∧ labels[i]? = some l) : l ∈ labels.take N := by
  obtain ⟨i, hi, hl⟩ := h
  rw [List.mem_iff_getElem?]
  exact ⟨i, by rw [List.getElem?_take_of_lt hi]; exact hl⟩

/-- When the known labels are pairwise different and no label occurs twice in
the stream, the known labels missing from the stream and the tokens of the
stream are `N` together. -/
theorem missing_count (labels : List String) (N : Nat) (inF : List (String × Bool))
    (hN : N ≤ labels.length) (hnd : (labels.take N).Nodup)
    (hstream : (inF.map Prod.fst).Nodup)
    (hlab : ∀ t ∈ inF, ∃ i, i < N ∧ labels[i]? = some t.1) :
    (missingLabels labels N inF).length + inF.length = N := by
  have hK : (labels.take N).length = N := by
    rw [List.length_take]; omega
  have hsplit : (labels.take N).length =
      ((labels.take N).filter (fun l => decide (l ∈ inF.map Prod.fst))).length +
      ((labels.take N).filter (fun l => !decide (l ∈ inF.map Prod.fst))).length :=
    List.length_eq_length_filter_add _
  have hperm : ((labels.take N).filter (fun l => decide (l ∈ inF.map Prod.fst))).Perm
      (inF.map Prod.fst) := by
    rw [List.perm_ext_iff_of_nodup (hnd.filter _) hstream]
    intro l
    rw [List.mem_filter, decide_eq_true_eq]
    constructor
    · exact fun h => h.2
    · intro h
      refine ⟨?_, h⟩
      obtain ⟨t, ht, rfl⟩ := List.mem_map.mp h
      exact mem_take_of_known labels N t.1 (hlab t ht)
  have hlen := hperm.length_eq
  rw [List.length_map] at hlen
  have hmiss : missingLabels labels N inF =
      (labels.take N).filter (fun l => !decide (l ∈ inF.map Prod.fst)) := by
    unfold missingLabels
    congr 1
    funext l
    simp
  rw [hmiss]
  omega

/-! ## Lemmas on the module lists built by `AssignNodesToModulesFromFile` -/

theorem lineIndex_append_le (inF : List (String × Bool)) (tok : String × Bool) (k : Nat)
    (hk : k ≤ inF.length) : lineIndex (inF ++ [tok]) k = lineIndex inF k := by
  unfold lineIndex
  rw [List.take_append_of_le_length hk]

theorem lineIndex_length (inF : List (String × Bool)) :
    lineIndex inF inF.length = (inF.filter (fun t => t.2)).length := by
  unfold lineIndex
  rw [List.take_length]

/-- The nodes named on a line, after one more token is read. -/
theorem lineNodes_snoc (labels : List String) (N : Nat) (inF : List (String × Bool))
    (tok : String × Bool) (j : Nat) :
    lineNodes labels N (inF ++ [tok]) j =
      lineNodes labels N inF j ++
        (if (inF.filter (fun t => t.2)).length = j then
          (lookupLabel labels N tok.1).toList else []) := by
  unfold lineNodes
  rw [List.length_append, List.length_singleton, List.range_succ, List.filterMap_append]
  congr 1
  · apply List.filterMap_congr
    intro k hk
    have hk' : k < inF.length := List.mem_range.mp hk
    rw [lineIndex_append_le inF tok k (by omega), List.getElem?_append_left hk']
  · have hli : lineIndex (inF ++ [tok]) inF.length = (inF.filter (fun t => t.2)).length := by
      rw [lineIndex_append_le inF tok inF.length (le_refl _), lineIndex_length]
    simp only [List.filterMap_cons, List.filterMap_nil, hli]
    by_cases h : (inF.filter (fun t => t.2)).length = j
    · cases hl : lookupLabel labels N tok.1 <;> simp [h, hl]
    · simp [h]

theorem lineNodes_nil (labels : List String) (N : Nat) (j : Nat) :
    lineNodes labels N [] j = [] := rfl

/-- A node named on a line is the node of a token of the stream. -/
theorem mem_lineNodes (labels : List String) (N : Nat) (inF : List (String × Bool))
    (j i : Nat) (h : i ∈ lineNodes labels N inF j) :
    ∃ k t, inF[k]? = some t ∧ lineIndex inF k = j ∧ lookupLabel labels N t.1 = some i := by
  unfold lineNodes at h
  rw [List.mem_filterMap] at h
  obtain ⟨k, _, hk⟩ := h
  by_cases hl : lineIndex inF k = j
  · rw [if_pos hl] at hk
    cases ht : inF[k]? with
    | none => rw [ht] at hk; simp at hk
    | some t =>
      rw [ht] at hk
      exact ⟨k, t, ht, hl, hk⟩
  · rw [if_neg hl] at hk
    cases hk

/-- The node of a token of the stream is named on the line of the token. -/
theorem lineNodes_mem (labels : List String) (N : Nat) (inF : List (String × Bool))
    (k : Nat) (t : String × Bool) (i : Nat) (hk : inF[k]? = some t)
    (hl : lookupLabel labels N t.1 = some i) :
    i ∈ lineNodes labels N inF (lineIndex inF k) := by
  unfold lineNodes
  rw [List.mem_filterMap]
  have hlt : k < inF.length := by
    by_contra hc
    rw [List.getElem?_eq_none (by omega)] at hk
    cases hk
  refine ⟨k, List.mem_range.mpr hlt, ?_⟩
  rw [if_pos rfl, hk]
  exact hl

/-- What `hsearch` finds for a label is an index below `N` holding the label. -/
theorem lookupLabel_spec (labels : List String) (N : Nat) (label : String) (i : Nat)
    (h : lookupLabel labels N label = some i) : i < N ∧ labels[i]? = some label := by
  unfold lookupLabel at h
  have h1 := List.find?_some h
  have h2 := List.mem_of_find?_eq_some h
  exact ⟨List.mem_range.mp h2, of_decide_eq_true h1⟩

/-- The traversal from the head of a list chained by `next`, whose tail has no
`next`, visits the list. -/
theorem walk_eq (nodes : Nat → Node) (L : List Nat)
    (hchain : L.Chain' (fun a b => (nodes a).next = some b))
    (hlast : ∀ i, L.getLast? = some i → (nodes i).next = none) :
    ∀ fuel, L.length ≤ fuel → walk nodes fuel L.head? = L := by
  induction L with
  | nil =>
    intro fuel _
    cases fuel <;> rfl
  | cons a rest ih =>
    intro fuel hf
    obtain ⟨f, rfl⟩ : ∃ f, fuel = f + 1 := ⟨fuel - 1, by simp at hf; omega⟩
    show a :: walk nodes f (nodes a).next = a :: rest
    congr 1
    cases rest with
    | nil =>
      rw [hlast a rfl]
      cases f <;> rfl
    | cons b r =>
      have hab : (nodes a).next = some b := (List.chain'_cons.mp hchain).1
      rw [hab]
      exact ih (List.chain'_cons.mp hchain).2
        (fun i hi => hlast i (by rw [List.getLast?_cons_cons]; exact hi)) f
        (by simp at hf ⊢; omega)

theorem mem_of_getLast_some (L : List Nat) (a : Nat) (h : L.getLast? = some a) : a ∈ L := by
  obtain ⟨ys, rfl⟩ := List.getLast?_eq_some_iff.mp h
  simp

/-- Appending the node `i`, not yet in any list, to the list of module `j`
keeps the invariant of the module lists. -/
theorem lists_step (M : Nat) (part0 p p1 : Partition) (L : Nat → List Nat) (j i : Nat)
    (hinv : ListsInv M part0 p L) (hj : j < M) (hiN : i < part0.N)
    (hnew : ∀ m, m < M → i ∉ L m)
    (hstr : ∀ a, (p1.nodes a).strength = (p.nodes a).strength)
    (hmodi : (p1.nodes i).module = (j : Int))
    (hmodo : ∀ a, a ≠ i → (p1.nodes a).module = (p.nodes a).module)
    (hnext : ∀ a, (L j).getLast? ≠ some a → (p1.nodes a).next = (p.nodes a).next)
    (hlink : ∀ l, (L j).getLast? = some l → (p1.nodes l).next = some i)
    (hmods : ∀ m, m ≠ j → p1.modules m = p.modules m)
    (hsize : (p1.modules j).size = (L j).length + 1)
    (hsum : (p1.modules j).strength =
      ((L j).map (fun a => (part0.nodes a).strength)).sum + (part0.nodes i).strength)
    (hfirst : (p1.modules j).first = (L j ++ [i]).head?)
    (hlast : (p1.modules j).last = some i) :
    ListsInv M part0 p1 (Function.update L j (L j ++ [i])) := by
  obtain ⟨h1, h2, h3⟩ := hinv
  have hjlast : ∀ a, (L j).getLast? = some a → (p.nodes a).next = none :=
    (h2 j hj).2.2.2.2.2.2
  have hjmod : ∀ a ∈ L j, (p.nodes a).module = (j : Int) := (h2 j hj).2.2.2.2.1
  have hkeep : ∀ a b, (p.nodes a).next = some b → (p1.nodes a).next = some b := by
    intro a b hab
    rw [hnext a (fun hl => by rw [hjlast a hl] at hab; cases hab)]
    exact hab
  refine ⟨fun a => (hstr a).trans (h1 a), ?_, ?_⟩
  · intro m hm
    obtain ⟨a1, a2, a3, a4, a5, a6, a7⟩ := h2 m hm
    by_cases hmj : m = j
    · subst hmj
      rw [Function.update_same]
      refine ⟨by rw [hsize]; simp, by rw [hsum]; simp, hfirst,
        fun _ => by rw [hlast, List.getLast?_concat], ?_, ?_, ?_⟩
      · intro a ha
        rw [List.mem_append, List.mem_singleton] at ha
        rcases ha with ha | rfl
        · have hne : a ≠ i := fun h => hnew m hm (h ▸ ha)
          rw [hmodo a hne]
          exact a5 a ha
        · exact hmodi
      · rw [List.chain'_append]
        refine ⟨a6.imp hkeep, List.chain'_singleton _, ?_⟩
        intro x hx y hy
        have hy' : y = i := by simpa using hy.symm
        subst hy'
        exact hlink x hx
      · intro a ha
        rw [List.getLast?_concat] at ha
        have hai : a = i := (Option.some.inj ha).symm
        subst hai
        rw [hnext a (fun hl => hnew m hm (mem_of_getLast_some _ _ hl))]
        exact h3 a hiN hnew
    · rw [Function.update_noteq hmj, hmods m hmj]
      refine ⟨a1, a2, a3, a4, ?_, a6.imp hkeep, ?_⟩
      · intro a ha
        have hne : a ≠ i := fun h => hnew m hm (h ▸ ha)
        rw [hmodo a hne]
        exact a5 a ha
      · intro a ha
        have hne : (L j).getLast? ≠ some a := by
          intro hl
          have e1 := a5 a (mem_of_getLast_some _ _ ha)
          have e2 := hjmod a (mem_of_getLast_some _ _ hl)
          rw [e1] at e2
          exact hmj (by exact_mod_cast e2)
        rw [hnext a hne]
        exact a7 a ha
  · intro a haN hnot
    have hnot1 : ∀ m, m < M → a ∉ L m := by
      intro m hm hmem
      have := hnot m hm
      by_cases hmj : m = j
      · subst hmj
        rw [Function.update_same] at this
        exact this (List.mem_append_left _ hmem)
      · rw [Function.update_noteq hmj] at this
        exact this hmem
    rw [hnext a (fun hl => hnot1 j hj (mem_of_getLast_some _ _ hl))]
    exact h3 a haN hnot1

/-- One iteration of the assignment loop appends the node of the label read to
the list of the current module. -/
theorem assignStep_lists (labels : List String) (M : Nat) (part0 : Partition) (s : LoadState)
    (L : Nat → List Nat) (tok : String × Bool) (i : Nat)
    (hinv : ListsInv M part0 s.part L) (hj : s.j < M)
    (hi : lookupLabel labels s.part.N tok.1 = some i) (hiN : i < part0.N)
    (hnew : ∀ m, m < M → i ∉ L m) :
    ∃ s1, assignStep labels s tok = some s1 ∧
      ListsInv M part0 s1.part (Function.update L s.j (L s.j ++ [i])) ∧
      s1.j = (if tok.2 then s.j + 1 else s.j) ∧ s1.part.N = s.part.N := by
  have hinv' := hinv
  obtain ⟨h1, h2, h3⟩ := hinv'
  obtain ⟨a1, a2, a3, a4, a5, a6, a7⟩ := h2 s.j hj
  unfold assignStep
  rw [hi]
  by_cases hz : (s.part.modules s.j).size = 0
  · simp only [if_pos hz]
    have hnil : L s.j = [] := List.length_eq_zero.mp (by rw [← a1]; exact hz)
    refine ⟨_, rfl, ?_, rfl, rfl⟩
    apply lists_step M part0 s.part _ L s.j i hinv hj hiN hnew
    · intro a
      simp only [Function.update_apply]
      split
      · next h => subst h; rfl
      · rfl
    · simp
    · intro a ha
      simp [Function.update_apply, ha]
    · intro a _
      simp only [Function.update_apply]
      split
      · next h => subst h; rfl
      · rfl
    · intro l hl
      rw [hnil] at hl
      cases hl
    · intro m hm
      simp [Function.update_apply, hm]
    · simp [hnil]
    · simp [hnil, h1 i]
    · simp [hnil]
    · simp
  · simp only [if_neg hz]
    have hne : L s.j ≠ [] := by
      intro h
      rw [h] at a1
      exact hz a1
    have hl := a4 hne
    obtain ⟨l, hlast⟩ : ∃ l, (L s.j).getLast? = some l := by
      cases hg : (L s.j).getLast? with
      | none => exact absurd (List.getLast?_eq_none_iff.mp hg) hne
      | some l => exact ⟨l, rfl⟩
    rw [hlast] at hl
    rw [hl]
    have hli : l ≠ i := fun h => hnew s.j hj (h ▸ mem_of_getLast_some _ _ hlast)
    refine ⟨_, rfl, ?_, rfl, rfl⟩
    apply lists_step M part0 s.part _ L s.j i hinv hj hiN hnew
    · intro a
      simp only [Function.update_apply]
      split_ifs <;> simp_all
    · simp [Function.update_apply, hli, Ne.symm hli]
    · intro a ha
      simp only [Function.update_apply]
      split_ifs <;> simp_all
    · intro a ha
      have hal : a ≠ l := fun h => ha (h ▸ hlast)
      simp only [Function.update_apply]
      split_ifs <;> simp_all
    · intro l' hl'
      rw [hlast] at hl'
      have : l' = l := (Option.some.inj hl').symm
      subst this
      simp [Function.update_apply, hli, Ne.symm hli]
    · intro m hm
      simp [Function.update_apply, hm]
    · simp [a1]
    · simp [a2, h1 i]
    · simp [a3, List.head?_append_of_ne_nil _ hne]
    · simp

/-- The assignment loop on a fresh partition builds, for every module, the
list of the nodes named on its line. -/
theorem assignLoop_listsInv (labels : List String) (part : Partition)
    (hempty : ∀ m, m < part.M → (part.modules m).size = 0 ∧
      (part.modules m).strength = 0 ∧ (part.modules m).first = none)
    (hnext : ∀ i, i < part.N → (part.nodes i).next = none) :
    ∀ inF : List (String × Bool),
      (∀ t ∈ inF, ∃ i, i < part.N ∧ labels[i]? = some t.1) →
      (inF.map Prod.fst).Nodup →
      (∀ k, k < inF.length → lineIndex inF k < part.M) →
      ∃ s, assignTokens labels inF part = some s ∧
        s.j = (inF.filter (fun t => t.2)).length ∧ s.part.N = part.N ∧
        ListsInv part.M part s.part (lineNodes labels part.N inF) := by
  intro inF
  induction inF using List.reverseRecOn with
  | nil =>
    intro _ _ _
    refine ⟨{ part := part, j := 0, nnode := part.N }, rfl, rfl, rfl, fun _ => rfl, ?_, ?_⟩
    · intro m hm
      obtain ⟨e1, e2, e3⟩ := hempty m hm
      simp only [lineNodes_nil]
      refine ⟨e1, by simpa using e2, by simpa using e3, fun h => absurd rfl h, ?_,
        List.chain'_nil, ?_⟩
      · intro i hi
        cases hi
      · intro i hi
        cases hi
    · intro i hi _
      exact hnext i hi
  | append_singleton inF tok ih =>
    intro hlab hnd hlines
    rw [List.map_append, List.nodup_append] at hnd
    obtain ⟨hnd1, _, hdisj⟩ := hnd
    obtain ⟨s, hs, hsj, hsN, hinv⟩ := ih
      (fun t ht => hlab t (List.mem_append_left _ ht)) hnd1
      (by
        intro k hk
        have := hlines k (by rw [List.length_append]; omega)
        rw [lineIndex_append_le inF tok k (by omega)] at this
        exact this)
    have hjlt : s.j < part.M := by
      have := hlines inF.length (by simp)
      rw [lineIndex_append_le inF tok inF.length (le_refl _), lineIndex_length] at this
      rw [hsj]
      exact this
    obtain ⟨i, hi⟩ := lookupLabel_isSome labels part.N tok.1
      (hlab tok (List.mem_append_right _ (List.mem_singleton_self _)))
    have hiN := (lookupLabel_spec labels part.N tok.1 i hi).1
    have hnew : ∀ m, m < part.M → i ∉ lineNodes labels part.N inF m := by
      intro m _ hmem
      obtain ⟨k, t, hk, _, hl⟩ := mem_lineNodes labels part.N inF m i hmem
      have e1 := (lookupLabel_spec labels part.N t.1 i hl).2
      have e2 := (lookupLabel_spec labels part.N tok.1 i hi).2
      rw [e1] at e2
      have e3 : t.1 = tok.1 := Option.some.inj e2
      have ht : t ∈ inF := List.getElem?_mem hk
      exact hdisj (List.mem_map.mpr ⟨t, ht, rfl⟩)
        (by rw [e3]; exact List.mem_singleton_self _)
    obtain ⟨s1, hs1, hinv1, hj1, hN1⟩ := assignStep_lists labels part.M part s
      (lineNodes labels part.N inF) tok i hinv hjlt (by rw [hsN]; exact hi) hiN hnew
    refine ⟨s1, ?_, ?_, hN1.trans hsN, ?_⟩
    · unfold assignTokens at hs ⊢
      rw [List.foldlM_append, hs]
      simp [hs1]
    · rw [hj1, hsj, List.filter_append, List.length_append]
      cases h2 : tok.2 <;> simp [h2]
    · have hL : lineNodes labels part.N (inF ++ [tok]) =
          Function.update (lineNodes labels part.N inF) s.j
            (lineNodes labels part.N inF s.j ++ [i]) := by
        funext m
        rw [lineNodes_snoc, hi, ← hsj]
        by_cases hm : m = s.j
        · subst hm
          simp
        · rw [Function.update_noteq hm, if_neg (Ne.symm hm), List.append_nil]
      rw [hL]
      exact hinv1

/-! ## The module lists built by the loop body -/

/-- The body of the loop run over the tokens builds, for every line, the list
of the nodes named on it, in stream order. -/
theorem tokens_module_lists (labels : List String) (inF : List (String × Bool))
    (part : Partition)
    (hempty : ∀ m, m < part.M → (part.modules m).size = 0 ∧
      (part.modules m).strength = 0 ∧ (part.modules m).first = none)
    (hnext : ∀ i, i < part.N → (part.nodes i).next = none)
    (hlab : ∀ t ∈ inF, ∃ i, i < part.N ∧ labels[i]? = some t.1)
    (hstream : (inF.map Prod.fst).Nodup)
    (hlines : ∀ k, k < inF.length → lineIndex inF k < part.M) :
    ∃ s, assignTokens labels inF part = some s ∧
      (∀ (k : Nat) (t : String × Bool) (i : Nat), inF[k]? = some t →
        lookupLabel labels part.N t.1 = some i →
        (s.part.nodes i).module = (lineIndex inF k : Int)) ∧
      ∀ j, j < part.M →
        (∀ i ∈ lineNodes labels part.N inF j, (s.part.nodes i).module = (j : Int)) ∧
        (∀ fuel, (lineNodes labels part.N inF j).length ≤ fuel →
          walk s.part.nodes fuel (s.part.modules j).first = lineNodes labels part.N inF j) ∧
        (lineNodes labels part.N inF j ≠ [] →
          (s.part.modules j).last = (lineNodes labels part.N inF j).getLast?) ∧
        (s.part.modules j).size = (lineNodes labels part.N inF j).length ∧
        (s.part.modules j).strength =
          ((lineNodes labels part.N inF j).map (fun i => (s.part.nodes i).strength)).sum := by
  obtain ⟨s, hs, _, _, h1, h2, _⟩ := assignLoop_listsInv labels part hempty hnext inF
    hlab hstream hlines
  refine ⟨s, hs, ?_, ?_⟩
  · intro k t i hk hl
    have hlt : k < inF.length := by
      by_contra hc
      rw [List.getElem?_eq_none (by omega)] at hk
      cases hk
    exact (h2 (lineIndex inF k) (hlines k hlt)).2.2.2.2.1 i
      (lineNodes_mem labels part.N inF k t i hk hl)
  · intro j hj
    obtain ⟨a1, a2, a3, a4, a5, a6, a7⟩ := h2 j hj
    refine ⟨a5, ?_, a4, a1, ?_⟩
    · intro fuel hf
      rw [a3]
      exact walk_eq s.part.nodes _ a6 a7 fuel hf
    · rw [a2]
      congr 1
      apply List.map_congr_left
      intro i _
      exact (h1 i).symm

/-! ## Lemmas on `project_bipart_trace` under a rearrangement of the input -/

/-- Two sorted rearrangements of the same records hold the same endpoints at
every position. -/
theorem sorted_keys_eq (ed ed1 : List Edge) (mem mem1 : Nat → Edge) (hp : ed.Perm ed1)
    (hs : ed.Pairwise (fun a b => compare_edges a b ≤ 0))
    (hs1 : ed1.Pairwise (fun a b => compare_edges a b ≤ 0)) (x : Nat) (hx : x < ed.length) :
    (rd ed mem x).node1 = (rd ed1 mem1 x).node1 ∧
    (rd ed mem x).node2 = (rd ed1 mem1 x).node2 := by
  have hle : ∀ a b : Edge, compare_edges a b ≤ 0 →
      toLex (a.node2, a.node1) ≤ toLex (b.node2, b.node1) := by
    intro a b h
    rw [Prod.Lex.le_iff]
    exact (compare_edges_le_iff a b).mp h
  have hmap : ed.map (fun e => toLex (e.node2, e.node1)) =
      ed1.map (fun e => toLex (e.node2, e.node1)) := by
    have k1 : (ed.map (fun e => toLex (e.node2, e.node1))).Sorted (fun p q => p ≤ q) :=
      List.pairwise_map.mpr (hs.imp (hle _ _))
    have k2 : (ed1.map (fun e => toLex (e.node2, e.node1))).Sorted (fun p q => p ≤ q) :=
      List.pairwise_map.mpr (hs1.imp (hle _ _))
    exact List.eq_of_perm_of_sorted (hp.map _) k1 k2
  have hx1 : x < ed1.length := by rw [← hp.length_eq]; exact hx
  have h := congrArg (fun l => l[x]?) hmap
  simp only [List.getElem?_map, List.getElem?_eq_getElem hx, List.getElem?_eq_getElem hx1,
    Option.map_some'] at h
  have h2 := Option.some.inj h
  have h3 : (ed[x].node2, ed[x].node1) = (ed1[x].node2, ed1[x].node1) := toLex.injective h2
  rw [rd_lt ed mem x hx, rd_lt ed1 mem1 x hx1]
  exact ⟨congrArg Prod.snd h3, congrArg Prod.fst h3⟩

theorem pairTerm_symm (a : Nat) (ex ey : Edge) : pairTerm a a ex ey = pairTerm a a ey ex := by
  unfold pairTerm
  by_cases h : ex.node2 = ey.node2 ∧ ex.node1 = a ∧ ey.node1 = a
  · rw [if_pos h, if_pos ⟨h.1.symm, h.2.2, h.2.1⟩, mul_comm]
  · rw [if_neg h, if_neg (fun h1 => h ⟨h1.1.symm, h1.2.2, h1.2.1⟩)]

/-- The strengths of the records `(a, a)` among the pairs of positions, twice,
plus the diagonal terms, make up the double sum over all ordered pairs. -/
theorem pairs_sum_diag (ed : List Edge) (mem : Nat → Edge) (a m : Nat) :
    2 * (((allPairs ed mem m).filter (fun p => decide (p.node1 = a ∧ p.node2 = a))).map
        (fun p => p.strength)).sum +
      ((List.range m).map (fun x => pairTerm a a (rd ed mem x) (rd ed mem x))).sum =
      ((List.range m).map (fun x =>
        ((List.range m).map (fun y => pairTerm a a (rd ed mem x) (rd ed mem y))).sum)).sum := by
  induction m with
  | zero => simp [allPairs]
  | succ m ih =>
    rw [allPairs_succ, List.filter_append, List.map_append, List.sum_append, pairsAt_sum]
    simp only [List.range_succ, List.map_append, List.sum_append, List.map_cons, List.map_nil,
      List.sum_cons, List.sum_nil, add_zero]
    rw [List.sum_map_add]
    have hsym : ((List.range m).map (fun x => pairTerm a a (rd ed mem x) (rd ed mem m))).sum =
        ((List.range m).map (fun y => pairTerm a a (rd ed mem m) (rd ed mem y))).sum := by
      apply sum_map_congr
      intro x _
      exact pairTerm_symm a _ _
    rw [hsym]
    linarith

/-- The sum of the strengths of the generated records with the endpoints
`(a, b)`, `b ≤ a`, does not depend on the order of the input records. -/
theorem pairs_sum_perm (ed ed1 : List Edge) (mem mem1 : Nat → Edge) (hp : ed.Perm ed1)
    (hs : ed.Pairwise (fun a b => compare_edges a b ≤ 0))
    (hs1 : ed1.Pairwise (fun a b => compare_edges a b ≤ 0)) (a b : Nat) (hab : b ≤ a) :
    (((allPairs ed mem ed.length).filter (fun p => decide (p.node1 = a ∧ p.node2 = b))).map
        (fun p => p.strength)).sum =
    (((allPairs ed1 mem1 ed1.length).filter (fun p => decide (p.node1 = a ∧ p.node2 = b))).map
        (fun p => p.strength)).sum := by
  rcases Nat.lt_or_eq_of_le hab with hlt | heq
  · rw [pairs_sum_eq ed mem hs a b hlt ed.length (le_refl _),
      pairs_sum_eq ed1 mem1 hs1 a b hlt ed1.length (le_refl _),
      dsum_range_eq, dsum_range_eq]
    exact dsum_perm ed ed1 hp a b
  · subst heq
    have h := pairs_sum_diag ed mem b ed.length
    have h1 := pairs_sum_diag ed1 mem1 b ed1.length
    rw [dsum_range_eq] at h h1
    have hS : ∀ (l : List Edge) (mm : Nat → Edge),
        ((List.range l.length).map (fun x => pairTerm b b (rd l mm x) (rd l mm x))).sum =
          (l.map (fun e => pairTerm b b e e)).sum := by
      intro l mm
      have : (fun x => pairTerm b b (rd l mm x) (rd l mm x)) =
          (fun e => pairTerm b b e e) ∘ rd l mm := rfl
      rw [this, ← List.map_map, map_rd_range]
    rw [hS] at h h1
    have hD := dsum_perm ed ed1 hp b b
    have hSp : (ed.map (fun e => pairTerm b b e e)).sum =
        (ed1.map (fun e => pairTerm b b e e)).sum := (hp.map _).sum_eq
    linarith

/-- The keys of the final list ascend strictly in the order of `(node2, node1)`. -/
theorem final_keys_sorted (qsort : List Edge → List Edge) (hq : QsortSpec qsort)
    (mem_ed mem_proj : Nat → Edge) (nd_in nd_out : List Nat) (weights : List ℚ) (E : Nat)
    (proj1 proj2 : Nat → Nat) (projW : Nat → ℚ)
    (hj : 0 < (project_bipart_trace qsort mem_ed mem_proj nd_in nd_out weights E
      proj1 proj2 projW).generated.length) :
    ((List.range (project_bipart_trace qsort mem_ed mem_proj nd_in nd_out weights E
        proj1 proj2 projW).ret.toNat).map
      (fun k => toLex
        ((project_bipart_trace qsort mem_ed mem_proj nd_in nd_out weights E proj1 proj2 projW).nodes2 k,
         (project_bipart_trace qsort mem_ed mem_proj nd_in nd_out weights E
          proj1 proj2 projW).nodes1 k))).Sorted (fun p q => p < q) := by
  obtain ⟨_, _, _, _, hperm, hsorted⟩ := project_bipart_buffers qsort hq mem_ed mem_proj
    nd_in nd_out weights E proj1 proj2 projW
  have hjP : 0 < (project_bipart_trace qsort mem_ed mem_proj nd_in nd_out weights E
      proj1 proj2 projW).projected.length := by rw [hperm.length_eq]; exact hj
  have hc := final_consecutive _ mem_proj hsorted hjP
  unfold List.Sorted
  rw [← List.chain'_iff_pairwise, List.chain'_map]
  generalize hn : (project_bipart_trace qsort mem_ed mem_proj nd_in nd_out weights E
      proj1 proj2 projW).ret.toNat = n
  cases n with
  | zero => simp
  | succ n =>
    rw [List.chain'_range_succ]
    intro m hm
    rw [Prod.Lex.lt_iff]
    exact hc m (by
      have : (countUnique (project_bipart_trace qsort mem_ed mem_proj nd_in nd_out weights E
        proj1 proj2 projW).projected mem_proj).toNat = n + 1 := hn
      omega)

/-- Whether a pair of endpoints is generated depends on the endpoints held at
the positions of the sorted buffer only. -/
theorem generated_key_transfer (ed ed1 : List Edge) (mem mem1 : Nat → Edge) (hp : ed.Perm ed1)
    (hs : ed.Pairwise (fun a b => compare_edges a b ≤ 0))
    (hs1 : ed1.Pairwise (fun a b => compare_edges a b ≤ 0)) (a b : Nat) :
    (∃ x y, y < x ∧ x < ed.length ∧ (rd ed mem y).node2 = (rd ed mem x).node2 ∧
      (rd ed mem x).node1 = a ∧ (rd ed mem y).node1 = b) →
    (∃ x y, y < x ∧ x < ed1.length ∧ (rd ed1 mem1 y).node2 = (rd ed1 mem1 x).node2 ∧
      (rd ed1 mem1 x).node1 = a ∧ (rd ed1 mem1 y).node1 = b) := by
  rintro ⟨x, y, hy, hx, h2, ha, hb⟩
  obtain ⟨kx1, kx2⟩ := sorted_keys_eq ed ed1 mem mem1 hp hs hs1 x hx
  obtain ⟨ky1, ky2⟩ := sorted_keys_eq ed ed1 mem mem1 hp hs hs1 y (by omega)
  exact ⟨x, y, hy, by rw [← hp.length_eq]; exact hx, by rw [← ky2, ← kx2]; exact h2,
    by rw [← kx1]; exact ha, by rw [← ky1]; exact hb⟩

theorem mem_keys_iff (r : ProjResult) (a b : Nat) :
    toLex (b, a) ∈ (List.range r.ret.toNat).map (fun k => toLex (r.nodes2 k, r.nodes1 k)) ↔
      ∃ e ∈ finalList r, e.node1 = a ∧ e.node2 = b := by
  simp only [List.mem_map, List.mem_range, finalList]
  constructor
  · rintro ⟨k, hk, he⟩
    have h := toLex.injective he
    exact ⟨_, ⟨k, hk, rfl⟩, congrArg Prod.snd h, congrArg Prod.fst h⟩
  · rintro ⟨e, ⟨k, hk, rfl⟩, h1, h2⟩
    exact ⟨k, hk, by rw [← h1, ← h2]⟩

/-- Two results whose final lists ascend strictly, hold the same endpoint pairs
and agree on the strength of every pair, are the same final list. -/
theorem final_lists_eq (r r1 : ProjResult)
    (hK : ((List.range r.ret.toNat).map
      (fun k => toLex (r.nodes2 k, r.nodes1 k))).Sorted (fun p q => p < q))
    (hK1 : ((List.range r1.ret.toNat).map
      (fun k => toLex (r1.nodes2 k, r1.nodes1 k))).Sorted (fun p q => p < q))
    (hmem : ∀ a b, (∃ e ∈ finalList r, e.node1 = a ∧ e.node2 = b) ↔
      (∃ e ∈ finalList r1, e.node1 = a ∧ e.node2 = b))
    (hpos : r.ret = (r.ret.toNat : Int)) (hpos1 : r1.ret = (r1.ret.toNat : Int))
    (hstr : ∀ k, k < r.ret.toNat → k < r1.ret.toNat → r1.nodes1 k = r.nodes1 k →
      r1.nodes2 k = r.nodes2 k → r1.strength k = r.strength k) :
    r1.ret = r.ret ∧ finalList r1 = finalList r := by
  have hperm : ((List.range r.ret.toNat).map (fun k => toLex (r.nodes2 k, r.nodes1 k))).Perm
      ((List.range r1.ret.toNat).map (fun k => toLex (r1.nodes2 k, r1.nodes1 k))) := by
    rw [List.perm_ext_iff_of_nodup hK.nodup hK1.nodup]
    intro x
    have hx : x = toLex ((ofLex x).1, (ofLex x).2) := rfl
    rw [hx, mem_keys_iff r, mem_keys_iff r1]
    exact hmem _ _
  have heq := List.eq_of_perm_of_sorted hperm hK hK1
  have hn : r.ret.toNat = r1.ret.toNat := by
    have := congrArg List.length heq
    simpa using this
  have hkey : ∀ k, k < r.ret.toNat → r1.nodes1 k = r.nodes1 k ∧ r1.nodes2 k = r.nodes2 k := by
    intro k hk
    have h := congrArg (fun l => l[k]?) heq
    simp only [List.getElem?_map, List.getElem?_range hk,
      List.getElem?_range (show k < r1.ret.toNat by omega), Option.map_some'] at h
    have h2 := toLex.injective (Option.some.inj h)
    exact ⟨(congrArg Prod.snd h2).symm, (congrArg Prod.fst h2).symm⟩
  refine ⟨by rw [hpos, hpos1, hn], ?_⟩
  unfold finalList
  rw [← hn]
  apply List.map_congr_left
  intro k hk
  have hk' := List.mem_range.mp hk
  obtain ⟨e1, e2⟩ := hkey k hk'
  rw [e1, e2, hstr k hk' (by omega) e1 e2]

/-- The result of `project_bipart_trace` on two inputs whose records are
rearrangements of each other. -/
theorem project_bipart_rearranged (qsort : List Edge → List Edge) (hq : QsortSpec qsort)
    (mem_ed mem_proj mem_ed1 mem_proj1 : Nat → Edge)
    (nd_in nd_out : List Nat) (weights : List ℚ) (E : Nat)
    (nd_in1 nd_out1 : List Nat) (weights1 : List ℚ) (E1 : Nat)
    (proj1 proj2 : Nat → Nat) (projW : Nat → ℚ)
    (hperm : (loadEdges nd_in1 nd_out1 weights1 E1).Perm (loadEdges nd_in nd_out weights E))
    (hj : 0 < (project_bipart_trace qsort mem_ed mem_proj nd_in nd_out weights E
      proj1 proj2 projW).generated.length) :
    (project_bipart_trace qsort mem_ed1 mem_proj1 nd_in1 nd_out1 weights1 E1
      proj1 proj2 projW).ret =
      (project_bipart_trace qsort mem_ed mem_proj nd_in nd_out weights E proj1 proj2 projW).ret ∧
    finalList (project_bipart_trace qsort mem_ed1 mem_proj1 nd_in1 nd_out1 weights1 E1
      proj1 proj2 projW) =
      finalList (project_bipart_trace qsort mem_ed mem_proj nd_in nd_out weights E
        proj1 proj2 projW) := by
  obtain ⟨bp, bs, bl, bg, _, _⟩ := project_bipart_buffers qsort hq mem_ed mem_proj
    nd_in nd_out weights E proj1 proj2 projW
  obtain ⟨bp1, bs1, bl1, bg1, _, _⟩ := project_bipart_buffers qsort hq mem_ed1 mem_proj1
    nd_in1 nd_out1 weights1 E1 proj1 proj2 projW
  have hed : (project_bipart_trace qsort mem_ed mem_proj nd_in nd_out weights E
      proj1 proj2 projW).ed.Perm
      (project_bipart_trace qsort mem_ed1 mem_proj1 nd_in1 nd_out1 weights1 E1
        proj1 proj2 projW).ed := bp.trans (hperm.symm.trans bp1.symm)
  have gp := generated_pair_iff qsort hq mem_ed mem_proj nd_in nd_out weights E
    proj1 proj2 projW
  have gp1 := generated_pair_iff qsort hq mem_ed1 mem_proj1 nd_in1 nd_out1 weights1 E1
    proj1 proj2 projW
  have hgen : ∀ a b,
      (∃ p ∈ (project_bipart_trace qsort mem_ed mem_proj nd_in nd_out weights E
        proj1 proj2 projW).generated, p.node1 = a ∧ p.node2 = b) ↔
      (∃ p ∈ (project_bipart_trace qsort mem_ed1 mem_proj1 nd_in1 nd_out1 weights1 E1
        proj1 proj2 projW).generated, p.node1 = a ∧ p.node2 = b) := by
    intro a b
    rw [gp a b, gp1 a b]
    constructor
    · intro h
      have := generated_key_transfer _ _ mem_ed mem_ed1 hed bs bs1 a b (by rw [bl]; exact h)
      rw [bl1] at this
      exact this
    · intro h
      have := generated_key_transfer _ _ mem_ed1 mem_ed hed.symm bs1 bs a b (by rw [bl1]; exact h)
      rw [bl] at this
      exact this
  have hj1 : 0 < (project_bipart_trace qsort mem_ed1 mem_proj1 nd_in1 nd_out1 weights1 E1
      proj1 proj2 projW).generated.length := by
    obtain ⟨p, hp⟩ := List.exists_mem_of_length_pos hj
    obtain ⟨p1, hp1, _⟩ := (hgen p.node1 p.node2).mp ⟨p, hp, rfl, rfl⟩
    exact List.length_pos_of_mem hp1
  have fp := final_pair_iff qsort hq mem_ed mem_proj nd_in nd_out weights E
    proj1 proj2 projW hj
  have fp1 := final_pair_iff qsort hq mem_ed1 mem_proj1 nd_in1 nd_out1 weights1 E1
    proj1 proj2 projW hj1
  apply final_lists_eq _ _
    (final_keys_sorted qsort hq mem_ed mem_proj nd_in nd_out weights E proj1 proj2 projW hj)
    (final_keys_sorted qsort hq mem_ed1 mem_proj1 nd_in1 nd_out1 weights1 E1
      proj1 proj2 projW hj1)
    (fun a b => (fp a b).trans ((hgen a b).trans (fp1 a b).symm))
    (ret_pos qsort hq mem_ed mem_proj nd_in nd_out weights E proj1 proj2 projW hj).2
    (ret_pos qsort hq mem_ed1 mem_proj1 nd_in1 nd_out1 weights1 E1 proj1 proj2 projW hj1).2
  intro k hk hk1 e1 e2
  rw [final_strength_generated qsort hq mem_ed mem_proj nd_in nd_out weights E
      proj1 proj2 projW hj k hk,
    final_strength_generated qsort hq mem_ed1 mem_proj1 nd_in1 nd_out1 weights1 E1
      proj1 proj2 projW hj1 k hk1, e1, e2, bg, bg1]
  have hab : (project_bipart_trace qsort mem_ed mem_proj nd_in nd_out weights E
      proj1 proj2 projW).nodes2 k ≤
      (project_bipart_trace qsort mem_ed mem_proj nd_in nd_out weights E proj1 proj2 projW).nodes1 k := by
    obtain ⟨p, hp, h1, h2⟩ := (fp _ _).mp ⟨_, finalList_mem _ k hk, rfl, rfl⟩
    have := (generated_orientation qsort hq mem_ed mem_proj nd_in nd_out weights E
      proj1 proj2 projW p hp).1
    rw [h1, h2] at this
    exact this
  have hsum := pairs_sum_perm _ _ mem_ed1 mem_ed hed.symm bs1 bs _ _ hab
  rw [bl, bl1] at hsum
  exact hsum

/-- The records loaded from arrays rearranged by `σ` are the records of the
original arrays, rearranged. -/
theorem loadEdges_rearranged (nd_in nd_out : List Nat) (weights : List ℚ) (E : Nat)
    (σ : List Nat) (hσ : σ.Perm (List.range E)) :
    (loadEdges (σ.map (fun i => nd_in.getD i 0)) (σ.map (fun i => nd_out.getD i 0))
      (σ.map (fun i => weights.getD i 0)) E).Perm (loadEdges nd_in nd_out weights E) := by
  have hlen : σ.length = E := by rw [hσ.length_eq, List.length_range]
  have h : loadEdges (σ.map (fun i => nd_in.getD i 0)) (σ.map (fun i => nd_out.getD i 0))
      (σ.map (fun i => weights.getD i 0)) E =
      σ.map (fun i => (⟨nd_in.getD i 0, nd_out.getD i 0, weights.getD i 0⟩ : Edge)) := by
    apply List.ext_getElem
    · simp [loadEdges, hlen]
    · intro n h1 h2
      have hn : n < σ.length := by simpa using h2
      simp [loadEdges, List.getD_eq_getElem?_getD, List.getElem?_eq_getElem hn]
  rw [h]
  exact hσ.map _

/-! ## The run `project_bipart_trace` under a rearrangement of the input -/

/-- The count and the final list of a run are the same for every rearrangement
of the input records. -/
theorem trace_multiset (qsort : List Edge → List Edge) (hq : QsortSpec qsort)
    (mem_ed mem_proj mem_ed1 mem_proj1 : Nat → Edge)
    (nd_in nd_out : List Nat) (weights : List ℚ) (E : Nat)
    (proj1 proj2 : Nat → Nat) (projW : Nat → ℚ)
    (hj : 0 < (project_bipart_trace qsort mem_ed mem_proj nd_in nd_out weights E
      proj1 proj2 projW).generated.length) :
    (∀ (nd_in1 nd_out1 : List Nat) (weights1 : List ℚ) (E1 : Nat),
      (loadEdges nd_in1 nd_out1 weights1 E1).Perm (loadEdges nd_in nd_out weights E) →
      (project_bipart_trace qsort mem_ed1 mem_proj1 nd_in1 nd_out1 weights1 E1
        proj1 proj2 projW).ret =
        (project_bipart_trace qsort mem_ed mem_proj nd_in nd_out weights E proj1 proj2 projW).ret ∧
      finalList (project_bipart_trace qsort mem_ed1 mem_proj1 nd_in1 nd_out1 weights1 E1
        proj1 proj2 projW) =
        finalList (project_bipart_trace qsort mem_ed mem_proj nd_in nd_out weights E
          proj1 proj2 projW)) ∧
    (∀ σ : List Nat, σ.Perm (List.range E) →
      (project_bipart_trace qsort mem_ed1 mem_proj1 (σ.map (fun i => nd_in.getD i 0))
        (σ.map (fun i => nd_out.getD i 0)) (σ.map (fun i => weights.getD i 0)) E
        proj1 proj2 projW).ret =
        (project_bipart_trace qsort mem_ed mem_proj nd_in nd_out weights E proj1 proj2 projW).ret ∧
      finalList (project_bipart_trace qsort mem_ed1 mem_proj1 (σ.map (fun i => nd_in.getD i 0))
        (σ.map (fun i => nd_out.getD i 0)) (σ.map (fun i => weights.getD i 0)) E
        proj1 proj2 projW) =
        finalList (project_bipart_trace qsort mem_ed mem_proj nd_in nd_out weights E
          proj1 proj2 projW)) :=
  ⟨fun nd_in1 nd_out1 weights1 E1 hperm =>
      project_bipart_rearranged qsort hq mem_ed mem_proj mem_ed1 mem_proj1 nd_in nd_out weights E
        nd_in1 nd_out1 weights1 E1 proj1 proj2 projW hperm hj,
    fun σ hσ =>
      project_bipart_rearranged qsort hq mem_ed mem_proj mem_ed1 mem_proj1 nd_in nd_out weights E
        _ _ _ E proj1 proj2 projW (loadEdges_rearranged nd_in nd_out weights E σ hσ) hj⟩

/-! ## When `project_bipart` returns -/

/-- The call returns the values of the run when the records written fit the
capacity and their number fits an `int`, and does not return otherwise. -/
theorem project_bipart_eq (qsort : List Edge → List Edge) (mem_ed mem_proj : Nat → Edge)
    (nd_in nd_out : List Nat) (weights : List ℚ) (E : Nat)
    (proj1 proj2 : Nat → Nat) (projW : Nat → ℚ) :
    project_bipart qsort mem_ed mem_proj nd_in nd_out weights E proj1 proj2 projW =
      if (project_bipart_trace qsort mem_ed mem_proj nd_in nd_out weights E
            proj1 proj2 projW).generated.length ≤
          (project_bipart_trace qsort mem_ed mem_proj nd_in nd_out weights E
            proj1 proj2 projW).Emax ∧
        (project_bipart_trace qsort mem_ed mem_proj nd_in nd_out weights E
            proj1 proj2 projW).generated.length < 2147483648
      then some (project_bipart_trace qsort mem_ed mem_proj nd_in nd_out weights E
        proj1 proj2 projW)
      else none := by
  simp only [project_bipart, generate, project_bipart_trace]
  by_cases h1 : (genWrites (qsort (loadEdges nd_in nd_out weights E)) mem_ed E).length ≤
      countEmax (qsort (loadEdges nd_in nd_out weights E)) mem_ed E
  · by_cases h2 : 2147483648 ≤
        (genWrites (qsort (loadEdges nd_in nd_out weights E)) mem_ed E).length
    · rw [if_pos h1, if_neg (by omega)]
      simp only [if_pos h2]
    · rw [if_pos h1, if_pos ⟨h1, by omega⟩]
      simp only [if_neg h2]
  · rw [if_neg h1, if_neg (fun h => h1 h.1)]

theorem project_bipart_returns (qsort : List Edge → List Edge) (mem_ed mem_proj : Nat → Edge)
    (nd_in nd_out : List Nat) (weights : List ℚ) (E : Nat)
    (proj1 proj2 : Nat → Nat) (projW : Nat → ℚ)
    (h1 : (project_bipart_trace qsort mem_ed mem_proj nd_in nd_out weights E
        proj1 proj2 projW).generated.length ≤
      (project_bipart_trace qsort mem_ed mem_proj nd_in nd_out weights E
        proj1 proj2 projW).Emax)
    (h2 : (project_bipart_trace qsort mem_ed mem_proj nd_in nd_out weights E
        proj1 proj2 projW).generated.length < 2147483648) :
    project_bipart qsort mem_ed mem_proj nd_in nd_out weights E proj1 proj2 projW =
      some (project_bipart_trace qsort mem_ed mem_proj nd_in nd_out weights E
        proj1 proj2 projW) := by
  rw [project_bipart_eq, if_pos ⟨h1, h2⟩]

theorem project_bipart_of_some (qsort : List Edge → List Edge) (mem_ed mem_proj : Nat → Edge)
    (nd_in nd_out : List Nat) (weights : List ℚ) (E : Nat)
    (proj1 proj2 : Nat → Nat) (projW : Nat → ℚ) (r : ProjResult)
    (h : project_bipart qsort mem_ed mem_proj nd_in nd_out weights E proj1 proj2 projW = some r) :
    r = project_bipart_trace qsort mem_ed mem_proj nd_in nd_out weights E proj1 proj2 projW ∧
    r.generated.length ≤ r.Emax ∧ r.generated.length < 2147483648 := by
  rw [project_bipart_eq] at h
  split at h
  · next hfit =>
    have hr := (Option.some.inj h).symm
    subst hr
    exact ⟨rfl, hfit.1, hfit.2⟩
  · cases h

/-- Up to 65536 edges the call returns: the capacity counted is the number of
records written, which is below `2^31`. -/
theorem project_bipart_small (qsort : List Edge → List Edge) (mem_ed mem_proj : Nat → Edge)
    (nd_in nd_out : List Nat) (weights : List ℚ) (E : Nat)
    (proj1 proj2 : Nat → Nat) (projW : Nat → ℚ) (hE : E ≤ 65536) :
    project_bipart qsort mem_ed mem_proj nd_in nd_out weights E proj1 proj2 projW =
      some (project_bipart_trace qsort mem_ed mem_proj nd_in nd_out weights E
        proj1 proj2 projW) := by
  obtain ⟨h1, h2, h3⟩ := emax_gen_inv (qsort (loadEdges nd_in nd_out weights E)) mem_ed E E hE
  have hEm := project_bipart_Emax qsort mem_ed mem_proj nd_in nd_out weights E proj1 proj2 projW
  have hG := project_bipart_generated qsort mem_ed mem_proj nd_in nd_out weights E
    proj1 proj2 projW
  have hed : (project_bipart_trace qsort mem_ed mem_proj nd_in nd_out weights E
      proj1 proj2 projW).ed = qsort (loadEdges nd_in nd_out weights E) := rfl
  apply project_bipart_returns
  · rw [hEm, hG, hed]
    unfold countEmax genWrites
    rw [h2]
  · rw [hG, hed]
    unfold genWrites
    generalize ((List.range E).foldl (genStep (qsort (loadEdges nd_in nd_out weights E)) mem_ed E)
      { degree := 0, projected := [], x0 := 0 }) = gs at h1 h3 ⊢
    have hx : gs.x0 ≤ 65536 := by omega
    have hsq : gs.x0 * gs.x0 ≤ 65536 * 65536 := Nat.mul_le_mul hx hx
    rcases Nat.eq_zero_or_pos gs.x0 with h0 | h0
    · rw [h0] at h3
      omega
    · omega

/-- On 65537 edges sharing one `nd_out` id the call does not return: 2147516416
records are written into a buffer of 32768. -/
theorem project_bipart_overflow (qsort : List Edge → List Edge) (hq : QsortSpec qsort)
    (mem_ed mem_proj : Nat → Edge) (nd_in1 : List Nat) (weights1 : List ℚ)
    (proj1 proj2 : Nat → Nat) (projW : Nat → ℚ) :
    project_bipart qsort mem_ed mem_proj nd_in1 (List.replicate 65537 0) weights1 65537
      proj1 proj2 projW = none ∧
    (project_bipart_trace qsort mem_ed mem_proj nd_in1 (List.replicate 65537 0) weights1 65537
      proj1 proj2 projW).generated.length = 2147516416 := by
  obtain ⟨hE, hG⟩ := (trace_capacity qsort hq mem_ed mem_proj nd_in1 (List.replicate 65537 0)
    weights1 65537 proj1 proj2 projW).2.2.2.2 nd_in1 weights1
  refine ⟨?_, hG⟩
  rw [project_bipart_eq, if_neg]
  rw [hE, hG]
  omega

/-- Two input edges that share an `nd_out` id make the generating loop write at
least one record. -/
theorem generated_pos_of_shared (qsort : List Edge → List Edge) (hq : QsortSpec qsort)
    (mem_ed mem_proj : Nat → Edge) (nd_in nd_out : List Nat) (weights : List ℚ) (E : Nat)
    (proj1 proj2 : Nat → Nat) (projW : Nat → ℚ)
    (hs : ∃ i j, i < E ∧ j < E ∧ i ≠ j ∧ nd_out.getD i 0 = nd_out.getD j 0) :
    0 < (project_bipart_trace qsort mem_ed mem_proj nd_in nd_out weights E
      proj1 proj2 projW).generated.length := by
  obtain ⟨i, j, hi, hj, hij, hc⟩ := hs
  obtain ⟨hperm, _, _, _, _, _⟩ := project_bipart_buffers qsort hq mem_ed mem_proj
    nd_in nd_out weights E proj1 proj2 projW
  have hlen := (trace_capacity qsort hq mem_ed mem_proj nd_in nd_out weights E
    proj1 proj2 projW).2.2.1
  -- the input edges with the shared id are at least two
  have hcount : 2 ≤ ((loadEdges nd_in nd_out weights E).filter
      (fun e => decide (e.node2 = nd_out.getD i 0))).length := by
    unfold loadEdges
    rw [List.filter_map, List.length_map]
    have hnd : ((List.range E).filter ((fun e : Edge => decide (e.node2 = nd_out.getD i 0)) ∘
        (fun i => (⟨nd_in.getD i 0, nd_out.getD i 0, weights.getD i 0⟩ : Edge)))).Nodup :=
      (List.nodup_range E).filter _
    rw [← List.toFinset_card_of_nodup hnd]
    have hsub : ({i, j} : Finset Nat) ⊆ ((List.range E).filter
        ((fun e : Edge => decide (e.node2 = nd_out.getD i 0)) ∘
        (fun i => (⟨nd_in.getD i 0, nd_out.getD i 0, weights.getD i 0⟩ : Edge)))).toFinset := by
      intro x hx
      rw [Finset.mem_insert, Finset.mem_singleton] at hx
      rw [List.mem_toFinset, List.mem_filter, List.mem_range]
      rcases hx with hx | hx
      · rw [hx]
        exact ⟨hi, by simp only [Function.comp, decide_eq_true_eq]⟩
      · rw [hx]
        exact ⟨hj, by simp only [Function.comp, decide_eq_true_eq]; exact hc.symm⟩
    have hcard := Finset.card_le_card hsub
    rw [Finset.card_pair hij] at hcard
    exact hcard
  have hcount1 : 2 ≤ ((project_bipart_trace qsort mem_ed mem_proj nd_in nd_out weights E
      proj1 proj2 projW).ed.filter (fun e => decide (e.node2 = nd_out.getD i 0))).length := by
    rw [(hperm.filter _).length_eq]
    exact hcount
  have hmem : nd_out.getD i 0 ∈ ((project_bipart_trace qsort mem_ed mem_proj nd_in nd_out
      weights E proj1 proj2 projW).ed.map (fun e => e.node2)).toFinset := by
    rw [List.mem_toFinset, List.mem_map]
    have hne : ((project_bipart_trace qsort mem_ed mem_proj nd_in nd_out weights E
        proj1 proj2 projW).ed.filter (fun e => decide (e.node2 = nd_out.getD i 0))) ≠ [] := by
      intro h0
      rw [h0] at hcount1
      simp at hcount1
    obtain ⟨e, he⟩ := List.exists_mem_of_ne_nil _ hne
    rw [List.mem_filter, decide_eq_true_eq] at he
    exact ⟨e, he.1, he.2⟩
  rw [hlen]
  have hterm := Finset.single_le_sum
    (f := fun c => ((project_bipart_trace qsort mem_ed mem_proj nd_in nd_out weights E
        proj1 proj2 projW).ed.filter (fun e => decide (e.node2 = c))).length *
      (((project_bipart_trace qsort mem_ed mem_proj nd_in nd_out weights E
        proj1 proj2 projW).ed.filter (fun e => decide (e.node2 = c))).length - 1) / 2)
    (fun c _ => Nat.zero_le _) hmem
  refine lt_of_lt_of_le ?_ hterm
  show 0 < _ * (_ - 1) / 2
  apply Nat.div_pos _ (by norm_num)
  calc 2 = 2 * 1 := rfl
    _ ≤ _ * (_ - 1) := Nat.mul_le_mul hcount1 (by omega)

/-- The call returns, having generated a pair, on every input of at most 65536
edges in which two edges share an `nd_out` id. -/
theorem project_bipart_pairs (qsort : List Edge → List Edge) (hq : QsortSpec qsort)
    (mem_ed mem_proj : Nat → Edge) (nd_in nd_out : List Nat) (weights : List ℚ) (E : Nat)
    (proj1 proj2 : Nat → Nat) (projW : Nat → ℚ) (hE : E ≤ 65536)
    (hs : ∃ i j, i < E ∧ j < E ∧ i ≠ j ∧ nd_out.getD i 0 = nd_out.getD j 0) :
    ∃ r, project_bipart qsort mem_ed mem_proj nd_in nd_out weights E proj1 proj2 projW = some r ∧
      0 < r.generated.length :=
  ⟨_, project_bipart_small qsort mem_ed mem_proj nd_in nd_out weights E proj1 proj2 projW hE,
    generated_pos_of_shared qsort hq mem_ed mem_proj nd_in nd_out weights E proj1 proj2 projW hs⟩

/-! ## Theorems on `project_bipart` -/

/-- C5, as amended: the edge list `project_bipart` computes is over the `nd_in`
id space.  The call returns, having generated a pair, for every input of at
most 65536 edges in which two edges share an `nd_out` id; and whenever it
returns, having generated at least one pair, both endpoints of
every edge of the final list are `nd_in` ids, and two different ids `a`, `b`
form an edge of the final list exactly when some `nd_out` id is joined to both
in the input.  For `nd_in = (A,A,B,B)`, `nd_out = (X,Y,X,Y)`, weights 1, with
`A ≠ B` and `X ≠ Y`, the call returns the single edge joining `A` and `B`. -/
theorem project_bipart_connects (qsort : List Edge → List Edge) (hq : QsortSpec qsort)
    (mem_ed mem_proj : Nat → Edge) :
    (∀ (nd_in nd_out : List Nat) (weights : List ℚ) (E : Nat) (proj1 proj2 : Nat → Nat)
      (projW : Nat → ℚ), E ≤ 65536 →
      (∃ i j, i < E ∧ j < E ∧ i ≠ j ∧ nd_out.getD i 0 = nd_out.getD j 0) →
      ∃ r, project_bipart qsort mem_ed mem_proj nd_in nd_out weights E
        proj1 proj2 projW = some r ∧ 0 < r.generated.length) ∧
    (∀ (nd_in nd_out : List Nat) (weights : List ℚ) (E : Nat) (proj1 proj2 : Nat → Nat)
      (projW : Nat → ℚ) (r : ProjResult),
      project_bipart qsort mem_ed mem_proj nd_in nd_out weights E proj1 proj2 projW = some r →
      0 < r.generated.length →
      (∀ e ∈ finalList r,
        (∃ i, i < E ∧ nd_in.getD i 0 = e.node1) ∧ (∃ i, i < E ∧ nd_in.getD i 0 = e.node2)) ∧
      (∀ a b, a ≠ b →
        ((∃ e ∈ finalList r, (e.node1 = a ∧ e.node2 = b) ∨ (e.node1 = b ∧ e.node2 = a)) ↔
          ∃ c, (∃ i, i < E ∧ nd_in.getD i 0 = a ∧ nd_out.getD i 0 = c) ∧
            (∃ i, i < E ∧ nd_in.getD i 0 = b ∧ nd_out.getD i 0 = c)))) ∧
    (∀ (A B X Y : Nat) (proj1 proj2 : Nat → Nat) (projW : Nat → ℚ), A ≠ B → X ≠ Y →
      ∃ r, project_bipart qsort mem_ed mem_proj [A, A, B, B] [X, Y, X, Y] [1, 1, 1, 1] 4
          proj1 proj2 projW = some r ∧
        finalList r = [⟨max A B, min A B, 2⟩]) := by
  have ht := trace_connects qsort hq mem_ed mem_proj
  refine ⟨?_, ?_, ?_⟩
  · intro nd_in nd_out weights E proj1 proj2 projW hE hs
    exact project_bipart_pairs qsort hq mem_ed mem_proj nd_in nd_out weights E
      proj1 proj2 projW hE hs
  · intro nd_in nd_out weights E proj1 proj2 projW r hr hj
    obtain ⟨rfl, _, _⟩ := project_bipart_of_some qsort mem_ed mem_proj nd_in nd_out weights E
      proj1 proj2 projW r hr
    exact ht.1 nd_in nd_out weights E proj1 proj2 projW hj
  · intro A B X Y proj1 proj2 projW hAB hXY
    exact ⟨_, project_bipart_small qsort mem_ed mem_proj _ _ _ 4 proj1 proj2 projW (by simp),
      ht.2 A B X Y proj1 proj2 projW hAB hXY⟩

/-- Witness for C5 (amended): with insertion sort, `nd_in = (0,0,1,1)` and
`nd_out = (2,3,2,3)` give the single edge `(1,0)` of weight 2, which joins the
`nd_in` ids 0 and 1. -/
theorem project_bipart_connects_witness :
    ∃ r, project_bipart insertionQsort zeroMem zeroMem [0, 0, 1, 1] [2, 3, 2, 3]
        [1, 1, 1, 1] 4 (fun _ => 0) (fun _ => 0) (fun _ => 0) = some r ∧
      finalList r = [⟨1, 0, 2⟩] :=
  (project_bipart_connects insertionQsort insertionQsort_spec zeroMem zeroMem).2.2
    0 1 2 3 (fun _ => 0) (fun _ => 0) (fun _ => 0) (by decide) (by decide)

/-- Counterexample to C5 as stated: for `nd_in = (0,0,1,1)`, `nd_out = (2,3,2,3)`
the call returns the edge `(1,0)`: its endpoints are not `nd_out` ids, and no
edge joins the `nd_out` ids 2 and 3 although the `nd_in` id 0 is joined to
both. -/
theorem project_bipart_connects_counterexample :
    ∃ r, project_bipart insertionQsort zeroMem zeroMem [0, 0, 1, 1] [2, 3, 2, 3]
        [1, 1, 1, 1] 4 (fun _ => 0) (fun _ => 0) (fun _ => 0) = some r ∧
      finalList r = [⟨1, 0, 2⟩] ∧
      ¬ (∀ e ∈ finalList r,
        (∃ i, i < 4 ∧ [2, 3, 2, 3].getD i 0 = e.node1) ∧
        (∃ i, i < 4 ∧ [2, 3, 2, 3].getD i 0 = e.node2)) ∧
      ¬ (∃ e ∈ finalList r,
        (e.node1 = 2 ∧ e.node2 = 3) ∨ (e.node1 = 3 ∧ e.node2 = 2)) := by
  have h : finalList (project_bipart_trace insertionQsort zeroMem zeroMem [0, 0, 1, 1]
      [2, 3, 2, 3] [1, 1, 1, 1] 4 (fun _ => 0) (fun _ => 0) (fun _ => 0)) = [⟨1, 0, 2⟩] :=
    square_result insertionQsort insertionQsort_spec zeroMem zeroMem 0 1 2 3
      (fun _ => 0) (fun _ => 0) (fun _ => 0) (by decide) (by decide)
  refine ⟨_, project_bipart_small insertionQsort zeroMem zeroMem _ _ _ 4 _ _ _ (by simp),
    h, ?_, ?_⟩
  · rw [h]
    intro hall
    obtain ⟨⟨i, hi, he⟩, _⟩ := hall ⟨1, 0, 2⟩ (List.mem_singleton.mpr rfl)
    have : i = 0 ∨ i = 1 ∨ i = 2 ∨ i = 3 := by omega
    rcases this with rfl | rfl | rfl | rfl <;> simp at he
  · rw [h]
    rintro ⟨e, he, hk⟩
    rw [List.mem_singleton] at he
    subst he
    simp at hk

/-- C6 (code defect): `project_bipart` never writes the caller's arrays.  On
the scenario input it returns 1 and its local arrays hold the edge `(1,0)` of
weight 2, while `proj1`, `proj2`, `projW` are as on entry. -/
theorem project_bipart_outputs_untouched (proj1 proj2 : Nat → Nat) (projW : Nat → ℚ) :
    ∃ r, project_bipart insertionQsort zeroMem zeroMem [0, 0, 1, 1] [2, 3, 2, 3] [1, 1, 1, 1] 4
        proj1 proj2 projW = some r ∧
      r.ret = 1 ∧ finalList r = [⟨1, 0, 2⟩] ∧
      r.proj1 = proj1 ∧ r.proj2 = proj2 ∧ r.projW = projW :=
  ⟨_, project_bipart_small insertionQsort zeroMem zeroMem _ _ _ 4 proj1 proj2 projW (by simp),
    trace_outputs_untouched proj1 proj2 projW⟩

/-- The pairs `(i, nd_out[i])` with `nd_in[i] = i` are unique. -/
theorem range_unique (nd_out : List Nat) (weights : List ℚ) (n : Nat) :
    UniquePairs (loadEdges (List.range n) nd_out weights n) := by
  unfold UniquePairs loadEdges
  rw [List.map_map]
  apply List.Nodup.map_on _ (List.nodup_range n)
  intro i hi j hj h
  have h1 : (List.range n).getD i 0 = (List.range n).getD j 0 := congrArg Prod.fst h
  rw [List.getD_eq_getElem?_getD, List.getD_eq_getElem?_getD,
    List.getElem?_range (List.mem_range.mp hi), List.getElem?_range (List.mem_range.mp hj)] at h1
  exact h1

/-- C7 (code defect, the one of C14): with unique `(nd_in, nd_out)` pairs the
call returns, having generated a pair, for every input of at most 65536 edges
in which two edges share an `nd_out` id; and whenever it returns, having
generated at least one pair, the strength of every entry of the final
list is the sum, over the nodes adjacent to both endpoints in the two-mode
input (each listed once), of the product of the two input weights.  On the
65537 edges `(i, 0)`, `i = 0..65536`, whose pairs are unique and which yield
2147516416 pairs, the call does not return: the records are written past the
end of `projected`. -/
theorem project_bipart_weight (qsort : List Edge → List Edge) (hq : QsortSpec qsort)
    (mem_ed mem_proj : Nat → Edge) (nd_in nd_out : List Nat) (weights : List ℚ) (E : Nat)
    (proj1 proj2 : Nat → Nat) (projW : Nat → ℚ)
    (hu : UniquePairs (loadEdges nd_in nd_out weights E)) :
    (E ≤ 65536 → (∃ i j, i < E ∧ j < E ∧ i ≠ j ∧ nd_out.getD i 0 = nd_out.getD j 0) →
      ∃ r, project_bipart qsort mem_ed mem_proj nd_in nd_out weights E
        proj1 proj2 projW = some r ∧ 0 < r.generated.length) ∧
    (∀ r, project_bipart qsort mem_ed mem_proj nd_in nd_out weights E
        proj1 proj2 projW = some r →
      0 < r.generated.length →
      ∀ k, k < r.ret.toNat →
        (commonNeighbours (loadEdges nd_in nd_out weights E) (r.nodes1 k) (r.nodes2 k)).Nodup ∧
        (∀ c, c ∈ commonNeighbours (loadEdges nd_in nd_out weights E) (r.nodes1 k) (r.nodes2 k) ↔
          (adjacent (loadEdges nd_in nd_out weights E) (r.nodes1 k) c = true ∧
           adjacent (loadEdges nd_in nd_out weights E) (r.nodes2 k) c = true)) ∧
        r.strength k =
          ((commonNeighbours (loadEdges nd_in nd_out weights E) (r.nodes1 k) (r.nodes2 k)).map
            (fun c => weightOf (loadEdges nd_in nd_out weights E) (r.nodes1 k) c *
              weightOf (loadEdges nd_in nd_out weights E) (r.nodes2 k) c)).sum) ∧
    (∀ weights1 : List ℚ,
      UniquePairs (loadEdges (List.range 65537) (List.replicate 65537 0) weights1 65537) ∧
      (project_bipart_trace qsort mem_ed mem_proj (List.range 65537) (List.replicate 65537 0)
        weights1 65537 proj1 proj2 projW).generated.length = 2147516416 ∧
      project_bipart qsort mem_ed mem_proj (List.range 65537) (List.replicate 65537 0)
        weights1 65537 proj1 proj2 projW = none) := by
  refine ⟨?_, ?_, ?_⟩
  · intro hE hs
    exact project_bipart_pairs qsort hq mem_ed mem_proj nd_in nd_out weights E
      proj1 proj2 projW hE hs
  · intro r hr hj
    obtain ⟨rfl, _, _⟩ := project_bipart_of_some qsort mem_ed mem_proj nd_in nd_out weights E
      proj1 proj2 projW r hr
    exact trace_weight qsort hq mem_ed mem_proj nd_in nd_out weights E proj1 proj2 projW hu hj
  · intro weights1
    obtain ⟨h1, h2⟩ := project_bipart_overflow qsort hq mem_ed mem_proj (List.range 65537)
      weights1 proj1 proj2 projW
    exact ⟨range_unique _ _ _, h2, h1⟩

/-- Witness for C7: on `{(0,2,1),(0,3,1),(1,2,1),(1,3,1)}` the call returns and
the one projected edge has weight `1*1 + 1*1`. -/
theorem project_bipart_weight_witness :
    ∃ r, project_bipart insertionQsort zeroMem zeroMem [0, 0, 1, 1] [2, 3, 2, 3] [1, 1, 1, 1] 4
        (fun _ => 0) (fun _ => 0) (fun _ => 0) = some r ∧
      r.strength 0 = 1 * 1 + 1 * 1 := by
  have hth := project_bipart_weight insertionQsort insertionQsort_spec zeroMem zeroMem
    [0, 0, 1, 1] [2, 3, 2, 3] [1, 1, 1, 1] 4 (fun _ => 0) (fun _ => 0) (fun _ => 0)
    (square_unique 0 1 2 3 (by decide) (by decide))
  obtain ⟨r, hr, _⟩ := hth.1 (by simp) ⟨0, 2, by decide, by decide, by decide, by decide⟩
  refine ⟨r, hr, ?_⟩
  have hrt := (project_bipart_of_some _ _ _ _ _ _ _ _ _ _ r hr).1
  have hj := square_generated_pos insertionQsort insertionQsort_spec zeroMem zeroMem 0 1 2 3
    (fun _ => 0) (fun _ => 0) (fun _ => 0) (by decide)
  have hf := square_fields insertionQsort insertionQsort_spec zeroMem zeroMem 0 1 2 3
    (fun _ => 0) (fun _ => 0) (fun _ => 0) (by decide) (by decide)
  rw [← hrt] at hj hf
  have h := (hth.2.1 r hr hj 0 (by rw [hf.1]; decide)).2.2
  rw [h, hf.2.1, hf.2.2.1, square_loadEdges]
  simp [commonNeighbours, adjacent, weightOf, List.filter_cons, List.find?_cons]

/-- C9 (code defect): when no two edges share an `nd_out` id (also when
`E = 0`) no record is generated, as claimed, but the call does not return 0:
with `j = 0` the bound `j-1` of the loop at line 293 is `UINT_MAX`, and `E`
ends at minus the number of the `UINT_MAX` positions of memory past the empty
buffer whose record compares equal to the next. -/
theorem project_bipart_no_pairs (qsort : List Edge → List Edge) (hq : QsortSpec qsort)
    (mem_ed mem_proj : Nat → Edge) (nd_in nd_out : List Nat) (weights : List ℚ) (E : Nat)
    (proj1 proj2 : Nat → Nat) (projW : Nat → ℚ)
    (hd : ∀ i j, i < E → j < E → i ≠ j → nd_out.getD i 0 ≠ nd_out.getD j 0) :
    ∃ r, project_bipart qsort mem_ed mem_proj nd_in nd_out weights E proj1 proj2 projW = some r ∧
      r.generated = [] ∧
      r.ret = (groupIndex [] mem_proj 4294967295 : Int) - 4294967295 := by
  obtain ⟨hg, hret⟩ := trace_no_pairs qsort hq mem_ed mem_proj nd_in nd_out weights E
    proj1 proj2 projW hd
  refine ⟨_, project_bipart_returns qsort mem_ed mem_proj nd_in nd_out weights E
    proj1 proj2 projW ?_ ?_, hg, hret⟩
  · rw [hg]; exact Nat.zero_le _
  · rw [hg]; simp

/-- Witness for C9: the empty input and a single edge, with zeroed memory past
the buffers: no record is generated and `E` ends at `-4294967295` (1 modulo
`2^32`), not at 0. -/
theorem project_bipart_no_pairs_witness :
    (∃ r, project_bipart insertionQsort zeroMem zeroMem [] [] [] 0
        (fun _ => 0) (fun _ => 0) (fun _ => 0) = some r ∧
      r.generated = [] ∧ r.ret = -4294967295) ∧
    (∃ r, project_bipart insertionQsort zeroMem zeroMem [5] [7] [1] 1
        (fun _ => 0) (fun _ => 0) (fun _ => 0) = some r ∧
      r.generated = [] ∧ r.ret = -4294967295) := by
  obtain ⟨r0, e0, g0, h0⟩ := project_bipart_no_pairs insertionQsort insertionQsort_spec
    zeroMem zeroMem [] [] [] 0 (fun _ => 0) (fun _ => 0) (fun _ => 0) (by intro i j hi; omega)
  obtain ⟨r1, e1, g1, h1⟩ := project_bipart_no_pairs insertionQsort insertionQsort_spec
    zeroMem zeroMem [5] [7] [1] 1 (fun _ => 0) (fun _ => 0) (fun _ => 0)
    (by intro i j hi hj hij; omega)
  rw [groupIndex_zeroMem] at h0 h1
  exact ⟨⟨r0, e0, g0, by rw [h0]; norm_num⟩, ⟨r1, e1, g1, by rw [h1]; norm_num⟩⟩

/-- C13 (code defect, the one of C14): the call returns, having generated a
pair, for every input of at most 65536 edges in which two edges share an
`nd_out` id; and whenever it returns, having generated at least one pair:
the sorted buffer is a rearrangement of the generated records in which the
records with the same endpoint pair are adjacent; the final list has no two
entries with the same endpoint pair; the strength of each entry is the sum of
the strengths of the generated records with its pair; and the returned count
`E'`, the number of entries of the final list, is the number of different
endpoint pairs among the generated records.  On 65537 edges sharing one
`nd_out` id, which yield 2147516416 pairs, the call does not return: the
records are written past the end of `projected`. -/
theorem project_bipart_dedup (qsort : List Edge → List Edge) (hq : QsortSpec qsort)
    (mem_ed mem_proj : Nat → Edge) (nd_in nd_out : List Nat) (weights : List ℚ) (E : Nat)
    (proj1 proj2 : Nat → Nat) (projW : Nat → ℚ) :
    (E ≤ 65536 → (∃ i j, i < E ∧ j < E ∧ i ≠ j ∧ nd_out.getD i 0 = nd_out.getD j 0) →
      ∃ r, project_bipart qsort mem_ed mem_proj nd_in nd_out weights E
        proj1 proj2 projW = some r ∧ 0 < r.generated.length) ∧
    (∀ r, project_bipart qsort mem_ed mem_proj nd_in nd_out weights E
        proj1 proj2 projW = some r →
      0 < r.generated.length →
      (r.projected.Perm r.generated ∧
       ∀ t s t', t ≤ s → s ≤ t' → t' < r.projected.length →
        (rd r.projected mem_proj t).node1 = (rd r.projected mem_proj t').node1 →
        (rd r.projected mem_proj t).node2 = (rd r.projected mem_proj t').node2 →
        (rd r.projected mem_proj s).node1 = (rd r.projected mem_proj t).node1 ∧
        (rd r.projected mem_proj s).node2 = (rd r.projected mem_proj t).node2) ∧
      (∀ k k', k < r.ret.toNat → k' < r.ret.toNat →
        r.nodes1 k = r.nodes1 k' → r.nodes2 k = r.nodes2 k' → k = k') ∧
      (∀ k, k < r.ret.toNat →
        r.strength k =
          ((r.generated.filter
            (fun p => decide (p.node1 = r.nodes1 k ∧ p.node2 = r.nodes2 k))).map
              (fun p => p.strength)).sum) ∧
      r.ret = ((finalList r).length : Int) ∧
      r.ret = (((r.generated.map (fun p => (p.node1, p.node2))).dedup.length : Nat) : Int)) ∧
    (∀ (nd_in1 : List Nat) (weights1 : List ℚ),
      (project_bipart_trace qsort mem_ed mem_proj nd_in1 (List.replicate 65537 0) weights1 65537
        proj1 proj2 projW).generated.length = 2147516416 ∧
      project_bipart qsort mem_ed mem_proj nd_in1 (List.replicate 65537 0) weights1 65537
        proj1 proj2 projW = none) := by
  refine ⟨?_, ?_, ?_⟩
  · intro hE hs
    exact project_bipart_pairs qsort hq mem_ed mem_proj nd_in nd_out weights E
      proj1 proj2 projW hE hs
  · intro r hr hj
    obtain ⟨rfl, _, _⟩ := project_bipart_of_some qsort mem_ed mem_proj nd_in nd_out weights E
      proj1 proj2 projW r hr
    exact trace_dedup qsort hq mem_ed mem_proj nd_in nd_out weights E proj1 proj2 projW hj
  · intro nd_in1 weights1
    obtain ⟨h1, h2⟩ := project_bipart_overflow qsort hq mem_ed mem_proj nd_in1
      weights1 proj1 proj2 projW
    exact ⟨h2, h1⟩

/-- Witness for C13: on `{(0,2),(0,3),(1,2),(1,3)}` the call returns, two records
`(1,0)` are generated and the returned count is 1. -/
theorem project_bipart_dedup_witness :
    ∃ r, project_bipart insertionQsort zeroMem zeroMem [0, 0, 1, 1] [2, 3, 2, 3] [1, 1, 1, 1] 4
        (fun _ => 0) (fun _ => 0) (fun _ => 0) = some r ∧
      r.ret = (((r.generated.map (fun p => (p.node1, p.node2))).dedup.length : Nat) : Int) ∧
      r.generated.length = 2 ∧ r.ret = 1 := by
  have hth := project_bipart_dedup insertionQsort insertionQsort_spec zeroMem zeroMem
    [0, 0, 1, 1] [2, 3, 2, 3] [1, 1, 1, 1] 4 (fun _ => 0) (fun _ => 0) (fun _ => 0)
  obtain ⟨r, hr, _⟩ := hth.1 (by simp) ⟨0, 2, by decide, by decide, by decide, by decide⟩
  obtain ⟨hrt, _, _⟩ := project_bipart_of_some _ _ _ _ _ _ _ _ _ _ r hr
  have hlen : r.generated.length = 2 := by rw [hrt]; decide
  have hret : r.ret = 1 := by rw [hrt]; decide
  exact ⟨r, hr, (hth.2.1 r hr (by rw [hlen]; decide)).2.2.2.2, hlen, hret⟩

/-- C14 (code defect): under the `qsort` contract the generating loop writes one
record for each pair of positions `y < x` of the sorted buffer with the same
`node2`, carrying the product of the two weights, so that the number `j` of
records written is the sum, over the `node2` values, of `d * (d - 1) / 2` for
the `d` sorted edges with that value.  For `E ≤ 65536` the capacity `Emax` of
the counting pass equals `j`, so every write `projected[j]` is inside the
buffer, and the call returns when a record is written.  This fails for larger
inputs: the counting pass computes
`degree * (degree-1)` in `unsigned int`, and for 65537 edges sharing one
`node2` it allocates `Emax = 32768` records while 2147516416 records are
written; the call does not return. -/
theorem project_bipart_capacity (qsort : List Edge → List Edge) (hq : QsortSpec qsort)
    (mem_ed mem_proj : Nat → Edge) (nd_in nd_out : List Nat) (weights : List ℚ) (E : Nat)
    (proj1 proj2 : Nat → Nat) (projW : Nat → ℚ) :
    (project_bipart_trace qsort mem_ed mem_proj nd_in nd_out weights E
        proj1 proj2 projW).generated =
      allPairs (project_bipart_trace qsort mem_ed mem_proj nd_in nd_out weights E
        proj1 proj2 projW).ed mem_ed E ∧
    (∀ ex ey : Edge, (pairEdge ex ey).strength = ex.strength * ey.strength) ∧
    (project_bipart_trace qsort mem_ed mem_proj nd_in nd_out weights E
        proj1 proj2 projW).generated.length =
      ∑ c in ((project_bipart_trace qsort mem_ed mem_proj nd_in nd_out weights E
          proj1 proj2 projW).ed.map (fun e => e.node2)).toFinset,
        ((project_bipart_trace qsort mem_ed mem_proj nd_in nd_out weights E
          proj1 proj2 projW).ed.filter (fun e => decide (e.node2 = c))).length *
        (((project_bipart_trace qsort mem_ed mem_proj nd_in nd_out weights E
          proj1 proj2 projW).ed.filter (fun e => decide (e.node2 = c))).length - 1) / 2 ∧
    (E ≤ 65536 →
      (project_bipart_trace qsort mem_ed mem_proj nd_in nd_out weights E
        proj1 proj2 projW).Emax =
        (project_bipart_trace qsort mem_ed mem_proj nd_in nd_out weights E
          proj1 proj2 projW).generated.length ∧
      (0 < (project_bipart_trace qsort mem_ed mem_proj nd_in nd_out weights E
          proj1 proj2 projW).generated.length →
        project_bipart qsort mem_ed mem_proj nd_in nd_out weights E proj1 proj2 projW =
          some (project_bipart_trace qsort mem_ed mem_proj nd_in nd_out weights E
            proj1 proj2 projW))) ∧
    (∀ r, project_bipart qsort mem_ed mem_proj nd_in nd_out weights E
        proj1 proj2 projW = some r →
      r = project_bipart_trace qsort mem_ed mem_proj nd_in nd_out weights E
        proj1 proj2 projW ∧ r.generated.length ≤ r.Emax) ∧
    (∀ (nd_in1 : List Nat) (weights1 : List ℚ),
      (project_bipart_trace qsort mem_ed mem_proj nd_in1 (List.replicate 65537 0) weights1 65537
        proj1 proj2 projW).Emax = 32768 ∧
      (project_bipart_trace qsort mem_ed mem_proj nd_in1 (List.replicate 65537 0) weights1 65537
        proj1 proj2 projW).generated.length = 2147516416 ∧
      project_bipart qsort mem_ed mem_proj nd_in1 (List.replicate 65537 0) weights1 65537
        proj1 proj2 projW = none) := by
  obtain ⟨c1, c2, c3, c4, c5⟩ := trace_capacity qsort hq mem_ed mem_proj nd_in nd_out weights E
    proj1 proj2 projW
  refine ⟨c1, c2, c3, ?_, ?_, ?_⟩
  · intro hE
    exact ⟨c4 hE, fun _ => project_bipart_small qsort mem_ed mem_proj nd_in nd_out weights E
      proj1 proj2 projW hE⟩
  · intro r hr
    obtain ⟨h1, h2, _⟩ := project_bipart_of_some qsort mem_ed mem_proj nd_in nd_out weights E
      proj1 proj2 projW r hr
    exact ⟨h1, h2⟩
  · intro nd_in1 weights1
    obtain ⟨h1, h2⟩ := c5 nd_in1 weights1
    exact ⟨h1, h2, (project_bipart_overflow qsort hq mem_ed mem_proj nd_in1
      weights1 proj1 proj2 projW).1⟩

/-- Witness for C14: on `{(0,2),(0,3),(1,2),(1,3)}` the capacity and the number
of records written are both 2, and the call returns. -/
theorem project_bipart_capacity_witness :
    ∃ r, project_bipart insertionQsort zeroMem zeroMem [0, 0, 1, 1] [2, 3, 2, 3] [1, 1, 1, 1] 4
        (fun _ => 0) (fun _ => 0) (fun _ => 0) = some r ∧
      r.Emax = r.generated.length ∧ r.generated.length = 2 :=
  ⟨_, ((project_bipart_capacity insertionQsort insertionQsort_spec zeroMem zeroMem
      [0, 0, 1, 1] [2, 3, 2, 3] [1, 1, 1, 1] 4 (fun _ => 0) (fun _ => 0) (fun _ => 0)).2.2.2.1
        (by simp)).2 (by decide),
    ((project_bipart_capacity insertionQsort insertionQsort_spec zeroMem zeroMem
      [0, 0, 1, 1] [2, 3, 2, 3] [1, 1, 1, 1] 4 (fun _ => 0) (fun _ => 0) (fun _ => 0)).2.2.2.1
        (by simp)).1,
    by decide⟩

/-- C15, as amended: the call returns, having generated a pair, for every
input of at most 65536 edges in which two edges share an `nd_out` id; and
whenever it returns, having generated at least one pair, the final list is
in ascending lexicographic order of `(node2, node1)`: of two consecutive
entries the earlier has the smaller `node2`, or the same `node2` and a smaller
`node1`. -/
theorem project_bipart_final_order (qsort : List Edge → List Edge) (hq : QsortSpec qsort)
    (mem_ed mem_proj : Nat → Edge) (nd_in nd_out : List Nat) (weights : List ℚ) (E : Nat)
    (proj1 proj2 : Nat → Nat) (projW : Nat → ℚ) :
    (E ≤ 65536 → (∃ i j, i < E ∧ j < E ∧ i ≠ j ∧ nd_out.getD i 0 = nd_out.getD j 0) →
      ∃ r, project_bipart qsort mem_ed mem_proj nd_in nd_out weights E
        proj1 proj2 projW = some r ∧ 0 < r.generated.length) ∧
    (∀ r, project_bipart qsort mem_ed mem_proj nd_in nd_out weights E
        proj1 proj2 projW = some r →
      0 < r.generated.length →
      ∀ k, k + 1 < r.ret.toNat →
        r.nodes2 k < r.nodes2 (k + 1) ∨
        (r.nodes2 k = r.nodes2 (k + 1) ∧ r.nodes1 k < r.nodes1 (k + 1))) := by
  refine ⟨?_, ?_⟩
  · intro hE hs
    exact project_bipart_pairs qsort hq mem_ed mem_proj nd_in nd_out weights E
      proj1 proj2 projW hE hs
  · intro r hr hj
    obtain ⟨rfl, _, _⟩ := project_bipart_of_some qsort mem_ed mem_proj nd_in nd_out weights E
      proj1 proj2 projW r hr
    exact trace_final_order qsort hq mem_ed mem_proj nd_in nd_out weights E proj1 proj2 projW hj

/-- Witness for C15 (amended): the groups `{1,5}` and `{2,3}` give the final
list `(5,1), (3,2)`, ascending in `node2`. -/
theorem project_bipart_final_order_witness :
    ∃ r, project_bipart insertionQsort zeroMem zeroMem [1, 5, 2, 3] [0, 0, 1, 1] [1, 1, 1, 1] 4
        (fun _ => 0) (fun _ => 0) (fun _ => 0) = some r ∧
      (r.nodes2 0 < r.nodes2 1 ∨ (r.nodes2 0 = r.nodes2 1 ∧ r.nodes1 0 < r.nodes1 1)) := by
  have hth := project_bipart_final_order insertionQsort insertionQsort_spec zeroMem zeroMem
    [1, 5, 2, 3] [0, 0, 1, 1] [1, 1, 1, 1] 4 (fun _ => 0) (fun _ => 0) (fun _ => 0)
  obtain ⟨r, hr, _⟩ := hth.1 (by simp) ⟨0, 1, by decide, by decide, by decide, by decide⟩
  obtain ⟨hrt, _, _⟩ := project_bipart_of_some _ _ _ _ _ _ _ _ _ _ r hr
  exact ⟨r, hr, hth.2 r hr (by rw [hrt]; decide) 0 (by rw [hrt]; decide)⟩

/-- Counterexample to C15 as stated: for `nd_in = (1,5,2,3)`, `nd_out = (0,0,1,1)`
the call returns a final list of two entries, `(5,1)` and `(3,2)` in this
order; the earlier entry has neither the smaller `node1` nor the same `node1`
and a smaller `node2`. -/
theorem project_bipart_final_order_counterexample :
    ∃ r, project_bipart insertionQsort zeroMem zeroMem [1, 5, 2, 3] [0, 0, 1, 1] [1, 1, 1, 1] 4
        (fun _ => 0) (fun _ => 0) (fun _ => 0) = some r ∧
      r.ret = 2 ∧ r.nodes1 0 = 5 ∧ r.nodes2 0 = 1 ∧ r.nodes1 1 = 3 ∧ r.nodes2 1 = 2 ∧
      ¬ (r.nodes1 0 < r.nodes1 1 ∨ (r.nodes1 0 = r.nodes1 1 ∧ r.nodes2 0 < r.nodes2 1)) :=
  ⟨_, project_bipart_small insertionQsort zeroMem zeroMem _ _ _ 4 _ _ _ (by simp),
    by decide, by decide, by decide, by decide, by decide, by decide⟩

/-- The capacity counted depends only on where the `node2` of the records read
changes. -/
theorem countEmax_congr (ed ed1 : List Edge) (mem mem1 : Nat → Edge) (count : Nat)
    (h : ∀ i, i + 1 < count →
      ((rd ed mem i).node2 = (rd ed mem (i + 1)).node2 ↔
        (rd ed1 mem1 i).node2 = (rd ed1 mem1 (i + 1)).node2)) :
    countEmax ed mem count = countEmax ed1 mem1 count := by
  unfold countEmax
  congr 1
  apply List.foldl_ext
  intro s i hi
  have hi' : i < count := List.mem_range.mp hi
  have hg : groupEnds ed mem count i ↔ groupEnds ed1 mem1 count i := by
    unfold groupEnds
    by_cases hc : i + 1 = count
    · simp [hc]
    · rw [Ne, Ne, h i (by omega)]
  unfold emaxStep
  by_cases hge : groupEnds ed mem count i
  · rw [if_pos hge, if_pos (hg.mp hge)]
  · rw [if_neg hge, if_neg (fun h1 => hge (hg.mpr h1))]

/-- Two runs on rearrangements of the same records count the same capacity and
write the same number of records. -/
theorem trace_counts_rearranged (qsort : List Edge → List Edge) (hq : QsortSpec qsort)
    (mem_ed mem_proj mem_ed1 mem_proj1 : Nat → Edge)
    (nd_in nd_out : List Nat) (weights : List ℚ) (E : Nat)
    (nd_in1 nd_out1 : List Nat) (weights1 : List ℚ) (E1 : Nat)
    (proj1 proj2 : Nat → Nat) (projW : Nat → ℚ)
    (hperm : (loadEdges nd_in1 nd_out1 weights1 E1).Perm (loadEdges nd_in nd_out weights E)) :
    (project_bipart_trace qsort mem_ed1 mem_proj1 nd_in1 nd_out1 weights1 E1
      proj1 proj2 projW).Emax =
      (project_bipart_trace qsort mem_ed mem_proj nd_in nd_out weights E
        proj1 proj2 projW).Emax ∧
    (project_bipart_trace qsort mem_ed1 mem_proj1 nd_in1 nd_out1 weights1 E1
      proj1 proj2 projW).generated.length =
      (project_bipart_trace qsort mem_ed mem_proj nd_in nd_out weights E
        proj1 proj2 projW).generated.length := by
  obtain ⟨bp, bs, bl, _, _, _⟩ := project_bipart_buffers qsort hq mem_ed mem_proj
    nd_in nd_out weights E proj1 proj2 projW
  obtain ⟨bp1, bs1, bl1, _, _, _⟩ := project_bipart_buffers qsort hq mem_ed1 mem_proj1
    nd_in1 nd_out1 weights1 E1 proj1 proj2 projW
  have hed : (project_bipart_trace qsort mem_ed1 mem_proj1 nd_in1 nd_out1 weights1 E1
      proj1 proj2 projW).ed.Perm
      (project_bipart_trace qsort mem_ed mem_proj nd_in nd_out weights E
        proj1 proj2 projW).ed := bp1.trans (hperm.trans bp.symm)
  have hE : E1 = E := by
    have := hperm.length_eq
    rw [loadEdges_length, loadEdges_length] at this
    exact this
  subst hE
  refine ⟨?_, ?_⟩
  · rw [project_bipart_Emax, project_bipart_Emax]
    apply countEmax_congr
    intro i hi
    obtain ⟨_, k0⟩ := sorted_keys_eq _ _ mem_ed1 mem_ed hed bs1 bs i (by rw [bl1]; omega)
    obtain ⟨_, k1⟩ := sorted_keys_eq _ _ mem_ed1 mem_ed hed bs1 bs (i + 1) (by rw [bl1]; omega)
    rw [k0, k1]
  · rw [(trace_capacity qsort hq mem_ed1 mem_proj1 nd_in1 nd_out1 weights1 E1
        proj1 proj2 projW).2.2.1,
      (trace_capacity qsort hq mem_ed mem_proj nd_in nd_out weights E1
        proj1 proj2 projW).2.2.1,
      List.toFinset_eq_of_perm _ _ (hed.map _)]
    apply Finset.sum_congr rfl
    intro c _
    rw [(hed.filter _).length_eq]

/-- Two calls on rearrangements of the same records return or fail together,
and when both return, having generated a pair, they return the same count and
the same final list. -/
theorem project_bipart_rearranged_opt (qsort : List Edge → List Edge) (hq : QsortSpec qsort)
    (mem_ed mem_proj mem_ed1 mem_proj1 : Nat → Edge)
    (nd_in nd_out : List Nat) (weights : List ℚ) (E : Nat)
    (nd_in1 nd_out1 : List Nat) (weights1 : List ℚ) (E1 : Nat)
    (proj1 proj2 : Nat → Nat) (projW : Nat → ℚ)
    (hperm : (loadEdges nd_in1 nd_out1 weights1 E1).Perm (loadEdges nd_in nd_out weights E)) :
    (project_bipart qsort mem_ed1 mem_proj1 nd_in1 nd_out1 weights1 E1 proj1 proj2 projW = none ↔
      project_bipart qsort mem_ed mem_proj nd_in nd_out weights E proj1 proj2 projW = none) ∧
    (∀ r r1,
      project_bipart qsort mem_ed mem_proj nd_in nd_out weights E proj1 proj2 projW = some r →
      project_bipart qsort mem_ed1 mem_proj1 nd_in1 nd_out1 weights1 E1
        proj1 proj2 projW = some r1 →
      0 < r.generated.length →
      r1.ret = r.ret ∧ finalList r1 = finalList r) := by
  obtain ⟨hEm, hG⟩ := trace_counts_rearranged qsort hq mem_ed mem_proj mem_ed1 mem_proj1
    nd_in nd_out weights E nd_in1 nd_out1 weights1 E1 proj1 proj2 projW hperm
  refine ⟨?_, ?_⟩
  · rw [project_bipart_eq, project_bipart_eq, hEm, hG]
    split <;> simp
  · intro r r1 hr hr1 hj
    obtain ⟨rfl, _, _⟩ := project_bipart_of_some qsort mem_ed mem_proj nd_in nd_out weights E
      proj1 proj2 projW r hr
    obtain ⟨rfl, _, _⟩ := project_bipart_of_some qsort mem_ed1 mem_proj1 nd_in1 nd_out1
      weights1 E1 proj1 proj2 projW r1 hr1
    exact project_bipart_rearranged qsort hq mem_ed mem_proj mem_ed1 mem_proj1 nd_in nd_out
      weights E nd_in1 nd_out1 weights1 E1 proj1 proj2 projW hperm hj

/-! ## Theorem on `project_bipart` under a rearrangement of the input -/

/-- C19: under the `qsort` contract the outcome of `project_bipart` depends only
on the multiset of the input edges `(nd_in[i], nd_out[i], weights[i])`.  On
every input whose edges are a rearrangement of them, and in particular on the
arrays `nd_in`, `nd_out`, `weights` rearranged by one and the same permutation
`σ` of the positions, the call returns exactly when it returns on the original
input, and when at least one pair is generated the returned count and the
final list (endpoint pairs and summed weights, over exact arithmetic) are the
same.  The call returns, having generated a pair, for every input of at most
65536 edges in which two edges share an `nd_out` id.  The contents of memory
past the buffers may differ between the two runs. -/
theorem project_bipart_multiset (qsort : List Edge → List Edge) (hq : QsortSpec qsort)
    (mem_ed mem_proj mem_ed1 mem_proj1 : Nat → Edge)
    (nd_in nd_out : List Nat) (weights : List ℚ) (E : Nat)
    (proj1 proj2 : Nat → Nat) (projW : Nat → ℚ) :
    (∀ (nd_in1 nd_out1 : List Nat) (weights1 : List ℚ) (E1 : Nat),
      (loadEdges nd_in1 nd_out1 weights1 E1).Perm (loadEdges nd_in nd_out weights E) →
      (project_bipart qsort mem_ed1 mem_proj1 nd_in1 nd_out1 weights1 E1
          proj1 proj2 projW = none ↔
        project_bipart qsort mem_ed mem_proj nd_in nd_out weights E proj1 proj2 projW = none) ∧
      (∀ r r1,
        project_bipart qsort mem_ed mem_proj nd_in nd_out weights E proj1 proj2 projW = some r →
        project_bipart qsort mem_ed1 mem_proj1 nd_in1 nd_out1 weights1 E1
          proj1 proj2 projW = some r1 →
        0 < r.generated.length →
        r1.ret = r.ret ∧ finalList r1 = finalList r)) ∧
    (∀ σ : List Nat, σ.Perm (List.range E) →
      (project_bipart qsort mem_ed1 mem_proj1 (σ.map (fun i => nd_in.getD i 0))
          (σ.map (fun i => nd_out.getD i 0)) (σ.map (fun i => weights.getD i 0)) E
          proj1 proj2 projW = none ↔
        project_bipart qsort mem_ed mem_proj nd_in nd_out weights E proj1 proj2 projW = none) ∧
      (∀ r r1,
        project_bipart qsort mem_ed mem_proj nd_in nd_out weights E proj1 proj2 projW = some r →
        project_bipart qsort mem_ed1 mem_proj1 (σ.map (fun i => nd_in.getD i 0))
          (σ.map (fun i => nd_out.getD i 0)) (σ.map (fun i => weights.getD i 0)) E
          proj1 proj2 projW = some r1 →
        0 < r.generated.length →
        r1.ret = r.ret ∧ finalList r1 = finalList r)) ∧
    (E ≤ 65536 → (∃ i j, i < E ∧ j < E ∧ i ≠ j ∧ nd_out.getD i 0 = nd_out.getD j 0) →
      ∃ r, project_bipart qsort mem_ed mem_proj nd_in nd_out weights E
        proj1 proj2 projW = some r ∧ 0 < r.generated.length) :=
  ⟨fun nd_in1 nd_out1 weights1 E1 hperm =>
      project_bipart_rearranged_opt qsort hq mem_ed mem_proj mem_ed1 mem_proj1 nd_in nd_out
        weights E nd_in1 nd_out1 weights1 E1 proj1 proj2 projW hperm,
    fun σ hσ =>
      project_bipart_rearranged_opt qsort hq mem_ed mem_proj mem_ed1 mem_proj1 nd_in nd_out
        weights E _ _ _ E proj1 proj2 projW (loadEdges_rearranged nd_in nd_out weights E σ hσ),
    fun hE hs => project_bipart_pairs qsort hq mem_ed mem_proj nd_in nd_out weights E
      proj1 proj2 projW hE hs⟩

/-- Witness for C19: the edges `(0,2,1), (0,3,2), (1,2,3), (1,3,4)` and the same
edges in the order of the positions 3, 0, 2, 1: both calls return, with the
same final list. -/
theorem project_bipart_multiset_witness :
    ∃ r r1,
      project_bipart insertionQsort zeroMem zeroMem [0, 0, 1, 1] [2, 3, 2, 3]
        [1, 2, 3, 4] 4 (fun _ => 0) (fun _ => 0) (fun _ => 0) = some r ∧
      project_bipart insertionQsort zeroMem zeroMem
        ([3, 0, 2, 1].map (fun i => [0, 0, 1, 1].getD i 0))
        ([3, 0, 2, 1].map (fun i => [2, 3, 2, 3].getD i 0))
        ([3, 0, 2, 1].map (fun i => ([1, 2, 3, 4] : List ℚ).getD i 0)) 4
        (fun _ => 0) (fun _ => 0) (fun _ => 0) = some r1 ∧
      finalList r1 = finalList r := by
  have hth := project_bipart_multiset insertionQsort insertionQsort_spec zeroMem zeroMem
    zeroMem zeroMem [0, 0, 1, 1] [2, 3, 2, 3] [1, 2, 3, 4] 4
    (fun _ => 0) (fun _ => 0) (fun _ => 0)
  obtain ⟨r, hr, _⟩ := hth.2.2 (by simp) ⟨0, 2, by decide, by decide, by decide, by decide⟩
  obtain ⟨hrt, _, _⟩ := project_bipart_of_some _ _ _ _ _ _ _ _ _ _ r hr
  have hr1 := project_bipart_small insertionQsort zeroMem zeroMem
    ([3, 0, 2, 1].map (fun i => [0, 0, 1, 1].getD i 0))
    ([3, 0, 2, 1].map (fun i => [2, 3, 2, 3].getD i 0))
    ([3, 0, 2, 1].map (fun i => ([1, 2, 3, 4] : List ℚ).getD i 0)) 4
    (fun _ => 0) (fun _ => 0) (fun _ => 0) (by simp)
  exact ⟨r, _, hr, hr1,
    ((hth.2.1 [3, 0, 2, 1] (by decide)).2 r _ hr hr1 (by rw [hrt]; decide)).2⟩

/-! ## Theorems on `GetRole` -/

/-- For a double that is not NaN, `c <= x` holds exactly when `x < c` does not. -/
theorem Dbl.geConst_eq_not_ltConst (x : Dbl) (c : ℚ) (hx : x ≠ Dbl.nan) :
    x.geConst c = !x.ltConst c := by
  cases x with
  | nan => exact absurd rfl hx
  | ninf => rfl
  | pinf => rfl
  | fin a =>
    simp only [Dbl.geConst, Dbl.ltConst]
    by_cases h : a < c
    · simp [h]
    · simp [h, not_lt.mp h]

/-- A comparison with NaN is false. -/
theorem Dbl.nan_compare (c : ℚ) :
    Dbl.nan.ltConst c = false ∧ Dbl.nan.geConst c = false := ⟨rfl, rfl⟩

/-- C8, as amended: `GetRole` is total, its result lies in `[0, 6]`, and for
doubles `P`, `z` (finite or infinite) it equals the threshold table, the
thresholds being the double constants of the source: for `z < 2.5` the result
is 0 when `P < 0.05`, 1 when `0.05 <= P < 0.62`, 2 when `0.62 <= P < 0.80` and
3 when `P >= 0.80`; for `z >= 2.5` it is 4 when `P < 0.30`, 5 when
`0.30 <= P < 0.75` and 6 when `P >= 0.75`.  For `z` not NaN the result is at
least 4 exactly when `z >= 2.5`.  When `z` is NaN the hub branch is taken
(result 4, 5 or 6 by the same thresholds on `P`); when `P` is NaN the result
is 3 for `z < 2.5` and 6 otherwise.  A value equal to a threshold falls in the
higher role: `GetRole(0.049, 2.4) = 0`, `GetRole(0.05, 2.4) = 1`,
`GetRole(0.0, 2.5) = 4`, `GetRole(0.8, 1.0) = 3`, the arguments being the
doubles these literals stand for; so do `GetRole(0.62, 1.0) = 2`,
`GetRole(0.3, 2.5) = 5` and `GetRole(0.75, 2.5) = 6`. -/
theorem GetRole_table (P z : Dbl) :
    (z.ltConst c2_5 = true →
      (P.ltConst c0_050 = true → GetRole P z = 0) ∧
      (P.geConst c0_050 = true → P.ltConst c0_620 = true → GetRole P z = 1) ∧
      (P.geConst c0_620 = true → P.ltConst c0_800 = true → GetRole P z = 2) ∧
      (P.geConst c0_800 = true → GetRole P z = 3) ∧
      (P = Dbl.nan → GetRole P z = 3)) ∧
    (z.geConst c2_5 = true ∨ z = Dbl.nan →
      (P.ltConst c0_300 = true → GetRole P z = 4) ∧
      (P.geConst c0_300 = true → P.ltConst c0_750 = true → GetRole P z = 5) ∧
      (P.geConst c0_750 = true → GetRole P z = 6) ∧
      (P = Dbl.nan → GetRole P z = 6)) ∧
    (z.ltConst c2_5 = true ∨ z.geConst c2_5 = true ∨ z = Dbl.nan) ∧
    (P ≠ Dbl.nan →
      (P.ltConst c0_050 = true ∨ (P.geConst c0_050 = true ∧ P.ltConst c0_620 = true) ∨
        (P.geConst c0_620 = true ∧ P.ltConst c0_800 = true) ∨ P.geConst c0_800 = true) ∧
      (P.ltConst c0_300 = true ∨ (P.geConst c0_300 = true ∧ P.ltConst c0_750 = true) ∨
        P.geConst c0_750 = true)) ∧
    (0 ≤ GetRole P z ∧ GetRole P z ≤ 6) ∧
    (z ≠ Dbl.nan → (4 ≤ GetRole P z ↔ z.geConst c2_5 = true)) ∧
    (z = Dbl.nan → 4 ≤ GetRole P z) ∧
    GetRole (Dbl.fin (3530822107858469 / 72057594037927936))
      (Dbl.fin (5404319552844595 / 2251799813685248)) = 0 ∧
    GetRole (Dbl.fin c0_050) (Dbl.fin (5404319552844595 / 2251799813685248)) = 1 ∧
    GetRole (Dbl.fin 0) (Dbl.fin c2_5) = 4 ∧
    GetRole (Dbl.fin c0_800) (Dbl.fin 1) = 3 ∧
    GetRole (Dbl.fin c0_620) (Dbl.fin 1) = 2 ∧
    GetRole (Dbl.fin c0_300) (Dbl.fin c2_5) = 5 ∧
    GetRole (Dbl.fin c0_750) (Dbl.fin c2_5) = 6 := by
  have e1 : (3530822107858469 / 72057594037927936 : ℚ) < c0_050 := by norm_num [c0_050]
  have e2 : (5404319552844595 / 2251799813685248 : ℚ) < c2_5 := by norm_num [c2_5]
  have e3 : c0_050 < c0_620 := by norm_num [c0_050, c0_620]
  have e4 : c0_620 < c0_800 := by norm_num [c0_620, c0_800]
  have e5 : (0 : ℚ) < c0_300 := by norm_num [c0_300]
  have e6 : (1 : ℚ) < c2_5 := by norm_num [c2_5]
  have e7 : c0_300 < c0_750 := by norm_num [c0_300, c0_750]
  refine ⟨?_, ?_, ?_, ?_, ?_, ?_, ?_, ?_, ?_, ?_, ?_, ?_, ?_, ?_⟩
  · intro hz
    refine ⟨?_, ?_, ?_, ?_, ?_⟩
    · intro h1
      rw [GetRole, if_pos hz]; simp [h1]
    · intro h1 h2
      cases P with
      | nan => simp [Dbl.geConst] at h1
      | ninf => simp [Dbl.geConst] at h1
      | pinf => simp [Dbl.ltConst] at h2
      | fin a =>
        simp only [Dbl.geConst, Dbl.ltConst, decide_eq_true_eq] at h1 h2
        rw [GetRole, if_pos hz]; simp [Dbl.ltConst, not_lt.mpr h1, h2]
    · intro h1 h2
      cases P with
      | nan => simp [Dbl.geConst] at h1
      | ninf => simp [Dbl.geConst] at h1
      | pinf => simp [Dbl.ltConst] at h2
      | fin a =>
        simp only [Dbl.geConst, Dbl.ltConst, decide_eq_true_eq] at h1 h2
        rw [GetRole, if_pos hz]; simp [Dbl.ltConst, not_lt.mpr h1, h2,
          not_lt.mpr (le_trans (le_of_lt e3) h1)]
    · intro h1
      cases P with
      | nan => simp [Dbl.geConst] at h1
      | ninf => simp [Dbl.geConst] at h1
      | pinf => rw [GetRole, if_pos hz]; simp [Dbl.ltConst]
      | fin a =>
        simp only [Dbl.geConst, decide_eq_true_eq] at h1
        rw [GetRole, if_pos hz]; simp [Dbl.ltConst, not_lt.mpr h1,
          not_lt.mpr (le_trans (le_of_lt e4) h1),
          not_lt.mpr (le_trans (le_of_lt e3) (le_trans (le_of_lt e4) h1))]
    · rintro rfl
      rw [GetRole, if_pos hz]; simp [Dbl.ltConst]
  · intro hz
    have hz' : z.ltConst c2_5 = false := by
      rcases hz with hz | rfl
      · cases z with
        | nan => rfl
        | ninf => simp [Dbl.geConst] at hz
        | pinf => rfl
        | fin a =>
          simp only [Dbl.geConst, decide_eq_true_eq] at hz
          simp [Dbl.ltConst, not_lt.mpr hz]
      · rfl
    refine ⟨?_, ?_, ?_, ?_⟩
    · intro h1
      rw [GetRole, if_neg (by simp [hz'])]; simp [h1]
    · intro h1 h2
      cases P with
      | nan => simp [Dbl.geConst] at h1
      | ninf => simp [Dbl.geConst] at h1
      | pinf => simp [Dbl.ltConst] at h2
      | fin a =>
        simp only [Dbl.geConst, Dbl.ltConst, decide_eq_true_eq] at h1 h2
        rw [GetRole, if_neg (by simp [hz'])]; simp [Dbl.ltConst, not_lt.mpr h1, h2]
    · intro h1
      cases P with
      | nan => simp [Dbl.geConst] at h1
      | ninf => simp [Dbl.geConst] at h1
      | pinf => rw [GetRole, if_neg (by simp [hz'])]; simp [Dbl.ltConst]
      | fin a =>
        simp only [Dbl.geConst, decide_eq_true_eq] at h1
        rw [GetRole, if_neg (by simp [hz'])]; simp [Dbl.ltConst, not_lt.mpr h1,
          not_lt.mpr (le_trans (le_of_lt e7) h1)]
    · rintro rfl
      rw [GetRole, if_neg (by simp [hz'])]; simp [Dbl.ltConst]
  · cases z with
    | nan => exact Or.inr (Or.inr rfl)
    | ninf => exact Or.inl rfl
    | pinf => exact Or.inr (Or.inl rfl)
    | fin a =>
      by_cases h : a < c2_5
      · exact Or.inl (by simp [Dbl.ltConst, h])
      · exact Or.inr (Or.inl (by simp [Dbl.geConst, not_lt.mp h]))
  · intro hP
    cases P with
    | nan => exact absurd rfl hP
    | ninf => exact ⟨Or.inl rfl, Or.inl rfl⟩
    | pinf => exact ⟨Or.inr (Or.inr (Or.inr rfl)), Or.inr (Or.inr rfl)⟩
    | fin a =>
      simp only [Dbl.geConst, Dbl.ltConst, decide_eq_true_eq]
      refine ⟨?_, ?_⟩
      · by_cases h1 : a < c0_050
        · exact Or.inl h1
        · by_cases h2 : a < c0_620
          · exact Or.inr (Or.inl ⟨not_lt.mp h1, h2⟩)
          · by_cases h3 : a < c0_800
            · exact Or.inr (Or.inr (Or.inl ⟨not_lt.mp h2, h3⟩))
            · exact Or.inr (Or.inr (Or.inr (not_lt.mp h3)))
      · by_cases h1 : a < c0_300
        · exact Or.inl h1
        · by_cases h2 : a < c0_750
          · exact Or.inr (Or.inl ⟨not_lt.mp h1, h2⟩)
          · exact Or.inr (Or.inr (not_lt.mp h2))
  · unfold GetRole
    split_ifs <;> simp
  · intro hz
    rw [Dbl.geConst_eq_not_ltConst z c2_5 hz]
    unfold GetRole
    cases h : z.ltConst c2_5
    · simp only [Bool.false_eq_true, if_false, Bool.not_false, iff_true]
      split_ifs <;> simp
    · simp only [if_true, Bool.not_true, Bool.false_eq_true, iff_false]
      split_ifs <;> simp
  · rintro rfl
    simp only [GetRole, Dbl.ltConst, Bool.false_eq_true, if_false]
    split_ifs <;> simp
  · simp [GetRole, Dbl.ltConst, e1, e2]
  · simp [GetRole, Dbl.ltConst, e2, e3]
  · simp [GetRole, Dbl.ltConst, e5]
  · simp [GetRole, Dbl.ltConst, e6, e4, not_lt.mpr (le_of_lt e4),
      not_lt.mpr (le_trans (le_of_lt e3) (le_of_lt e4))]
  · simp [GetRole, Dbl.ltConst, e6, e4, not_lt.mpr (le_of_lt e3)]
  · simp [GetRole, Dbl.ltConst, e7]
  · simp [GetRole, Dbl.ltConst, not_lt.mpr (le_of_lt e7)]

/-- Counterexample to C8 as stated: for `P` the double `0.1` and `z` NaN the
code returns 4 (the comparison `z < 2.5` is false, so the hub branch is taken),
although `z >= 2.5` is false; the result is at least 4 without `z >= 2.5`. -/
theorem GetRole_table_counterexample :
    GetRole (Dbl.fin (3602879701896397 / 36028797018963968)) Dbl.nan = 4 ∧
    Dbl.nan.geConst c2_5 = false ∧
    ¬ (4 ≤ GetRole (Dbl.fin (3602879701896397 / 36028797018963968)) Dbl.nan ↔
      Dbl.nan.geConst c2_5 = true) := by
  have e : (3602879701896397 / 36028797018963968 : ℚ) < c0_300 := by norm_num [c0_300]
  have h : GetRole (Dbl.fin (3602879701896397 / 36028797018963968)) Dbl.nan = 4 := by
    simp [GetRole, Dbl.ltConst, e]
  refine ⟨h, rfl, ?_⟩
  rw [h]
  simp [Dbl.geConst]

/-! ## The text of a label stream and the loop of `AssignNodesToModulesFromFile` -/

/-- The separator character written after a label. -/
theorem sepChar_isSep (b : Bool) : isSep (if b then '\n' else '\t') = true := by
  cases b <;> rfl

theorem render_nil : render [] = [] := rfl

theorem render_cons (t : String × Bool) (rest : List (String × Bool)) :
    render (t :: rest) = t.1.data ++ (if t.2 then '\n' else '\t') :: render rest := by
  simp [render, List.flatMap_cons]

theorem render_append (l1 l2 : List (String × Bool)) :
    render (l1 ++ l2) = render l1 ++ render l2 := by
  simp [render, List.flatMap_append]

/-- The text of a stream of fitting labels is empty, or starts with a character
of a label. -/
theorem render_head (maxLabel : Nat) (toks : List (String × Bool))
    (hfit : LabelsFit maxLabel toks) :
    render toks = [] ∧ toks = [] ∨ ∃ c R, render toks = c :: R ∧ isSep c = false := by
  cases toks with
  | nil => exact Or.inl ⟨rfl, rfl⟩
  | cons t rest =>
    right
    obtain ⟨hne, hns, _⟩ := hfit t (List.mem_cons_self _ _)
    rw [render_cons]
    cases hd : t.1.data with
    | nil => exact absurd hd hne
    | cons c cs =>
      refine ⟨c, cs ++ (if t.2 then '\n' else '\t') :: render rest, rfl, ?_⟩
      exact hns c (by rw [hd]; exact List.mem_cons_self _ _)

theorem takeWhile_label (lab : List Char) (tl : List Char)
    (hlab : ∀ c ∈ lab, isSep c = false) (htl : tl = [] ∨ ∃ c R, tl = c :: R ∧ isSep c = true) :
    (lab ++ tl).takeWhile (fun x => !isSep x) = lab ∧
    (lab ++ tl).dropWhile (fun x => !isSep x) = tl := by
  induction lab with
  | nil =>
    rcases htl with rfl | ⟨c, R, rfl, hc⟩
    · exact ⟨rfl, rfl⟩
    · simp [List.takeWhile_cons, List.dropWhile_cons, hc]
  | cons a lab ih =>
    have ha := hlab a (List.mem_cons_self _ _)
    obtain ⟨h1, h2⟩ := ih (fun c hc => hlab c (List.mem_cons_of_mem _ hc))
    simp only [List.cons_append, List.takeWhile_cons, List.dropWhile_cons, ha, Bool.not_false,
      if_true, h1, h2, and_self]

theorem takeWhile_sep (sepc : Char) (tl : List Char) (hsep : isSep sepc = true)
    (htl : tl = [] ∨ ∃ c R, tl = c :: R ∧ isSep c = false) :
    (sepc :: tl).takeWhile isSep = [sepc] ∧ (sepc :: tl).dropWhile isSep = tl := by
  rcases htl with rfl | ⟨c, R, rfl, hc⟩
  · simp [List.takeWhile_cons, List.dropWhile_cons, hsep]
  · simp [List.takeWhile_cons, List.dropWhile_cons, hsep, hc]

/-- One iteration of the loop on a stream that starts with a fitting label
followed by one separator character. -/
theorem assignLoopFrom_step (labels : List String) (maxLabel fuel : Nat) (lab : List Char)
    (b : Bool) (tl : List Char) (s : LoadState)
    (hne : lab ≠ []) (hlab : ∀ c ∈ lab, isSep c = false) (hlen : lab.length < maxLabel)
    (htl : tl = [] ∨ ∃ c R, tl = c :: R ∧ isSep c = false) :
    assignLoopFrom labels maxLabel (fuel + 1) (lab ++ (if b then '\n' else '\t') :: tl) s =
      match assignStep labels s (String.mk lab, b) with
      | none => none
      | some s1 => if tl.isEmpty then some s1 else assignLoopFrom labels maxLabel fuel tl s1 := by
  obtain ⟨h1, h2⟩ := takeWhile_label lab ((if b then '\n' else '\t') :: tl) hlab
    (Or.inr ⟨_, _, rfl, sepChar_isSep b⟩)
  obtain ⟨h3, h4⟩ := takeWhile_sep (if b then '\n' else '\t') tl (sepChar_isSep b) htl
  have hb : (([(if b then '\n' else '\t')] : List Char).head? == some '\n') = b := by
    cases b <;> rfl
  cases hd : lab with
  | nil => exact absurd hd hne
  | cons c cs =>
    have hc : isSep c = false := hlab c (by rw [hd]; exact List.mem_cons_self _ _)
    rw [hd] at h1 h2 hlen
    simp only [List.cons_append] at h1 h2 ⊢
    rw [assignLoopFrom]
    simp only [hc, Bool.false_eq_true, if_false, h1, h2, h3, h4, hb,
      if_neg (not_le.mpr hlen), List.length_singleton]
    cases assignStep labels s (String.mk (c :: cs), b) with
    | none => rfl
    | some s1 =>
      cases tl with
      | nil => simp
      | cons x xs => simp

/-- On the text of a non-empty stream of fitting labels, each followed by one
separator character, the loop runs the body once for every label. -/
theorem assignLoopFrom_render (labels : List String) (maxLabel : Nat)
    (toks : List (String × Bool)) :
    ∀ (fuel : Nat) (s : LoadState), toks ≠ [] → LabelsFit maxLabel toks →
      toks.length ≤ fuel →
      assignLoopFrom labels maxLabel fuel (render toks) s =
        toks.foldlM (assignStep labels) s := by
  induction toks with
  | nil => intro _ _ h; exact absurd rfl h
  | cons t rest ih =>
    intro fuel s _ hfit hfuel
    obtain ⟨hne, hns, hlen⟩ := hfit t (List.mem_cons_self _ _)
    have hfit1 : LabelsFit maxLabel rest := fun x hx => hfit x (List.mem_cons_of_mem _ hx)
    cases fuel with
    | zero => simp at hfuel
    | succ f =>
      have hhead := render_head maxLabel rest hfit1
      rw [render_cons, assignLoopFrom_step labels maxLabel f t.1.data t.2 (render rest) s hne hns hlen
        (by
          rcases hhead with ⟨h, _⟩ | h
          · exact Or.inl h
          · exact Or.inr h)]
      rw [List.foldlM_cons]
      have ht : (String.mk t.1.data, t.2) = t := by
        cases t with
        | mk a b => rfl
      rw [ht]
      cases hst : assignStep labels s t with
      | none => rfl
      | some s1 =>
        simp only [Option.bind_eq_bind, Option.some_bind]
        rcases hhead with ⟨h, hr⟩ | ⟨c, R, h, _⟩
        · rw [h, hr]
          rfl
        · have hrne : rest ≠ [] := by
            intro hr
            rw [hr, render_nil] at h
            cases h
          rw [h]
          simp only [List.isEmpty_cons, Bool.false_eq_true, if_false]
          rw [← h]
          exact ih f s1 hrne hfit1 (by simpa using hfuel)

theorem render_length_ge (toks : List (String × Bool)) : toks.length ≤ (render toks).length := by
  induction toks with
  | nil => simp
  | cons t rest ih =>
    rw [render_cons]
    simp only [List.length_cons, List.length_append]
    omega

/-- On the text of a non-empty stream of fitting labels the loop
`assignLoop` is the body run over the tokens. -/
theorem assignLoop_render (labels : List String) (maxLabel : Nat)
    (toks : List (String × Bool)) (part : Partition)
    (hne : toks ≠ []) (hfit : LabelsFit maxLabel toks) :
    assignLoop labels maxLabel (render toks) part = assignTokens labels toks part :=
  assignLoopFrom_render labels maxLabel toks _ _ hne hfit (render_length_ge toks)

/-- The newline characters of the text are the newline separators. -/
theorem count_newline_render (maxLabel : Nat) (toks : List (String × Bool))
    (hfit : LabelsFit maxLabel toks) :
    (render toks).count '\n' = (toks.filter (fun t => t.2)).length := by
  induction toks with
  | nil => rfl
  | cons t rest ih =>
    obtain ⟨_, hns, _⟩ := hfit t (List.mem_cons_self _ _)
    have hfit1 : LabelsFit maxLabel rest := fun x hx => hfit x (List.mem_cons_of_mem _ hx)
    have h0 : t.1.data.count '\n' = 0 := by
      rw [List.count_eq_zero]
      intro hmem
      have := hns _ hmem
      simp [isSep] at this
    rw [render_cons, List.count_append, h0, List.count_cons, ih hfit1, List.filter_cons]
    cases t.2 <;> simp

/-- The text line on which label `k` starts is the number of newline separators
before it. -/
theorem textLine_tokenStart (maxLabel : Nat) (toks : List (String × Bool))
    (hfit : LabelsFit maxLabel toks) (k : Nat) :
    textLine (render toks) (tokenStart toks k) = lineIndex toks k := by
  unfold textLine tokenStart lineIndex
  have hsplit : render toks = render (toks.take k) ++ render (toks.drop k) := by
    rw [← render_append, List.take_append_drop]
  rw [hsplit, List.take_left]
  exact count_newline_render maxLabel (toks.take k)
    (fun t ht => hfit t (List.mem_of_mem_take ht))

/-- The nodes named on a text line are the nodes read while the counter `j`
has the number of the line. -/
theorem textLineNodes_eq (labels : List String) (N maxLabel : Nat) (toks : List (String × Bool))
    (hfit : LabelsFit maxLabel toks) (j : Nat) :
    textLineNodes labels N toks j = lineNodes labels N toks j := by
  unfold textLineNodes lineNodes
  congr 1
  funext k
  rw [textLine_tokenStart maxLabel toks hfit k]

/-- On the empty stream the loop does not come to an end: `fscanf` returns
`EOF` and the body is run on a label that was never read. -/
theorem assignLoop_empty (labels : List String) (maxLabel : Nat) (part : Partition) :
    assignLoop labels maxLabel [] part = none := rfl

/-! ## Theorems on `AssignNodesToModulesFromFile` -/

/-- C10, as amended: let the stream be a non-empty text in which every label is
followed by exactly one tab or newline, the labels being non-empty, free of
tabs and newlines and shorter than `MAX_LABEL_LENGTH`.  On a freshly allocated
partition (all `M` modules of size 0, `nempty = M`), when every label of the
stream matches a known label and every label stands on a text line below `M`,
the assignment loop runs to its end, and then the module sizes sum to the
number of labels in the stream and `nempty` is the number of modules whose
size is 0. -/
theorem assignLoop_invariant (labels : List String) (maxLabel : Nat)
    (toks : List (String × Bool)) (part : Partition)
    (hne : toks ≠ []) (hfit : LabelsFit maxLabel toks)
    (hsize : ∀ m, m < part.M → (part.modules m).size = 0)
    (hnempty : part.nempty = (part.M : Int))
    (hlab : ∀ t ∈ toks, ∃ i, i < part.N ∧ labels[i]? = some t.1)
    (hlines : ∀ k, k < toks.length → textLine (render toks) (tokenStart toks k) < part.M) :
    ∃ s, assignLoop labels maxLabel (render toks) part = some s ∧
      ∑ m in Finset.range part.M, (s.part.modules m).size = toks.length ∧
      s.part.nempty =
        (((Finset.range part.M).filter (fun m => (s.part.modules m).size = 0)).card : Int) := by
  rw [assignLoop_render labels maxLabel toks part hne hfit]
  exact tokens_invariant labels toks part hsize hnempty hlab
    (fun k hk => by rw [← textLine_tokenStart maxLabel toks hfit k]; exact hlines k hk)

/-- Witness for C10 (amended): three labels, the stream
`b <tab> a <newline> c <newline>` and a fresh partition of 3 nodes and 3
modules, with room for labels of up to 63 characters. -/
theorem assignLoop_invariant_witness :
    render [("b", false), ("a", true), ("c", true)] = ['b', '\t', 'a', '\n', 'c', '\n'] ∧
    ∃ s, assignLoop ["a", "b", "c"] 64 ['b', '\t', 'a', '\n', 'c', '\n']
        (freshPartition 3 3) = some s ∧
      ∑ m in Finset.range 3, (s.part.modules m).size = 3 ∧
      s.part.nempty =
        (((Finset.range 3).filter (fun m => (s.part.modules m).size = 0)).card : Int) :=
  ⟨rfl, assignLoop_invariant ["a", "b", "c"] 64 [("b", false), ("a", true), ("c", true)]
    (freshPartition 3 3)
    (by simp)
    (by
      intro t ht
      simp only [List.mem_cons, List.mem_singleton, List.not_mem_nil, or_false] at ht
      rcases ht with rfl | rfl | rfl <;> exact ⟨by decide, by decide, by decide⟩)
    (by intro m _; rfl)
    (by simp [freshPartition])
    (by
      intro t ht
      simp only [List.mem_cons, List.mem_singleton, List.not_mem_nil, or_false] at ht
      rcases ht with rfl | rfl | rfl
      · exact ⟨1, by decide, rfl⟩
      · exact ⟨0, by decide, rfl⟩
      · exact ⟨2, by decide, rfl⟩)
    (by
      intro k hk
      have hk' : k < 3 := hk
      have : k = 0 ∨ k = 1 ∨ k = 2 := by omega
      rcases this with rfl | rfl | rfl <;> decide)⟩

/-- Counterexample to C10 as stated: two known labels `a`, `b`, a fresh
partition of 2 nodes and 2 modules and the stream `a <newline>`: the label
matches a known label and there is one line, but after the loop the module
sizes sum to 1, not to `N = 2` (whatever `MAX_LABEL_LENGTH` is, from 2 on). -/
theorem assignLoop_invariant_counterexample :
    (∃ i, i < (freshPartition 2 2).N ∧ ["a", "b"][i]? = some "a") ∧
    ∀ maxLabel, 2 ≤ maxLabel →
      ∃ s, assignLoop ["a", "b"] maxLabel ['a', '\n'] (freshPartition 2 2) = some s ∧
        ∑ m in Finset.range (freshPartition 2 2).M, (s.part.modules m).size = 1 ∧
        ¬ (∑ m in Finset.range (freshPartition 2 2).M, (s.part.modules m).size =
          (freshPartition 2 2).N) := by
  refine ⟨⟨0, by decide, rfl⟩, ?_⟩
  intro maxLabel hmax
  have hlab : ∀ t ∈ [(("a" : String), true)],
      ∃ i, i < (freshPartition 2 2).N ∧ ["a", "b"][i]? = some t.1 := by
    intro t ht
    rw [List.mem_singleton] at ht
    subst ht
    exact ⟨0, by decide, rfl⟩
  have hfit : LabelsFit maxLabel [(("a" : String), true)] := by
    intro t ht
    rw [List.mem_singleton] at ht
    subst ht
    exact ⟨by decide, by decide, hmax⟩
  have hlines : ∀ k, k < [(("a" : String), true)].length →
      lineIndex [("a", true)] k < (freshPartition 2 2).M := by
    intro k hk
    have : k = 0 := by simpa using hk
    subst this
    simp [lineIndex, freshPartition]
  have hren : (['a', '\n'] : List Char) = render [("a", true)] := rfl
  rw [hren, assignLoop_render ["a", "b"] maxLabel [("a", true)] (freshPartition 2 2)
    (by simp) hfit]
  obtain ⟨s, hs, hsum, _⟩ := tokens_invariant ["a", "b"] [("a", true)] (freshPartition 2 2)
    (by intro m _; rfl) (by simp [freshPartition]) hlab hlines
  have hsum' : ∑ m in Finset.range (freshPartition 2 2).M, (s.part.modules m).size = 1 := by
    simpa using hsum
  refine ⟨s, hs, hsum', ?_⟩
  rw [hsum']
  simp [freshPartition]

/-- C11, as amended: let the stream be a non-empty text in which every label is
followed by exactly one tab or newline, the labels being non-empty, free of
tabs and newlines and shorter than `MAX_LABEL_LENGTH`.  Let the `N` known
labels be pairwise different, the modules that have a size have a `last` node
(as in a freshly allocated partition), every label of the stream match a known
label and stand on a text line below `M`, and no label occur twice in the
stream.  Then `AssignNodesToModulesFromFile` returns, and the count it returns
is the number of known labels that do not occur in the stream; it is 0 when
every known label occurs in the stream. -/
theorem AssignNodesToModulesFromFile_count (CompressPartition : Partition → Partition)
    (maxLabel : Nat) (toks : List (String × Bool)) (part : Partition) (labels : List String)
    (hne : toks ≠ []) (hfit : LabelsFit maxLabel toks)
    (hlast : ∀ m, m < part.M → (part.modules m).size ≠ 0 → (part.modules m).last ≠ none)
    (hN : part.N ≤ labels.length) (hnd : (labels.take part.N).Nodup)
    (hlab : ∀ t ∈ toks, ∃ i, i < part.N ∧ labels[i]? = some t.1)
    (hlines : ∀ k, k < toks.length → textLine (render toks) (tokenStart toks k) < part.M)
    (hstream : (toks.map Prod.fst).Nodup) :
    ∃ r, AssignNodesToModulesFromFile CompressPartition maxLabel (render toks) part labels =
        some r ∧
      r.1 = ((missingLabels labels part.N toks).length : Int) ∧
      ((∀ l ∈ labels.take part.N, l ∈ toks.map Prod.fst) → r.1 = 0) := by
  obtain ⟨s, hs, hnn⟩ := foldlM_assignStep_count labels part.M part.N toks
    { part := part, j := 0, nnode := part.N } hlast rfl
    (by
      intro k hk
      have := hlines k hk
      rw [textLine_tokenStart maxLabel toks hfit k] at this
      simpa using this)
    hlab
  have hcount := missing_count labels part.N toks hN hnd hstream hlab
  have hloop : assignLoop labels maxLabel (render toks) part = some s := by
    rw [assignLoop_render labels maxLabel toks part hne hfit]
    exact hs
  refine ⟨(s.nnode, CompressPartition s.part), ?_, ?_, ?_⟩
  · unfold AssignNodesToModulesFromFile
    rw [hloop]
  · show s.nnode = _
    rw [hnn]
    show (part.N : Int) - (toks.length : Int) = _
    omega
  · intro hall
    have hnil : missingLabels labels part.N toks = [] := by
      unfold missingLabels
      rw [List.filter_eq_nil_iff]
      intro l hl
      simp [hall l hl]
    rw [hnil] at hcount
    show s.nnode = 0
    rw [hnn]
    show (part.N : Int) - (toks.length : Int) = 0
    simp at hcount
    omega

/-- Witness for C11 (amended): three labels, a fresh partition and the stream
`b <tab> a <newline>`: the call returns 1, the label `c` being the one that
does not occur. -/
theorem AssignNodesToModulesFromFile_count_witness :
    render [("b", false), ("a", true)] = ['b', '\t', 'a', '\n'] ∧
    missingLabels ["a", "b", "c"] (freshPartition 3 3).N [("b", false), ("a", true)] = ["c"] ∧
    ∃ r, AssignNodesToModulesFromFile id 64 ['b', '\t', 'a', '\n'] (freshPartition 3 3)
        ["a", "b", "c"] = some r ∧
      r.1 = ((missingLabels ["a", "b", "c"] (freshPartition 3 3).N
        [("b", false), ("a", true)]).length : Int) ∧
      ((∀ l ∈ ["a", "b", "c"].take (freshPartition 3 3).N,
        l ∈ [(("b" : String), false), ("a", true)].map Prod.fst) → r.1 = 0) :=
  ⟨rfl, by decide,
    AssignNodesToModulesFromFile_count id 64 [("b", false), ("a", true)] (freshPartition 3 3)
    ["a", "b", "c"]
    (by simp)
    (by
      intro t ht
      simp only [List.mem_cons, List.mem_singleton, List.not_mem_nil, or_false] at ht
      rcases ht with rfl | rfl <;> exact ⟨by decide, by decide, by decide⟩)
    (by intro m _ h; exact absurd rfl h)
    (by decide)
    (by decide)
    (by
      intro t ht
      simp only [List.mem_cons, List.mem_singleton, List.not_mem_nil, or_false] at ht
      rcases ht with rfl | rfl
      · exact ⟨1, by decide, rfl⟩
      · exact ⟨0, by decide, rfl⟩)
    (by
      intro k hk
      have hk' : k < 2 := hk
      have : k = 0 ∨ k = 1 := by omega
      rcases this with rfl | rfl <;> decide)
    (by decide)⟩

/-- Counterexample to C11 as stated: two known labels `a`, `b`, a fresh
partition of 2 nodes and 2 modules and the stream `a <tab> a <newline>`.  Every
label of the stream matches a known label, the call returns `2 - 2 = 0`
(whatever `MAX_LABEL_LENGTH` is, from 2 on), but one known label, `b`, does not
occur in the stream. -/
theorem AssignNodesToModulesFromFile_count_counterexample :
    (∃ i, i < (freshPartition 2 2).N ∧ ["a", "b"][i]? = some "a") ∧
    missingLabels ["a", "b"] (freshPartition 2 2).N [("a", false), ("a", true)] = ["b"] ∧
    ∀ maxLabel, 2 ≤ maxLabel →
      (AssignNodesToModulesFromFile id maxLabel ['a', '\t', 'a', '\n'] (freshPartition 2 2)
        ["a", "b"]).map Prod.fst = some 0 := by
  refine ⟨⟨0, by decide, rfl⟩, by decide, ?_⟩
  intro maxLabel hmax
  have hfit : LabelsFit maxLabel [(("a" : String), false), ("a", true)] := by
    intro t ht
    simp only [List.mem_cons, List.mem_singleton, List.not_mem_nil, or_false] at ht
    rcases ht with rfl | rfl <;> exact ⟨by decide, by decide, hmax⟩
  have hren : (['a', '\t', 'a', '\n'] : List Char) = render [("a", false), ("a", true)] := rfl
  unfold AssignNodesToModulesFromFile
  rw [hren, assignLoop_render ["a", "b"] maxLabel [("a", false), ("a", true)]
    (freshPartition 2 2) (by simp) hfit]
  rfl

/-! ## Theorems on `AssignNodesToModulesFromFile` (module lists) -/

/-- A stream in which a label is followed by two separator characters, as in
a line that ends with a tab before its newline: the run does not fit
`char sep[2]`. -/
theorem assignLoop_long_separator (labels : List String) (maxLabel : Nat) (part : Partition) :
    assignLoop labels maxLabel ['a', '\t', '\n', 'b', '\t', '\n'] part = none := by
  unfold assignLoop
  simp only [List.length_cons, List.length_nil]
  rw [assignLoopFrom]
  have h1 : isSep 'a' = false := by decide
  have h2 : (['a', '\t', '\n', 'b', '\t', '\n'] : List Char).takeWhile (fun x => !isSep x) =
      ['a'] := by decide
  have h3 : (['a', '\t', '\n', 'b', '\t', '\n'] : List Char).dropWhile (fun x => !isSep x) =
      ['\t', '\n', 'b', '\t', '\n'] := by decide
  have h4 : (['\t', '\n', 'b', '\t', '\n'] : List Char).takeWhile isSep = ['\t', '\n'] := by
    decide
  simp only [h1, h2, h3, h4, Bool.false_eq_true, if_false, List.length_cons, List.length_nil]
  split <;> simp

/-- C16: let the stream be a non-empty text in which every label is followed by
exactly one tab or newline, the labels being non-empty, free of tabs and
newlines and shorter than `MAX_LABEL_LENGTH`.  On a freshly allocated partition
(every module of size 0, strength 0 and without a first node, no node with a
`next`), when every label of the stream matches a known label and stands on a
text line below `M`, and no label occurs twice, the assignment loop runs to its
end, and then: the node of a label that starts on text line `j` has
`module = j`; for every line `j < M` the list of module `j`, read from `first`
along `next`, is exactly the nodes named on text line `j` in stream order and
ends there, `last` is the last of them, `size` is their number and `strength`
the sum of their strengths.  On the empty stream, and on the stream
`a <tab> <newline> b <tab> <newline>` whose lines end with a tab before the
newline, the loop does not come to an end: the outcome is `none`. -/
theorem assignLoop_module_lists (labels : List String) (maxLabel : Nat)
    (toks : List (String × Bool)) (part : Partition) :
    (toks ≠ [] → LabelsFit maxLabel toks →
      (∀ m, m < part.M → (part.modules m).size = 0 ∧
        (part.modules m).strength = 0 ∧ (part.modules m).first = none) →
      (∀ i, i < part.N → (part.nodes i).next = none) →
      (∀ t ∈ toks, ∃ i, i < part.N ∧ labels[i]? = some t.1) →
      (toks.map Prod.fst).Nodup →
      (∀ k, k < toks.length → textLine (render toks) (tokenStart toks k) < part.M) →
      ∃ s, assignLoop labels maxLabel (render toks) part = some s ∧
        (∀ (k : Nat) (t : String × Bool) (i : Nat), toks[k]? = some t →
          lookupLabel labels part.N t.1 = some i →
          (s.part.nodes i).module = (textLine (render toks) (tokenStart toks k) : Int)) ∧
        ∀ j, j < part.M →
          (∀ i ∈ textLineNodes labels part.N toks j, (s.part.nodes i).module = (j : Int)) ∧
          (∀ fuel, (textLineNodes labels part.N toks j).length ≤ fuel →
            walk s.part.nodes fuel (s.part.modules j).first =
              textLineNodes labels part.N toks j) ∧
          (textLineNodes labels part.N toks j ≠ [] →
            (s.part.modules j).last = (textLineNodes labels part.N toks j).getLast?) ∧
          (s.part.modules j).size = (textLineNodes labels part.N toks j).length ∧
          (s.part.modules j).strength =
            ((textLineNodes labels part.N toks j).map
              (fun i => (s.part.nodes i).strength)).sum) ∧
    assignLoop labels maxLabel [] part = none ∧
    assignLoop labels maxLabel ['a', '\t', '\n', 'b', '\t', '\n'] part = none := by
  refine ⟨?_, rfl, assignLoop_long_separator labels maxLabel part⟩
  intro hne hfit hempty hnext hlab hstream hlines
  obtain ⟨s, hs, h1, h2⟩ := tokens_module_lists labels toks part hempty hnext hlab hstream
    (fun k hk => by rw [← textLine_tokenStart maxLabel toks hfit k]; exact hlines k hk)
  refine ⟨s, ?_, ?_, ?_⟩
  · rw [assignLoop_render labels maxLabel toks part hne hfit]
    exact hs
  · intro k t i hk hl
    rw [textLine_tokenStart maxLabel toks hfit k]
    exact h1 k t i hk hl
  · intro j hj
    rw [textLineNodes_eq labels part.N maxLabel toks hfit j]
    exact h2 j hj

/-- Witness for C16: three labels, a fresh partition of 3 nodes and 3 modules
and the stream `b <tab> a <newline> c <newline>`, with room for labels of up to
63 characters: module 0 lists the nodes 1 and 0, module 1 the node 2. -/
theorem assignLoop_module_lists_witness :
    render [("b", false), ("a", true), ("c", true)] = ['b', '\t', 'a', '\n', 'c', '\n'] ∧
    textLineNodes ["a", "b", "c"] 3 [("b", false), ("a", true), ("c", true)] 0 = [1, 0] ∧
    textLineNodes ["a", "b", "c"] 3 [("b", false), ("a", true), ("c", true)] 1 = [2] ∧
    ∃ s, assignLoop ["a", "b", "c"] 64 ['b', '\t', 'a', '\n', 'c', '\n']
        (freshPartition 3 3) = some s ∧
      walk s.part.nodes 2 (s.part.modules 0).first = [1, 0] ∧
      walk s.part.nodes 3 (s.part.modules 0).first = [1, 0] ∧
      walk s.part.nodes 1 (s.part.modules 1).first = [2] ∧
      (s.part.modules 0).last = some 0 ∧
      (s.part.modules 0).size = 2 ∧ (s.part.modules 1).size = 1 ∧
      (s.part.nodes 1).module = 0 ∧ (s.part.nodes 0).module = 0 ∧
      (s.part.nodes 2).module = 1 := by
  have h0 : textLineNodes ["a", "b", "c"] (freshPartition 3 3).N
      [("b", false), ("a", true), ("c", true)] 0 = [1, 0] := by decide
  have h1 : textLineNodes ["a", "b", "c"] (freshPartition 3 3).N
      [("b", false), ("a", true), ("c", true)] 1 = [2] := by decide
  obtain ⟨s, hs, _, hm⟩ := (assignLoop_module_lists ["a", "b", "c"] 64
      [("b", false), ("a", true), ("c", true)] (freshPartition 3 3)).1
    (by simp)
    (by
      intro t ht
      simp only [List.mem_cons, List.mem_singleton, List.not_mem_nil, or_false] at ht
      rcases ht with rfl | rfl | rfl <;> exact ⟨by decide, by decide, by decide⟩)
    (by intro m _; exact ⟨rfl, rfl, rfl⟩)
    (by intro i _; rfl)
    (by
      intro t ht
      simp only [List.mem_cons, List.mem_singleton, List.not_mem_nil, or_false] at ht
      rcases ht with rfl | rfl | rfl
      · exact ⟨1, by decide, rfl⟩
      · exact ⟨0, by decide, rfl⟩
      · exact ⟨2, by decide, rfl⟩)
    (by decide)
    (by
      intro k hk
      have hk' : k < 3 := hk
      have : k = 0 ∨ k = 1 ∨ k = 2 := by omega
      rcases this with rfl | rfl | rfl <;> decide)
  obtain ⟨a1, a2, a3, a4, _⟩ := hm 0 (by decide)
  obtain ⟨b1, b2, _, b4, _⟩ := hm 1 (by decide)
  rw [h0] at a1 a2 a3 a4
  rw [h1] at b1 b2 b4
  exact ⟨rfl, h0, h1, s, hs, a2 2 (by simp), a2 3 (by simp), b2 1 (by simp),
    a3 (by simp), a4, b4, a1 1 (by simp), a1 0 (by simp), b1 2 (by simp)⟩

/-! ## Theorems on the sum of `adj->strength` -/

end Rgraph
